import Mathlib

/-!
Verification of the partitioning engine of `autoparts.py`.

This file gives a shallow embedding of the program's core pipeline —
name normalization (`to_snake`), Tarjan's strongly-connected-component
computation (`strongly_connected_components`), component construction
(`build_components`), the packing optimizer (`repack_components`) and the
renderer (`render_module` / `render_init`, plus the collision guard of
`plan_and_write_single`) — and proves or refutes the specified properties
of that pipeline.

Conventions of the embedding:
* Python strings are modeled as Lean `String` / `List Char`; the character
  classes used by the source's regexes (`[a-z0-9]`, `[A-Z]`,
  `[^0-9a-zA-Z_]`) are ASCII classes exactly as written in the source.
  Python's `str.strip()` strips Unicode whitespace; the model strips the
  ASCII whitespace characters, which is all the pipeline ever produces.
* Python `set` values are modeled as lists whose order stands for the
  set's (unspecified) iteration order; every theorem that depends on such
  a list quantifies over it or only uses its membership.
* Python `dict` preserves first-insertion key order and updates values in
  place; the model (`pyDictInsert`) reproduces exactly that.
* Loops whose Python form is `while` are modeled with an explicit bound
  (`fuel`) equal to the number of components, which dominates the number
  of merge iterations the source loop can perform, since every iteration
  either merges two components (shrinking the list) or stops the loop.
-/

set_option linter.unusedSectionVars false
set_option linter.unusedVariables false

namespace Autoparts

/-! ## Python string primitives -/

/-- ASCII whitespace, the effective domain of `str.strip()` for the strings
this program produces. -/
def pyIsSpace (c : Char) : Bool :=
  c = ' ' || c = '\t' || c = '\n' || c = '\x0d' || c = '\x0b' || c = '\x0c'

/-- Python `str.strip()` on a character list. -/
def pyStripL (l : List Char) : List Char :=
  (l.dropWhile pyIsSpace).reverse.dropWhile pyIsSpace |>.reverse

/-- ASCII lower-case letter or digit: the regex class `[a-z0-9]`. -/
def isLowerDigit (c : Char) : Bool :=
  ('a' ≤ c && c ≤ 'z') || ('0' ≤ c && c ≤ '9')

/-- ASCII upper-case letter: the regex class `[A-Z]`. -/
def isUpperAscii (c : Char) : Bool :=
  'A' ≤ c && c ≤ 'Z'

/-- Characters kept by the regex `[^0-9a-zA-Z_]+` substitution. -/
def isIdentChar (c : Char) : Bool :=
  isLowerDigit c || isUpperAscii c || c = '_'

/-- One left-to-right pass of `re.sub("([a-z0-9])([A-Z])", r"\1_\2", name)`:
whenever a lower-case letter or digit is immediately followed by an
upper-case letter, an underscore is inserted and scanning resumes after the
matched pair. -/
def camelSub : List Char → List Char
  | [] => []
  | [c] => [c]
  | a :: b :: rest =>
    if isLowerDigit a && isUpperAscii b then a :: '_' :: b :: camelSub rest
    else a :: camelSub (b :: rest)

/-- The substitution `_identifier_re.sub("_", name)`: every maximal run of
characters outside `[0-9a-zA-Z_]` becomes a single underscore.  `inRun`
records whether the previous character belonged to such a run, so the
whole run contributes its single `_` at its first character. -/
def identSubGo : Bool → List Char → List Char
  | _, [] => []
  | inRun, c :: cs =>
    if isIdentChar c then c :: identSubGo false cs
    else if inRun then identSubGo true cs
    else '_' :: identSubGo true cs

def identSub (l : List Char) : List Char := identSubGo false l

/-- Python `str.lower()`; after `identSub` only ASCII characters remain, so
ASCII lowering is exact here. -/
def pyLowerChar (c : Char) : Char :=
  if isUpperAscii c then Char.ofNat (c.toNat + 32) else c

def pyLowerL (l : List Char) : List Char := l.map pyLowerChar

/-- Python `str.strip("_")`. -/
def stripUnderscoresL (l : List Char) : List Char :=
  (l.dropWhile (fun c => c = '_')).reverse.dropWhile (fun c => c = '_') |>.reverse

/-- The fixed keyword list of `keyword.iskeyword` (CPython `keyword.kwlist`). -/
def pyKeywords : List String :=
  ["False", "None", "True", "and", "as", "assert", "async", "await",
   "break", "class", "continue", "def", "del", "elif", "else", "except",
   "finally", "for", "from", "global", "if", "import", "in", "is",
   "lambda", "nonlocal", "not", "or", "pass", "raise", "return",
   "try", "while", "with", "yield"]

def pyIsKeyword (s : String) : Bool := s ∈ pyKeywords

/-- Python `str[0].isdigit()` for the ASCII strings this function produces. -/
def isDigitAscii (c : Char) : Bool := '0' ≤ c && c ≤ '9'

/-- The first four transformation lines of `to_snake`: strip, `-`→`_`,
camel-case split, collapse invalid runs to `_`, lower, strip `_`. -/
def snakeCore (l : List Char) : List Char :=
  stripUnderscoresL (pyLowerL (identSub
    (camelSub ((pyStripL l).map fun c => if c = '-' then '_' else c))))

/-- Embedding of `to_snake` (autoparts.py lines 65-75) on character lists:
the core transformation, then the empty / leading-digit / keyword
fixups. -/
def toSnakeL (l : List Char) : List Char :=
  let s3 := snakeCore l
  let s4 := if s3 = [] then ['m', 'o', 'd', 'u', 'l', 'e'] else s3
  let s5 := if isDigitAscii (s4.headD ' ') then 'm' :: '_' :: s4 else s4
  if pyIsKeyword (String.mk s5) then 'm' :: 'o' :: 'd' :: '_' :: s5 else s5

/-- Embedding of `to_snake` on strings. -/
def toSnake (s : String) : String := String.mk (toSnakeL s.data)

/-- Characters a normalized name may contain: `[a-z0-9_]`. -/
def isSnakeChar (c : Char) : Bool := isLowerDigit c || c = '_'

/-- The normal form that `to_snake` establishes: only `[a-z0-9_]`
characters, nonempty, no leading or trailing underscore, no leading digit,
and not a keyword. -/
def IsNormal (l : List Char) : Prop :=
  (∀ c ∈ l, isSnakeChar c = true) ∧ l ≠ [] ∧ l.head? ≠ some '_' ∧
    l.getLast? ≠ some '_' ∧ (∀ c, l.head? = some c → isDigitAscii c = false) ∧
    pyIsKeyword (String.mk l) = false

/-! ## Tarjan's strongly connected components

Embedding of `strongly_connected_components` (autoparts.py lines 336-381).
The Python function is recursive (`strongconnect`); the embedding is the
same recursion with an explicit fuel bound, which never runs out for the
fuel supplied by `sccsOf` because every nested `strongconnect` call is
guarded by "not yet indexed" and immediately indexes its vertex.  `indices`
and `lowlink` dicts are modeled as optional-valued functions, `stack` as a
list with its head the top, and `onstack` by membership in `stack` (the
Python set mirrors the stack exactly). -/

structure TarjanSt (α : Type) where
  n : Nat
  num : α → Option Nat
  low : α → Option Nat
  stack : List α
  sccs : List (List α)

variable {α : Type} [DecidableEq α]

def initSt : TarjanSt α := ⟨0, fun _ => none, fun _ => none, [], []⟩

def numOf (s : TarjanSt α) (x : α) : Nat := (s.num x).getD 0

def lowOf (s : TarjanSt α) (x : α) : Nat := (s.low x).getD 0

def setF (f : α → Option Nat) (x : α) (v : Nat) : α → Option Nat :=
  fun y => if y = x then some v else f y

/-- Pop the stack down to and including `v`; first component is the popped
segment in pop order (`comp.append(w)` until `w == v`). -/
def popTo (v : α) : List α → List α × List α
  | [] => ([], [])
  | w :: rest =>
    if w = v then ([w], rest)
    else
      let p := popTo v rest
      (w :: p.1, p.2)

/-- The `if lowlink[v] == indices[v]` root pop: the popped segment becomes
the next emitted component (`components.append(comp)`). -/
def popScc (v : α) (s : TarjanSt α) : TarjanSt α :=
  let p := popTo v s.stack
  { s with stack := p.2, sccs := s.sccs ++ [p.1] }

/-- The `for w in graph.get(v, set())` loop inside `strongconnect`, with
the recursive call for an unvisited neighbor abstracted as `child`. -/
def visitNbrsAux (child : α → TarjanSt α → TarjanSt α) (v : α) :
    List α → TarjanSt α → TarjanSt α
  | [], s => s
  | w :: ws, s =>
    if (s.num w).isNone then
      let s2 := child w s
      let s3 := { s2 with low := setF s2.low v (min (lowOf s2 v) (lowOf s2 w)) }
      visitNbrsAux child v ws s3
    else if w ∈ s.stack then
      visitNbrsAux child v ws
        { s with low := setF s.low v (min (lowOf s v) (numOf s w)) }
    else visitNbrsAux child v ws s

/-- One `strongconnect(v)` call: index and push `v`, process the neighbor
list, then pop an SCC if `v` is a root.  The fuel bounds the nesting depth
of recursive calls. -/
def visit (g : α → List α) : Nat → α → TarjanSt α → TarjanSt α
  | 0, _, s => s
  | fuel + 1, v, s =>
    let s1 : TarjanSt α :=
      { n := s.n + 1, num := setF s.num v s.n, low := setF s.low v s.n,
        stack := v :: s.stack, sccs := s.sccs }
    let s2 := visitNbrsAux (fun w t => visit g fuel w t) v (g v) s1
    if s2.low v = s2.num v then popScc v s2 else s2

/-- The neighbor loop at a given fuel. -/
def visitNbrs (g : α → List α) (fuel : Nat) (v : α) (ws : List α)
    (s : TarjanSt α) : TarjanSt α :=
  visitNbrsAux (fun w t => visit g fuel w t) v ws s

theorem visitNbrs_nil (g : α → List α) (fuel : Nat) (v : α) (s : TarjanSt α) :
    visitNbrs g fuel v [] s = s := rfl

theorem visitNbrs_cons (g : α → List α) (fuel : Nat) (v w : α) (ws : List α)
    (s : TarjanSt α) :
    visitNbrs g fuel v (w :: ws) s =
      if (s.num w).isNone then
        let s2 := visit g fuel w s
        let s3 := { s2 with low := setF s2.low v (min (lowOf s2 v) (lowOf s2 w)) }
        visitNbrs g fuel v ws s3
      else if w ∈ s.stack then
        visitNbrs g fuel v ws
          { s with low := setF s.low v (min (lowOf s v) (numOf s w)) }
      else visitNbrs g fuel v ws s := rfl

/-- The `for v in graph: if v not in indices: strongconnect(v)` loop. -/
def tarjanLoop (g : α → List α) (fuel : Nat) : List α → TarjanSt α → TarjanSt α
  | [], s => s
  | v :: vs, s =>
    if (s.num v).isNone then tarjanLoop g fuel vs (visit g fuel v s)
    else tarjanLoop g fuel vs s

/-- Neighbor function of a graph given as an association list (a Python
dict): `graph.get(v, set())`, the set's iteration order being the stored
list order. -/
def succsOf (g : List (α × List α)) : α → List α :=
  fun v => ((g.find? (fun p => decide (p.1 = v))).map Prod.snd).getD []

/-- All vertices the algorithm can ever touch: keys and dependency
targets. -/
def tarjanU (g : List (α × List α)) : List α :=
  g.map Prod.fst ++ (g.map Prod.snd).flatten

/-- Embedding of `strongly_connected_components(graph)`: emitted component
list in emission order.  The fuel exceeds the number of vertices, which
bounds the depth of nested `strongconnect` calls. -/
def sccsOf (g : List (α × List α)) : List (List α) :=
  (tarjanLoop (succsOf g) ((tarjanU g).length + 1) (g.map Prod.fst) initSt).sccs

/-! ## Specification vocabulary for the SCC computation -/

/-- Reachability in the dependency graph: zero or more directed edges. -/
def Reach (g : α → List α) : α → α → Prop :=
  Relation.ReflTransGen fun a b => b ∈ g a

/-- A vertex already emitted into some component. -/
def Popped (s : TarjanSt α) (x : α) : Prop := ∃ S ∈ s.sccs, x ∈ S

/-- What a finished frame knows about one of its edges `v → y`: the target
is indexed, and is either already emitted or still on the stack with a
number at least `lowlink[v]`. -/
def EdgeFact (s : TarjanSt α) (v y : α) : Prop :=
  (s.num y).isSome ∧ (Popped s y ∨ (y ∈ s.stack ∧ lowOf s v ≤ numOf s y))

/-- Facts holding for every vertex whose `strongconnect` call has finished
but which is still on the stack: it is a non-root, it reaches a stack
vertex whose number equals its lowlink, and all its edge targets are
accounted for. -/
def Certified (g : α → List α) (s : TarjanSt α) (x : α) : Prop :=
  x ∈ s.stack ∧ lowOf s x < numOf s x ∧
    (∃ u ∈ s.stack, numOf s u = lowOf s x ∧ Reach g x u) ∧
    (∀ y ∈ g x, EdgeFact s x y)

/-- Number of not-yet-indexed universe vertices; the decreasing measure of
the recursion. -/
def unvisited (U : List α) (s : TarjanSt α) : Nat :=
  (U.filter fun x => (s.num x).isNone).length

/-- The state invariant of the SCC computation. -/
structure Wf (g : α → List α) (U : List α) (s : TarjanSt α) : Prop where
  stack_nodup : s.stack.Nodup
  stack_dom : ∀ x ∈ s.stack, (s.num x).isSome
  stack_sorted : s.stack.Pairwise fun a b => numOf s b < numOf s a
  num_lt : ∀ x, (s.num x).isSome → numOf s x < s.n
  num_inj : ∀ x y, (s.num x).isSome → (s.num y).isSome → numOf s x = numOf s y → x = y
  dom_U : ∀ x, (s.num x).isSome → x ∈ U
  dom_split : ∀ x, (s.num x).isSome ↔ (x ∈ s.stack ∨ Popped s x)
  stack_no_pop : ∀ x ∈ s.stack, ¬ Popped s x
  sccs_disj : s.sccs.Pairwise fun S T => ∀ x ∈ S, x ∉ T
  sccs_nodup : ∀ S ∈ s.sccs, S.Nodup
  low_le : ∀ x ∈ s.stack, lowOf s x ≤ numOf s x
  pfx_closed : ∀ k x, (∃ S ∈ s.sccs.take k, x ∈ S) → ∀ y ∈ g x, ∃ S ∈ s.sccs.take k, y ∈ S
  sccs_sc : ∀ S ∈ s.sccs, ∀ x ∈ S, ∀ y ∈ S, Reach g x y

/-- Postcondition of one completed `strongconnect(v)` call. -/
structure VisitPost (g : α → List α) (U : List α) (v : α) (s s' : TarjanSt α) : Prop where
  wf : Wf g U s'
  n_lt : s.n < s'.n
  num_keep : ∀ x, (s.num x).isSome → s'.num x = s.num x
  num_v : s'.num v = some s.n
  num_new : ∀ x, (s'.num x).isSome → (s.num x).isSome ∨ (s.n ≤ numOf s' x ∧ Reach g v x)
  low_keep : ∀ x, x ≠ v → (s.num x).isSome → s'.low x = s.low x
  stack_ext : ∃ Δ, s'.stack = Δ ++ s.stack ∧ (∀ x ∈ Δ, (s.num x).isNone) ∧
    (∀ x ∈ Δ, Certified g s' x) ∧ (∀ x ∈ Δ, lowOf s' v ≤ lowOf s' x)
  sccs_ext : ∃ N, s'.sccs = s.sccs ++ N ∧ (∀ S ∈ N, ∀ x ∈ S, (s.num x).isNone) ∧ ∀ S ∈ N, S ≠ []
  low_v_ge : ∀ k, (∀ u ∈ s.stack, k ≤ numOf s u) → k ≤ s.n → k ≤ lowOf s' v
  cert_keep : ∀ x, Certified g s x → Certified g s' x
  root_split : v ∈ s'.stack ∨
    (s'.stack = s.stack ∧ Popped s' v ∧ lowOf s' v = numOf s' v)

/-- The visit specification at a given fuel. -/
def VisitSpec (g : α → List α) (U : List α) (fuel : Nat) : Prop :=
  ∀ v s, Wf g U s → (s.num v).isNone → v ∈ U → fuel > unvisited U s →
    VisitPost g U v s (visit g fuel v s)

/-- Postcondition of the neighbor loop of a frame `v`. -/
structure NbrsPost (g : α → List α) (U : List α) (v : α) (s s' : TarjanSt α) : Prop where
  wf : Wf g U s'
  n_mono : s.n ≤ s'.n
  num_keep : ∀ x, (s.num x).isSome → s'.num x = s.num x
  num_new : ∀ x, (s'.num x).isSome → (s.num x).isSome ∨ (s.n ≤ numOf s' x ∧ Reach g v x)
  low_keep : ∀ x, x ≠ v → (s.num x).isSome → s'.low x = s.low x
  num_v_keep : s'.num v = s.num v
  low_v_mono : lowOf s' v ≤ lowOf s v
  low_v_ge : ∀ k, (∀ u ∈ s.stack, k ≤ numOf s u) → k ≤ lowOf s v → k ≤ s.n → k ≤ lowOf s' v
  stack_ext : ∃ Δ, s'.stack = Δ ++ s.stack ∧ (∀ x ∈ Δ, (s.num x).isNone) ∧
    (∀ x ∈ Δ, Certified g s' x) ∧ (∀ x ∈ Δ, lowOf s' v ≤ lowOf s' x)
  sccs_ext : ∃ N, s'.sccs = s.sccs ++ N ∧ (∀ S ∈ N, ∀ x ∈ S, (s.num x).isNone) ∧ ∀ S ∈ N, S ≠ []
  cert_keep : ∀ x, x ≠ v → Certified g s x → Certified g s' x
  low_v_some : (s.low v).isSome → (s'.low v).isSome
  low_wit : lowOf s' v < numOf s' v →
    ∃ u ∈ s'.stack, numOf s' u = lowOf s' v ∧ Reach g v u

/-! ## Source model: statements and items -/

/-- An assignment target: a plain `ast.Name`, or any other target form
(tuple/list unpacking, attribute, subscript) together with the names it
would bind. -/
inductive PyTarget where
  | name (n : String)
  | nonName (bound : List String)
deriving DecidableEq, Repr

/-- A top-level statement of the source file, abstracted to what
`extract_top_level_items` inspects: the constructor, the definition name
or assignment targets, the identifiers the `DependencyVisitor` collects in
Load context within the node (`refs`), and the node's verbatim source
segment. -/
inductive PyStmt where
  | importS (src : String)
  | classDef (nm : String) (refs : List String) (src : String)
  | funcDef (nm : String) (refs : List String) (src : String)
  | assignS (targets : List PyTarget) (refs : List String) (src : String)
  | annAssign (target : PyTarget) (refs : List String) (src : String)
  | ifMain (src : String)
  | otherS (src : String)
deriving DecidableEq, Repr

/-- Embedding of `TopLevelItem`: `deps` is filled in by
`extractTopLevel` exactly as lines 323-329 fill `it.deps`. -/
structure Item where
  name : String
  kind : String
  refs : List String
  source : String
  deps : List String := []
deriving DecidableEq, Repr

/-- The items a single top-level statement contributes (the second loop of
`extract_top_level_items`, lines 296-321): one per class/function
definition, one per plain-`Name` assignment target, none otherwise. -/
def stmtItems : PyStmt → List Item
  | .classDef n r s => [{ name := n, kind := "class", refs := r, source := s }]
  | .funcDef n r s => [{ name := n, kind := "func", refs := r, source := s }]
  | .assignS ts r s =>
    ts.filterMap fun t =>
      match t with
      | .name n => some { name := n, kind := "assign", refs := r, source := s }
      | .nonName _ => none
  | .annAssign (.name n) r s => [{ name := n, kind := "assign", refs := r, source := s }]
  | _ => []

/-- Python `str.rstrip()`. -/
def pyRstrip (s : String) : String :=
  String.mk ((s.data.reverse.dropWhile pyIsSpace).reverse)

/-- Python `str.strip()` on strings. -/
def pyStrip (s : String) : String := String.mk (pyStripL s.data)

/-- The dependency set of one item (lines 324-329): the visitor's
collected names restricted to the top-level name set, minus the item's own
name.  The list order stands for the Python set's iteration order. -/
def itemDeps (ns : List String) (it : Item) : List String :=
  it.refs.filter fun r => decide (r ∈ ns) && decide (r ≠ it.name)

/-- Embedding of `extract_top_level_items`: the ordered item list with
dependencies resolved, and the deduplicated-later import statement texts
(deduplication happens in the renderer; extraction keeps every
occurrence, line 298). -/
def extractTopLevel (file : List PyStmt) : List Item × List String :=
  let items0 := (file.map stmtItems).flatten
  let ns := items0.map Item.name
  let items := items0.map fun it => { it with deps := itemDeps ns it }
  let imports := file.filterMap fun st =>
    match st with
    | .importS s => some (pyRstrip s)
    | _ => none
  (items, imports)

/-! ## Python dict and sorting models -/

/-- One Python dict assignment `d[k] = v`: an existing key keeps its
position and gets the new value, a new key is appended. -/
def pyDictInsert {κ β : Type} [DecidableEq κ] (d : List (κ × β)) (k : κ) (v : β) :
    List (κ × β) :=
  if d.any (fun p => decide (p.1 = k)) then
    d.map fun p => if p.1 = k then (k, v) else p
  else d ++ [(k, v)]

/-- A dict built by successive assignments. -/
def pyDictOf {κ β : Type} [DecidableEq κ] (pairs : List (κ × β)) : List (κ × β) :=
  pairs.foldl (fun d p => pyDictInsert d p.1 p.2) []

/-- Python `d.get(k)`. -/
def pyLookup {κ β : Type} [DecidableEq κ] (d : List (κ × β)) (k : κ) : Option β :=
  (d.find? (fun p => decide (p.1 = k))).map Prod.snd

/-- Code-point comparison of character lists, Python's `<=` on `str`. -/
def charListLe : List Char → List Char → Bool
  | [], _ => true
  | _ :: _, [] => false
  | a :: as, b :: bs =>
    if a.toNat < b.toNat then true
    else if b.toNat < a.toNat then false
    else charListLe as bs

def pyStrLe (a b : String) : Bool := charListLe a.data b.data

/-- Stable insertion into a sorted list: the new element goes after every
element it does not strictly precede, exactly where Python's stable sort
keeps it. -/
def pyInsert {β : Type} (le : β → β → Bool) (x : β) : List β → List β
  | [] => [x]
  | y :: ys => if le y x then y :: pyInsert le x ys else x :: y :: ys

/-- Python's stable `sorted`, as insertion sort (stability: equal keys
keep first-appearance order). -/
def pySort {β : Type} (le : β → β → Bool) (l : List β) : List β :=
  l.foldl (fun acc x => pyInsert le x acc) []

/-- Python `sorted` on strings. -/
def sortStr (l : List String) : List String := pySort pyStrLe l

/-- Python stable `list.sort(key=...)` with a string key. -/
def sortByStrKey {β : Type} (key : β → String) (l : List β) : List β :=
  pySort (fun x y => pyStrLe (key x) (key y)) l

/-- Python stable `list.sort(key=...)` with an integer key. -/
def sortByNatKey {β : Type} (key : β → Nat) (l : List β) : List β :=
  pySort (fun x y => decide (key x ≤ key y)) l

/-- Python `str.lower()` for the ASCII identifiers this pipeline handles. -/
def pyLowerStr (s : String) : String := String.mk (pyLowerL s.data)

/-! ## Component construction -/

/-- Embedding of `Component`. -/
structure Comp where
  names : List String
  items : List Item
  module_name : String
deriving DecidableEq, Repr

/-- Embedding of `module_name_for_component` (lines 91-100). -/
def moduleNameFor (names : List String) : String :=
  let parts := (names.filter (fun n => n ≠ "")).map toSnake
  let base := parts.headD ("module")
  let base := ((parts.drop 1).take 2).foldl
    (fun b extra => if b.length < 20 then b ++ "_" ++ extra else b) base
  let base :=
    if base.length > 40 then
      String.mk (((base.take 40).data.reverse.dropWhile (fun c => c = '_')).reverse)
    else base
  if base = "" then "module" else base

/-- The `{it.name: it for it in items}` dict (a later duplicate name
overwrites the value). -/
def itemByName (items : List Item) : List (String × Item) :=
  pyDictOf (items.map fun it => (it.name, it))

/-- The `{it.name: set(it.deps) for it in items}` dependency graph. -/
def buildGraph (items : List Item) : List (String × List String) :=
  pyDictOf (items.map fun it => (it.name, it.deps))

/-- Count of distinct dependencies of a component leaving the component
(`external_dep_count`, lines 412-417). -/
def extDepCount (graph : List (String × List String)) (c : Comp) : Nat :=
  (((c.names.map (fun n => (pyLookup graph n).getD [])).flatten).dedup.filter
    (fun d => decide (d ∉ c.names))).length

/-- Embedding of `build_components` (lines 386-420): SCC grouping,
case-insensitive member sort, initial module names, symbol→module map,
and the coarse ordering by external dependency count. -/
def buildComponents (items : List Item) : List Comp × List (String × String) :=
  let graph := buildGraph items
  let sccs := sccsOf graph
  let comps := sccs.map fun compNames =>
    let compItems := sortByStrKey (fun it => pyLowerStr it.name)
      (compNames.map fun n =>
        (pyLookup (itemByName items) n).getD { name := n, kind := "", refs := [], source := "" })
    { names := compItems.map Item.name, items := compItems,
      module_name := moduleNameFor (compItems.map Item.name) : Comp }
  let ntm := pyDictOf ((sccs.zip comps).flatMap fun p =>
    p.1.map fun n => (n, p.2.module_name))
  (sortByNatKey (extDepCount graph) comps, ntm)

/-! ## Packing optimizer -/

/-- Line count of one item (`_item_lines`): `len(source.splitlines())`,
zero for the empty string.  `splitlines` counts one line per newline plus
a final unterminated line. -/
def itemLines (it : Item) : Nat :=
  if it.source.data = [] then 0
  else it.source.data.count '\n' +
    (if it.source.data.getLast? = some '\n' then 0 else 1)

def compLines (c : Comp) : Nat := (c.items.map itemLines).sum

/-- `_assign_only`. -/
def assignOnly (c : Comp) : Bool := c.items.all fun it => it.kind = "assign"

/-- Embedding of `merge_components` with `new_name=None` (the only form the
pipeline uses): concatenate and re-derive the module name. -/
def mergeComps (a b : Comp) : Comp :=
  { names := a.names ++ b.names, items := a.items ++ b.items,
    module_name := moduleNameFor (a.names ++ b.names) }

/-- Embedding of `rebuild_name_to_module`. -/
def rebuildNtm (comps : List Comp) : List (String × String) :=
  pyDictOf (comps.flatMap fun c => c.items.map fun it => (it.name, c.module_name))

/-- The caller-supplied packing configuration; integer options are `Int`
because the CLI imposes no sign restriction. -/
structure PackCfg where
  group_assignments : Bool := true
  pack_small_lines : Int := 40
  max_modules : Int := 12
  min_module_lines : Int := 0
  target_modules : Option Int := none
deriving DecidableEq, Repr

/-- Step 1 of `repack_components`: union all assignment-only components
into one reserved `constants` component. -/
def packStep1 (groupAssignments : Bool) (comps : List Comp) : List Comp :=
  if groupAssignments then
    match comps.filter assignOnly with
    | a :: b :: rest =>
      let merged := (b :: rest).foldl mergeComps a
      comps.filter (fun c => !(assignOnly c)) ++ [{ merged with module_name := "constants" }]
    | _ => comps
  else comps

/-- Step 2: union all small non-assignment components into one reserved
`core` component (threshold `pack_small_lines`). -/
def packStep2 (packSmallLines : Int) (comps : List Comp) : List Comp :=
  if packSmallLines > 0 then
    match comps.filter (fun c => decide ((compLines c : Int) < packSmallLines) && !(assignOnly c)) with
    | a :: b :: rest =>
      let merged := (b :: rest).foldl mergeComps a
      comps.filter
          (fun c => !(decide ((compLines c : Int) < packSmallLines) && !(assignOnly c)))
        ++ [{ merged with module_name := "core" }]
    | _ => comps
  else comps

/-- The `merge_smallest_once` helper: merge the two smallest components
not named `constants`/`core`, or report that no merge is possible. -/
def mergeSmallestOnce (comps : List Comp) : Option (List Comp) :=
  let movable := comps.filter fun c => decide (c.module_name ∉ ["constants", "core"])
  if movable.length < 2 then none
  else
    match sortByNatKey compLines movable with
    | a :: b :: _ =>
      some ((comps.filter fun c => decide (c ≠ a) && decide (c ≠ b)) ++ [mergeComps a b])
    | _ => none

/-- Step 3 / step 5 loop body: `while <count too big>: merge smallest or
break`.  The fuel dominates the possible iteration count, since every
iteration either shrinks the list or stops. -/
def shrinkLoop (tooBig : Nat → Bool) : Nat → List Comp → List Comp
  | 0, comps => comps
  | fuel + 1, comps =>
    if tooBig comps.length then
      match mergeSmallestOnce comps with
      | some cs => shrinkLoop tooBig fuel cs
      | none => comps
    else comps

/-- Step 3.5 loop: while some movable component is under
`min_module_lines`, merge the smallest such with the smallest other
movable component. -/
def minLinesLoop (minL : Int) : Nat → List Comp → List Comp
  | 0, comps => comps
  | fuel + 1, comps =>
    match sortByNatKey compLines (comps.filter fun c =>
      decide ((compLines c : Int) < minL) &&
        decide (c.module_name ∉ ["constants", "core"])) with
    | [] => comps
    | s :: _ =>
      match sortByNatKey compLines ((comps.erase s).filter fun c =>
        decide (c.module_name ∉ ["constants", "core"])) with
      | [] => comps
      | o :: _ =>
        minLinesLoop minL fuel
          ((comps.filter fun c => decide (c ≠ s) && decide (c ≠ o)) ++ [mergeComps s o])

/-- Embedding of `repack_components` (lines 453-543): the five packing
steps and the from-scratch rebuild of the symbol→module map. -/
def repackComps (cfg : PackCfg) (comps0 : List Comp) : List Comp × List (String × String) :=
  let c1 := packStep1 cfg.group_assignments comps0
  let c2 := packStep2 cfg.pack_small_lines c1
  let c3 := shrinkLoop
    (fun len => decide (cfg.max_modules ≠ 0) && decide ((len : Int) > cfg.max_modules))
    (c2.length + 1) c2
  let c35 :=
    if cfg.min_module_lines > 0 then minLinesLoop cfg.min_module_lines (c3.length + 1) c3
    else c3
  let c4 :=
    match cfg.target_modules with
    | some t =>
      if t > 0 then shrinkLoop (fun len => decide ((len : Int) > t)) (c35.length + 1) c35
      else c35
    | none => c35
  (c4, rebuildNtm c4)

/-! ## Renderers -/

def HEADER : String := "# Generated by autoparts.py — DO NOT EDIT BY HAND\n"

/-- Embedding of `_dedup_imports`: keep the stripped text of each distinct
nonempty import line, in first-occurrence order. -/
def dedupImports : List String → List String := go []
where
  go (seen : List String) : List String → List String
    | [] => []
    | l :: ls =>
      let key := pyStrip l
      if key ≠ "" ∧ key ∉ seen then key :: go (key :: seen) ls else go seen ls

def joinComma (l : List String) : String := String.intercalate (", ") l

/-- Python `repr` of an identifier string (single quotes). -/
def pyRepr (s : String) : String := "\x27" ++ s ++ "\x27"

/-- The intra-package import pairs a component emits: for every item
dependency owned by another module, the owning module name (looked up in
`name_to_module`) paired with the symbol. -/
def extPairs (component : Comp) (ntm : List (String × String)) : List (String × String) :=
  component.items.flatMap fun it =>
    it.deps.filterMap fun dep =>
      if dep ∈ component.names then none
      else
        match pyLookup ntm dep with
        | some m => if m = "" then none else some (m, dep)
        | none => none

/-- Embedding of `render_module` as its `lines` list (the emitted text is
these lines joined with newlines): header, deduplicated imports,
consolidated same-package imports (modules sorted, each module's symbol
set sorted), each item's verbatim source (right-stripped) with a blank
line, and the `__all__` export list. -/
def renderModuleLines (component : Comp) (allImports : List String)
    (ntm : List (String × String)) : List String :=
  let lines0 := [HEADER]
  let dedup := dedupImports allImports
  let lines1 := lines0 ++ (if dedup ≠ [] then dedup ++ [""] else [])
  let pairs := extPairs component ntm
  let importLines := (sortStr ((pairs.map Prod.fst).dedup)).map fun m =>
    "from ." ++ m ++ " import " ++
      joinComma (sortStr (((pairs.filter fun p => decide (p.1 = m)).map Prod.snd).dedup))
  let lines2 := lines1 ++ importLines ++ (if pairs ≠ [] then [""] else [])
  let lines3 := lines2 ++ component.items.flatMap fun it => [pyRstrip it.source, ""]
  lines3 ++ ["__all__ = [" ++ joinComma (component.names.map pyRepr) ++ "]", ""]

/-- The verbatim source blocks `render_module` emits for a component. -/
def renderedBlocks (component : Comp) : List String :=
  component.items.map fun it => pyRstrip it.source

/-- Embedding of `render_init` (without the optional docstring, which the
exported-name claims do not involve): per-component re-export lines and
the sorted deduplicated `__all__`. -/
def renderInitLines (comps : List Comp) : List String :=
  let withNames := comps.filter fun c => joinComma c.names ≠ ""
  let reexports := withNames.map fun c =>
    "from ." ++ c.module_name ++ " import " ++ joinComma c.names
  let allNames := (withNames.map Comp.names).flatten
  [HEADER] ++ reexports ++ [""] ++
    ["__all__ = [" ++ joinComma ((sortStr allNames.dedup).map pyRepr) ++ "]", ""]

/-! ## Collision guard and the single-file plan -/

/-- Embedding of `ensure_unique_module_name`: the used-name set is modeled
as a list; the integer-suffix search is bounded by a fuel that dominates
the size of the used set, so the first free suffix is always found. -/
def ensureUnique (base : String) (used : List String) : String × List String :=
  if base ∉ used then (base, base :: used)
  else
    let rec search (i : Nat) : Nat → String
      | 0 => base
      | fuel + 1 =>
        if (base ++ "_" ++ toString i) ∉ used then base ++ "_" ++ toString i
        else search (i + 1) fuel
    let nm := search 2 (used.length + 1)
    (nm, nm :: used)

/-- The collision-guard loop of `plan_and_write_single` (lines 751-753):
sequentially rename every component to a unique module name. -/
def collisionGuard (comps : List Comp) : List Comp :=
  (comps.foldl
    (fun (acc : List String × List Comp) c =>
      let r := ensureUnique c.module_name acc.1
      (r.2, acc.2 ++ [{ c with module_name := r.1 }]))
    ([], [])).2

/-- The core of `plan_and_write_single` after parsing: extraction,
component construction, repacking, the collision guard, and rendering.
The rendered modules are pairs of final module name and rendered lines;
note that rendering uses the `name_to_module` map built *before* the
collision guard, exactly as the source does. -/
def planSingle (file : List PyStmt) (cfg : PackCfg) :
    List (String × List String) × List String :=
  let ex := extractTopLevel file
  let bc := buildComponents ex.1
  let rp := repackComps cfg bc.1
  let comps := collisionGuard rp.1
  (comps.map fun c => (c.module_name, renderModuleLines c ex.2 rp.2),
   renderInitLines comps)

/-- The final components of the pipeline (before the collision guard,
which only renames). -/
def finalComps (file : List PyStmt) (cfg : PackCfg) : List Comp :=
  (repackComps cfg (buildComponents (extractTopLevel file).1).1).1

/-! ## Concrete single-file inputs used to check the pipeline end to end -/

/-- A three-function chain `f → g → h` (4-, 2- and 2-line bodies). -/
def file1 : List PyStmt :=
  [.funcDef ("f") ["g"] ("def f():\n    return g()"),
   .funcDef ("g") ["h"] ("def g():\n    x = 1\n    y = 2\n    return h()"),
   .funcDef ("h") [] ("def h():\n    return 1")]

/-- `--pack-small-lines 0 --target-modules 2`. -/
def cfg1 : PackCfg := { pack_small_lines := 0, target_modules := some 2 }

/-- A class `X` and a function `x` whose module names collide, plus a
user `f` of `x`. -/
def file2 : List PyStmt :=
  [.classDef ("X") [] ("class X:\n    pass"),
   .funcDef ("x") [] ("def x():\n    return 1"),
   .funcDef ("f") ["x"] ("def f():\n    return x()")]

/-- `--pack-small-lines 0`. -/
def cfg2 : PackCfg := { pack_small_lines := 0 }

/-- One compound assignment binding two names. -/
def file3 : List PyStmt := [.assignS [.name ("a"), .name ("b")] [] ("a = b = 1")]

/-- Two mutually recursive functions, `b` defined first. -/
def file4 : List PyStmt :=
  [.funcDef ("b") ["a"] ("def b():\n    return a()"),
   .funcDef ("a") ["b"] ("def a():\n    return b()")]

/-- A plain assignment to `a` and a tuple assignment binding `a` and `b`. -/
def file5 : List PyStmt :=
  [.assignS [.name ("a")] [] ("a = 1"),
   .assignS [.nonName ["a", "b"]] ["g"] ("a, b = g()")]

/-- One assignment and two small functions, run under the defaults. -/
def file6 : List PyStmt :=
  [.assignS [.name ("x")] [] ("x = 1"),
   .funcDef ("f") [] ("def f():\n    return 1"),
   .funcDef ("g") [] ("def g():\n    return 2")]

/-! # Theorems

## Character-class facts for name normalization -/

theorem snake_toNat {c : Char} (h : isSnakeChar c = true) :
    (97 ≤ c.toNat ∧ c.toNat ≤ 122) ∨ (48 ≤ c.toNat ∧ c.toNat ≤ 57) ∨ c.toNat = 95 := by
  simp only [isSnakeChar, isLowerDigit, Bool.or_eq_true, Bool.and_eq_true,
    decide_eq_true_eq] at h
  rcases h with (⟨h1, h2⟩ | ⟨h1, h2⟩) | rfl
  · exact Or.inl ⟨h1, h2⟩
  · exact Or.inr (Or.inl ⟨h1, h2⟩)
  · exact Or.inr (Or.inr rfl)

theorem snake_not_space {c : Char} (h : isSnakeChar c = true) : pyIsSpace c = false := by
  cases hs : pyIsSpace c
  · rfl
  · exfalso
    simp only [pyIsSpace, Bool.or_eq_true, decide_eq_true_eq] at hs
    rcases hs with ((((rfl | rfl) | rfl) | rfl) | rfl) | rfl <;> exact absurd h (by decide)

theorem snake_ne_dash {c : Char} (h : isSnakeChar c = true) : c ≠ '-' := by
  rintro rfl; exact absurd h (by decide)

theorem upper_toNat {c : Char} (h : isUpperAscii c = true) :
    65 ≤ c.toNat ∧ c.toNat ≤ 90 := by
  simp only [isUpperAscii, Bool.and_eq_true, decide_eq_true_eq] at h
  exact ⟨h.1, h.2⟩

theorem snake_not_upper {c : Char} (h : isSnakeChar c = true) : isUpperAscii c = false := by
  cases hu : isUpperAscii c
  · rfl
  · exfalso
    have h1 := upper_toNat hu
    rcases snake_toNat h with ⟨h2, h3⟩ | ⟨h2, h3⟩ | h2 <;> omega

theorem snake_ident {c : Char} (h : isSnakeChar c = true) : isIdentChar c = true := by
  simp only [isSnakeChar, Bool.or_eq_true] at h
  simp only [isIdentChar, Bool.or_eq_true]
  rcases h with h | h
  · exact Or.inl (Or.inl h)
  · exact Or.inr h

theorem snake_lower_id {c : Char} (h : isSnakeChar c = true) : pyLowerChar c = c := by
  rw [pyLowerChar, snake_not_upper h]
  rfl

theorem toNat_ofNat_small {n : Nat} (h : n < 128) : (Char.ofNat n).toNat = n := by
  unfold Char.ofNat
  split
  · rfl
  · next hn => exact absurd (Or.inl (by omega)) hn

theorem lowerDigit_toNat {c : Char} (h : isLowerDigit c = true) :
    (97 ≤ c.toNat ∧ c.toNat ≤ 122) ∨ (48 ≤ c.toNat ∧ c.toNat ≤ 57) := by
  simp only [isLowerDigit, Bool.or_eq_true, Bool.and_eq_true, decide_eq_true_eq] at h
  rcases h with ⟨h1, h2⟩ | ⟨h1, h2⟩
  · exact Or.inl ⟨h1, h2⟩
  · exact Or.inr ⟨h1, h2⟩

theorem ident_lower_snake {c : Char} (h : isIdentChar c = true) :
    isSnakeChar (pyLowerChar c) = true := by
  simp only [isIdentChar, Bool.or_eq_true] at h
  rcases h with (hld | hu) | hund
  · have hnu : isUpperAscii c = false := by
      cases hu : isUpperAscii c
      · rfl
      · exfalso
        have h1 := upper_toNat hu
        rcases lowerDigit_toNat hld with ⟨h2, h3⟩ | ⟨h2, h3⟩ <;> omega
    rw [pyLowerChar, hnu]
    simp only [isSnakeChar, Bool.or_eq_true]
    exact Or.inl hld
  · rw [pyLowerChar, hu]
    simp only [if_true]
    have h1 := upper_toNat hu
    have h2 : (Char.ofNat (c.toNat + 32)).toNat = c.toNat + 32 :=
      toNat_ofNat_small (by omega)
    simp only [isSnakeChar, isLowerDigit, Bool.or_eq_true, Bool.and_eq_true,
      decide_eq_true_eq]
    refine Or.inl (Or.inl ⟨?_, ?_⟩)
    · show 'a'.toNat ≤ (Char.ofNat (c.toNat + 32)).toNat
      have ha : 'a'.toNat = 97 := rfl
      omega
    · show (Char.ofNat (c.toNat + 32)).toNat ≤ 'z'.toNat
      have hz : 'z'.toNat = 122 := rfl
      omega
  · have hc : c = '_' := by
      simpa only [decide_eq_true_eq] using hund
    subst hc
    decide

/-! ## List-stage lemmas for normalization -/

theorem dropWhile_eq_self_of_false {β : Type} {p : β → Bool} :
    ∀ {l : List β}, (∀ c ∈ l, p c = false) → l.dropWhile p = l
  | [], _ => rfl
  | c :: cs, h => by
    have hc : p c = false := h c (List.mem_cons_self c cs)
    simp [List.dropWhile, hc]

theorem mem_of_mem_dropWhile {β : Type} {p : β → Bool} {l : List β} {x : β}
    (h : x ∈ l.dropWhile p) : x ∈ l :=
  (List.dropWhile_sublist p).mem h

theorem head?_dropWhile_false {β : Type} {p : β → Bool} {l : List β} {x : β}
    (h : (l.dropWhile p).head? = some x) : p x = false := by
  have h2 := List.head?_dropWhile_not p l
  rw [h] at h2
  exact h2

theorem dropWhile_ne_head {β : Type} {p : β → Bool} {l : List β}
    (h : ∀ c, l.head? = some c → p c = false) : l.dropWhile p = l := by
  cases l with
  | nil => rfl
  | cons c cs => simp [List.dropWhile, h c rfl]

theorem getLast?_dropWhile {β : Type} {p : β → Bool} {l : List β}
    (h : l.dropWhile p ≠ []) : (l.dropWhile p).getLast? = l.getLast? := by
  obtain ⟨t, ht⟩ := @List.dropWhile_suffix _ l p
  conv_rhs => rw [← ht]
  exact (List.getLast?_append_of_ne_nil t h).symm

theorem mem_pyStripL {l : List Char} {x : Char} (h : x ∈ pyStripL l) : x ∈ l := by
  unfold pyStripL at h
  rw [List.mem_reverse] at h
  have h2 := mem_of_mem_dropWhile h
  rw [List.mem_reverse] at h2
  exact mem_of_mem_dropWhile h2

theorem pyStripL_eq_self {l : List Char} (h : ∀ c ∈ l, pyIsSpace c = false) :
    pyStripL l = l := by
  unfold pyStripL
  rw [dropWhile_eq_self_of_false h,
    dropWhile_eq_self_of_false (fun c hc => h c (List.mem_reverse.mp hc)),
    List.reverse_reverse]

theorem map_dash_eq_self {l : List Char} (h : ∀ c ∈ l, c ≠ '-') :
    l.map (fun c => if c = '-' then '_' else c) = l := by
  induction l with
  | nil => rfl
  | cons c cs ih =>
    have hc : c ≠ '-' := h c (List.mem_cons_self c cs)
    simp only [List.map_cons, if_neg hc, List.cons.injEq, true_and]
    exact ih fun x hx => h x (List.mem_cons_of_mem c hx)

theorem camelSub_eq_self : ∀ {l : List Char},
    (∀ c ∈ l, isUpperAscii c = false) → camelSub l = l
  | [], _ => rfl
  | [c], _ => rfl
  | a :: b :: rest, h => by
    have hb : isUpperAscii b = false := h b (by simp)
    rw [camelSub]
    simp only [hb, Bool.and_false, Bool.false_eq_true, if_false]
    have := @camelSub_eq_self (b :: rest) fun x hx =>
      h x (List.mem_cons_of_mem a hx)
    rw [this]

theorem identSubGo_cons (b : Bool) (c : Char) (cs : List Char) :
    identSubGo b (c :: cs) =
      if isIdentChar c then c :: identSubGo false cs
      else if b then identSubGo true cs else ('_') :: identSubGo true cs := rfl

theorem identSub_eq_self {l : List Char} (h : ∀ c ∈ l, isIdentChar c = true) :
    identSub l = l := by
  unfold identSub
  induction l with
  | nil => rfl
  | cons c cs ih =>
    have hc : isIdentChar c = true := h c (List.mem_cons_self c cs)
    rw [identSubGo_cons, if_pos hc, ih fun x hx => h x (List.mem_cons_of_mem c hx)]

theorem identSubGo_chars : ∀ (l : List Char) (b : Bool), ∀ x ∈ identSubGo b l,
    isIdentChar x = true := by
  intro l
  induction l with
  | nil => intro b x hx; exact absurd hx (List.not_mem_nil x)
  | cons c cs ih =>
    intro b x hx
    rw [identSubGo_cons] at hx
    by_cases hc : isIdentChar c
    · rw [if_pos hc] at hx
      rcases List.mem_cons.mp hx with rfl | hx
      · exact hc
      · exact ih false x hx
    · rw [if_neg hc] at hx
      cases b
      · rw [if_neg (by decide)] at hx
        rcases List.mem_cons.mp hx with rfl | hx
        · decide
        · exact ih true x hx
      · rw [if_pos rfl] at hx
        exact ih true x hx

theorem identSub_chars (l : List Char) : ∀ c ∈ identSub l, isIdentChar c = true :=
  identSubGo_chars l false

theorem pyLowerL_eq_self {l : List Char} (h : ∀ c ∈ l, isSnakeChar c = true) :
    pyLowerL l = l := by
  unfold pyLowerL
  induction l with
  | nil => rfl
  | cons c cs ih =>
    simp only [List.map_cons, snake_lower_id (h c (List.mem_cons_self c cs)),
      List.cons.injEq, true_and]
    exact ih fun x hx => h x (List.mem_cons_of_mem c hx)

theorem pyLowerL_chars {l : List Char} (h : ∀ c ∈ l, isIdentChar c = true) :
    ∀ c ∈ pyLowerL l, isSnakeChar c = true := by
  intro c hc
  obtain ⟨d, hd, rfl⟩ := List.mem_map.mp hc
  exact ident_lower_snake (h d hd)

theorem mem_stripUnderscoresL {l : List Char} {x : Char}
    (h : x ∈ stripUnderscoresL l) : x ∈ l := by
  unfold stripUnderscoresL at h
  rw [List.mem_reverse] at h
  have h2 := mem_of_mem_dropWhile h
  rw [List.mem_reverse] at h2
  exact mem_of_mem_dropWhile h2

theorem stripUnderscoresL_head? {l : List Char} {c : Char}
    (h : (stripUnderscoresL l).head? = some c) : c ≠ '_' := by
  unfold stripUnderscoresL at h
  rw [List.head?_reverse] at h
  have hne : (l.dropWhile (fun c => c = '_')).reverse.dropWhile (fun c => c = '_') ≠ [] := by
    intro hnil
    rw [hnil] at h
    exact Option.noConfusion h
  rw [getLast?_dropWhile hne, List.getLast?_reverse] at h
  have := head?_dropWhile_false h
  simpa using this

theorem stripUnderscoresL_last {l : List Char} {c : Char}
    (h : (stripUnderscoresL l).getLast? = some c) : c ≠ '_' := by
  unfold stripUnderscoresL at h
  rw [List.getLast?_reverse] at h
  have := head?_dropWhile_false h
  simpa using this

theorem stripUnderscoresL_eq_self {l : List Char}
    (hh : l.head? ≠ some '_') (hl : l.getLast? ≠ some '_') :
    stripUnderscoresL l = l := by
  unfold stripUnderscoresL
  have h1 : l.dropWhile (fun c => c = '_') = l := by
    apply dropWhile_ne_head
    intro c hc
    simp only [decide_eq_false_iff_not]
    intro rfl2
    exact hh (by rw [hc, rfl2])
  rw [h1]
  have h2 : l.reverse.dropWhile (fun c => c = '_') = l.reverse := by
    apply dropWhile_ne_head
    intro c hc
    rw [List.head?_reverse] at hc
    simp only [decide_eq_false_iff_not]
    intro rfl2
    exact hl (by rw [hc, rfl2])
  rw [h2, List.reverse_reverse]

/-! ## Normalization establishes the normal form -/

theorem no_keyword_starts_m {l : List Char} (h : l.head? = some 'm') :
    pyIsKeyword (String.mk l) = false := by
  cases hk : pyIsKeyword (String.mk l)
  · rfl
  · exfalso
    have hmem : String.mk l ∈ pyKeywords := by
      simpa [pyIsKeyword] using hk
    have hAll : ∀ k ∈ pyKeywords, k.data.head? ≠ some 'm' := by decide
    have := hAll (String.mk l) hmem
    exact this h

theorem snakeCore_chars (l : List Char) :
    ∀ c ∈ snakeCore l, isSnakeChar c = true := by
  intro c hc
  unfold snakeCore at hc
  have h1 := mem_stripUnderscoresL hc
  exact pyLowerL_chars (identSub_chars _) c h1

theorem isNormal_prefixed (p t : List Char) (hp : p.head? = some 'm')
    (hpchars : ∀ c ∈ p, isSnakeChar c = true)
    (htchars : ∀ c ∈ t, isSnakeChar c = true)
    (hne : t ≠ [])
    (hlast : ∀ d, t.getLast? = some d → d ≠ '_') :
    IsNormal (p ++ t) := by
  have hpne : p ≠ [] := by
    intro h
    rw [h] at hp
    exact Option.noConfusion hp
  have hhd : (p ++ t).head? = some 'm' := by
    rw [List.head?_append_of_ne_nil p hpne]
    exact hp
  refine ⟨?_, ?_, ?_, ?_, ?_, ?_⟩
  · intro c hc
    rcases List.mem_append.mp hc with h | h
    · exact hpchars c h
    · exact htchars c h
  · simp [hpne]
  · rw [hhd]
    intro he
    exact absurd (by injection he : 'm' = '_') (by decide)
  · rw [List.getLast?_append_of_ne_nil p hne]
    intro he
    exact hlast '_' he rfl
  · intro c hc
    rw [hhd] at hc
    have : 'm' = c := by injection hc
    rw [← this]
    decide
  · exact no_keyword_starts_m hhd

theorem isNormal_toSnakeL (l : List Char) : IsNormal (toSnakeL l) := by
  have hchars := snakeCore_chars l
  unfold toSnakeL
  by_cases h3 : snakeCore l = []
  · simp only [h3]
    show IsNormal ['m', 'o', 'd', 'u', 'l', 'e']
    exact ⟨by decide, by decide, by decide, by decide, by decide, by decide⟩
  · simp only [if_neg h3]
    have hheadu : ∀ c, (snakeCore l).head? = some c → c ≠ '_' := by
      intro c hc
      exact stripUnderscoresL_head? hc
    have hlast : ∀ d, (snakeCore l).getLast? = some d → d ≠ '_' := by
      intro d hd
      exact stripUnderscoresL_last hd
    by_cases hdig : isDigitAscii ((snakeCore l).headD ' ') = true
    · rw [if_pos hdig]
      have hkw : pyIsKeyword (String.mk ('m' :: '_' :: snakeCore l)) = false :=
        no_keyword_starts_m rfl
      rw [if_neg (by rw [hkw]; exact Bool.false_ne_true)]
      have : ('m' :: '_' :: snakeCore l) = ['m', '_'] ++ snakeCore l := rfl
      rw [this]
      refine isNormal_prefixed _ _ rfl ?_ hchars h3 hlast
      intro c hc
      rcases List.mem_cons.mp hc with rfl | hc
      · decide
      · rcases List.mem_cons.mp hc with rfl | hc
        · decide
        · exact absurd hc (List.not_mem_nil c)
    · rw [if_neg hdig]
      by_cases hkw : pyIsKeyword (String.mk (snakeCore l)) = true
      · rw [if_pos hkw]
        have : ('m' :: 'o' :: 'd' :: '_' :: snakeCore l) =
            ['m', 'o', 'd', '_'] ++ snakeCore l := rfl
        rw [this]
        refine isNormal_prefixed _ _ rfl ?_ hchars h3 hlast
        intro c hc
        fin_cases hc <;> decide
      · rw [if_neg hkw]
        refine ⟨hchars, h3, ?_, ?_, ?_, ?_⟩
        · intro he
          exact hheadu '_' he rfl
        · intro he
          exact hlast '_' he rfl
        · intro c hc
          obtain ⟨c0, t, hc0⟩ := List.exists_cons_of_ne_nil h3
          rw [hc0] at hc
          injection hc with hcc
          subst hcc
          have hD : (snakeCore l).headD ' ' = c0 := by rw [hc0]; rfl
          rw [hD] at hdig
          exact Bool.eq_false_iff.mpr hdig
        · exact Bool.eq_false_iff.mpr hkw


/-! ## Normalization is the identity on normal forms -/

theorem snakeCore_eq_self {l : List Char} (h : ∀ c ∈ l, isSnakeChar c = true)
    (hh : l.head? ≠ some '_') (hl : l.getLast? ≠ some '_') :
    snakeCore l = l := by
  unfold snakeCore
  rw [pyStripL_eq_self fun c hc => snake_not_space (h c hc)]
  rw [map_dash_eq_self fun c hc => snake_ne_dash (h c hc)]
  rw [camelSub_eq_self fun c hc => snake_not_upper (h c hc)]
  rw [identSub_eq_self fun c hc => snake_ident (h c hc)]
  rw [pyLowerL_eq_self h]
  exact stripUnderscoresL_eq_self hh hl

theorem toSnakeL_eq_self {l : List Char} (h : IsNormal l) : toSnakeL l = l := by
  obtain ⟨hchars, hne, hhead, hlast, hdig, hkw⟩ := h
  unfold toSnakeL
  rw [snakeCore_eq_self hchars hhead hlast]
  simp only [if_neg hne]
  have hdigD : isDigitAscii (l.headD ' ') = false := by
    obtain ⟨c0, t, rfl⟩ := List.exists_cons_of_ne_nil hne
    exact hdig c0 rfl
  rw [hdigD]
  simp only [Bool.false_eq_true, if_false, hkw]

set_option maxHeartbeats 1600000 in
/-- Claim C9: `to_snake` is idempotent — normalizing an already-normalized
name returns it unchanged: `to_snake(to_snake(s)) == to_snake(s)` for every
string `s`. -/
theorem C9_to_snake_idempotent (s : String) : toSnake (toSnake s) = toSnake s := by
  unfold toSnake
  have h : (String.mk (toSnakeL s.data)).data = toSnakeL s.data := rfl
  rw [h]
  exact congrArg String.mk (toSnakeL_eq_self (isNormal_toSnakeL s.data))

/-! ## SCC computation: basic lemmas -/

theorem setF_self (f : α → Option Nat) (x : α) (v : Nat) : setF f x v x = some v := by
  simp [setF]

theorem setF_other (f : α → Option Nat) {x y : α} (v : Nat) (h : y ≠ x) :
    setF f x v y = f y := by
  simp [setF, h]

theorem popTo_spec {v : α} {Δ old : List α} (hv : v ∉ Δ) :
    popTo v (Δ ++ v :: old) = (Δ ++ [v], old) := by
  induction Δ with
  | nil => simp [popTo]
  | cons a Δ ih =>
    have ha : a ≠ v := fun h => hv (h ▸ List.mem_cons_self a Δ)
    have ih2 := ih fun h => hv (List.mem_cons_of_mem a h)
    simp [popTo, ha, ih2]

theorem reach_edge {g : α → List α} {a b : α} (h : b ∈ g a) : Reach g a b :=
  Relation.ReflTransGen.single h

theorem reach_head {g : α → List α} {a b c : α} (h : b ∈ g a) (h2 : Reach g b c) :
    Reach g a c :=
  Relation.ReflTransGen.head h h2

theorem unvisited_mono {U : List α} {s s' : TarjanSt α}
    (h : ∀ x, (s.num x).isSome → (s'.num x).isSome) :
    unvisited U s' ≤ unvisited U s := by
  unfold unvisited
  induction U with
  | nil => simp
  | cons c U ih =>
    rw [List.filter_cons, List.filter_cons]
    cases hc' : (s'.num c).isNone
    · cases hc : (s.num c).isNone <;> simp [hc, hc'] <;> omega
    · have hc : (s.num c).isNone = true := by
        cases hcs : (s.num c).isNone
        · exfalso
          have h1 : (s.num c).isSome = true := by
            cases hv : s.num c
            · rw [hv] at hcs; simp at hcs
            · simp [hv]
          have h2 := h c h1
          cases hv : s'.num c
          · rw [hv] at h2; simp at h2
          · rw [hv] at hc'; simp at hc'
        · rfl
      simp only [hc, hc', if_true]
      simp only [List.length_cons]
      omega

theorem unvisited_strict {U : List α} {s s' : TarjanSt α} {v : α}
    (h : ∀ x, (s.num x).isSome → (s'.num x).isSome)
    (hv : (s.num v).isNone) (hv' : (s'.num v).isSome) (hU : v ∈ U) :
    unvisited U s' < unvisited U s := by
  unfold unvisited
  induction U with
  | nil => exact absurd hU (List.not_mem_nil v)
  | cons c U ih =>
    rw [List.filter_cons, List.filter_cons]
    by_cases hcv : c = v
    · subst hcv
      have h1 : (s.num c).isNone = true := hv
      have h2 : (s'.num c).isNone = false := by
        cases hx : s'.num c
        · rw [hx] at hv'; simp at hv'
        · simp [hx]
      simp [h1, h2]
      have h3 := @unvisited_mono _ _ U _ _ h
      unfold unvisited at h3
      omega
    · rcases List.mem_cons.mp hU with h' | h'
      · exact absurd h'.symm hcv
      · have h4 := ih h'
        cases hc' : (s'.num c).isNone
        · cases hc : (s.num c).isNone <;> simp [hc, hc'] <;> omega
        · have hc : (s.num c).isNone = true := by
            cases hcs : s.num c
            · rfl
            · exfalso
              have h1 : (s.num c).isSome = true := by simp [hcs]
              have h2 := h c h1
              cases hx : s'.num c
              · rw [hx] at h2; simp at h2
              · rw [hx] at hc'; simp at hc'
          simp only [hc, hc', if_true]
          simp only [List.length_cons]
          omega

theorem popped_append {s s' : TarjanSt α} {N : List (List α)} {x : α}
    (h : Popped s x) (hs : s'.sccs = s.sccs ++ N) :
    Popped s' x := by
  obtain ⟨S, hS, hx⟩ := h
  exact ⟨S, by rw [hs]; exact List.mem_append_left N hS, hx⟩

theorem edgeFact_mono {s s' : TarjanSt α} {v y : α}
    (hnum : ∀ x, (s.num x).isSome → s'.num x = s.num x)
    (hpop : ∀ x, Popped s x → Popped s' x)
    (hstk : ∀ x, x ∈ s.stack → x ∈ s'.stack ∨ Popped s' x)
    (hlow : lowOf s' v ≤ lowOf s v)
    (h : EdgeFact s v y) : EdgeFact s' v y := by
  obtain ⟨hdom, hcase⟩ := h
  have hny := hnum y hdom
  refine ⟨by rw [hny]; exact hdom, ?_⟩
  rcases hcase with hp | ⟨hs, hle⟩
  · exact Or.inl (hpop y hp)
  · rcases hstk y hs with h' | h'
    · refine Or.inr ⟨h', ?_⟩
      have he : numOf s' y = numOf s y := by unfold numOf; rw [hny]
      omega
    · exact Or.inl h'

theorem cert_transport {g : α → List α} {s s' : TarjanSt α} {x : α}
    (hnum : ∀ z, (s.num z).isSome → s'.num z = s.num z)
    (hlowx : s'.low x = s.low x)
    (hpop : ∀ z, Popped s z → Popped s' z)
    (hstk : ∀ z, z ∈ s.stack → z ∈ s'.stack)
    (hdom : ∀ z ∈ s.stack, (s.num z).isSome)
    (h : Certified g s x) : Certified g s' x := by
  obtain ⟨hx, hlt, ⟨u, hu, hnu, hr⟩, hedge⟩ := h
  have hnx : numOf s' x = numOf s x := by unfold numOf; rw [hnum x (hdom x hx)]
  have hlx : lowOf s' x = lowOf s x := by unfold lowOf; rw [hlowx]
  refine ⟨hstk x hx, by omega, ⟨u, hstk u hu, ?_, hr⟩, ?_⟩
  · have hnu2 : numOf s' u = numOf s u := by unfold numOf; rw [hnum u (hdom u hu)]
    omega
  · intro y hy
    have hef := hedge y hy
    have hef2 := edgeFact_mono hnum hpop (fun z hz => Or.inl (hstk z hz))
      (le_of_eq hlx) hef
    exact hef2

/-! ## NbrsPost: identity and composition -/

theorem nbrsPost_refl {g : α → List α} {U : List α} {v : α} {s : TarjanSt α}
    (hwf : Wf g U s)
    (hwit : lowOf s v < numOf s v →
      ∃ u ∈ s.stack, numOf s u = lowOf s v ∧ Reach g v u) :
    NbrsPost g U v s s where
  wf := hwf
  n_mono := le_refl _
  num_keep := fun _ _ => rfl
  num_new := fun _ hx => Or.inl hx
  low_keep := fun _ _ _ => rfl
  num_v_keep := rfl
  low_v_mono := le_refl _
  low_v_ge := fun _ _ h2 _ => h2
  stack_ext := ⟨[], rfl, by simp, by simp, by simp⟩
  sccs_ext := ⟨[], (List.append_nil _).symm, by simp, by simp⟩
  cert_keep := fun _ _ h => h
  low_v_some := fun h => h
  low_wit := hwit

theorem nbrsPost_comp {g : α → List α} {U : List α} {v : α} {s s₁ s₂ : TarjanSt α}
    (hwf : Wf g U s) (hdomv : (s.num v).isSome)
    (h1 : NbrsPost g U v s s₁) (h2 : NbrsPost g U v s₁ s₂) :
    NbrsPost g U v s s₂ where
  wf := h2.wf
  n_mono := le_trans h1.n_mono h2.n_mono
  num_keep := fun x hx => by
    have e1 := h1.num_keep x hx
    have hx1 : (s₁.num x).isSome = true := by rw [e1]; exact hx
    rw [h2.num_keep x hx1, e1]
  num_new := fun x hx => by
    rcases h2.num_new x hx with hx1 | ⟨hle, hr⟩
    · rcases h1.num_new x hx1 with hx0 | ⟨hle0, hr0⟩
      · exact Or.inl hx0
      · refine Or.inr ⟨?_, hr0⟩
        have e := h2.num_keep x hx1
        have he : numOf s₂ x = numOf s₁ x := by unfold numOf; rw [e]
        omega
    · exact Or.inr ⟨le_trans h1.n_mono hle, hr⟩
  low_keep := fun x hx hdx => by
    have e1 := h1.low_keep x hx hdx
    have hdx1 : (s₁.num x).isSome = true := by rw [h1.num_keep x hdx]; exact hdx
    rw [h2.low_keep x hx hdx1, e1]
  num_v_keep := by rw [h2.num_v_keep, h1.num_v_keep]
  low_v_mono := le_trans h2.low_v_mono h1.low_v_mono
  low_v_ge := fun k hks hkl hkn => by
    have hk1 := h1.low_v_ge k hks hkl hkn
    obtain ⟨Δ1, e1, new1, c1, g1⟩ := h1.stack_ext
    refine h2.low_v_ge k ?_ hk1 (le_trans hkn h1.n_mono)
    intro u hu
    rw [e1] at hu
    rcases List.mem_append.mp hu with hu | hu
    · have hdu : (s₁.num u).isSome :=
        h1.wf.stack_dom u (by rw [e1]; exact List.mem_append_left _ hu)
      rcases h1.num_new u hdu with hdu0 | ⟨hge, _⟩
      · exact absurd hdu0 (by simpa using new1 u hu)
      · omega
    · have hds : (s.num u).isSome := hwf.stack_dom u hu
      have e := h1.num_keep u hds
      have he : numOf s₁ u = numOf s u := by unfold numOf; rw [e]
      have hk := hks u hu
      omega
  stack_ext := by
    obtain ⟨Δ1, e1, new1, cert1, g1⟩ := h1.stack_ext
    obtain ⟨Δ2, e2, new2, cert2, g2⟩ := h2.stack_ext
    refine ⟨Δ2 ++ Δ1, ?_, ?_, ?_, ?_⟩
    · rw [e2, e1, List.append_assoc]
    · intro x hx
      rcases List.mem_append.mp hx with hx | hx
      · cases hn : s.num x
        · rfl
        · exfalso
          have hds : (s.num x).isSome := by simp [hn]
          have hk := h1.num_keep x hds
          have h2' := new2 x hx
          rw [hk] at h2'
          rw [hn] at h2'
          simp at h2'
      · exact new1 x hx
    · intro x hx
      rcases List.mem_append.mp hx with hx | hx
      · exact cert2 x hx
      · have hxv : x ≠ v := by
          intro he
          rw [he] at hx
          have hn := new1 v hx
          rw [Option.isNone_iff_eq_none] at hn
          rw [hn] at hdomv
          simp at hdomv
        exact h2.cert_keep x hxv (cert1 x hx)
    · intro x hx
      rcases List.mem_append.mp hx with hx | hx
      · exact g2 x hx
      · have hxv : x ≠ v := by
          intro he
          rw [he] at hx
          have hn := new1 v hx
          rw [Option.isNone_iff_eq_none] at hn
          rw [hn] at hdomv
          simp at hdomv
        have hdx1 : (s₁.num x).isSome :=
          h1.wf.stack_dom x (by rw [e1]; exact List.mem_append_left _ hx)
        have e := h2.low_keep x hxv hdx1
        have hlx : lowOf s₂ x = lowOf s₁ x := by unfold lowOf; rw [e]
        have hg := g1 x hx
        have hm := h2.low_v_mono
        omega
  sccs_ext := by
    obtain ⟨N1, e1, new1, ne1⟩ := h1.sccs_ext
    obtain ⟨N2, e2, new2, ne2⟩ := h2.sccs_ext
    refine ⟨N1 ++ N2, by rw [e2, e1, List.append_assoc], ?_, ?_⟩
    · intro S hS x hx
      rcases List.mem_append.mp hS with hS | hS
      · exact new1 S hS x hx
      · cases hn : s.num x
        · rfl
        · exfalso
          have hds : (s.num x).isSome := by simp [hn]
          have hk := h1.num_keep x hds
          have h2' := new2 S hS x hx
          rw [hk] at h2'
          rw [hn] at h2'
          simp at h2'
    · intro S hS
      rcases List.mem_append.mp hS with hS | hS
      · exact ne1 S hS
      · exact ne2 S hS
  cert_keep := fun x hxv hc => h2.cert_keep x hxv (h1.cert_keep x hxv hc)
  low_v_some := fun h => h2.low_v_some (h1.low_v_some h)
  low_wit := h2.low_wit

/-! ## Invariant preservation: push and lowlink update -/

theorem wf_push {g : α → List α} {U : List α} {s : TarjanSt α} {v : α}
    (hwf : Wf g U s) (hv : (s.num v).isNone) (hU : v ∈ U) :
    Wf g U { n := s.n + 1, num := setF s.num v s.n, low := setF s.low v s.n,
             stack := v :: s.stack, sccs := s.sccs } := by
  have hvnone : s.num v = none := Option.isNone_iff_eq_none.mp hv
  have hvs : v ∉ s.stack := by
    intro h
    have := hwf.stack_dom v h
    rw [hvnone] at this
    simp at this
  set s1 : TarjanSt α :=
    { n := s.n + 1, num := setF s.num v s.n, low := setF s.low v s.n,
      stack := v :: s.stack, sccs := s.sccs } with hs1
  have hnum_other : ∀ x, x ≠ v → s1.num x = s.num x := fun x hx => setF_other _ _ hx
  have hnum_v : s1.num v = some s.n := setF_self _ _ _
  have hnumOf_other : ∀ x, x ≠ v → numOf s1 x = numOf s x := by
    intro x hx
    unfold numOf
    rw [hnum_other x hx]
  have hnumOf_v : numOf s1 v = s.n := by unfold numOf; rw [hnum_v]; rfl
  have hpop : ∀ x, Popped s1 x ↔ Popped s x := fun x => Iff.rfl
  refine ⟨?_, ?_, ?_, ?_, ?_, ?_, ?_, ?_, hwf.sccs_disj, hwf.sccs_nodup, ?_, hwf.pfx_closed, hwf.sccs_sc⟩
  · exact List.nodup_cons.mpr ⟨hvs, hwf.stack_nodup⟩
  · intro x hx
    rcases List.mem_cons.mp hx with rfl | hx
    · rw [hnum_v]; rfl
    · have hxv : x ≠ v := fun he => hvs (he ▸ hx)
      rw [hnum_other x hxv]
      exact hwf.stack_dom x hx
  · rw [List.pairwise_cons]
    constructor
    · intro u hu
      have huv : u ≠ v := fun he => hvs (he ▸ hu)
      rw [hnumOf_other u huv, hnumOf_v]
      exact hwf.num_lt u (hwf.stack_dom u hu)
    · refine hwf.stack_sorted.imp_of_mem ?_
      intro a b ha hb hr
      rw [hnumOf_other a (fun he => hvs (he ▸ ha)),
        hnumOf_other b (fun he => hvs (he ▸ hb))]
      exact hr
  · intro x hx
    have hn1 : s1.n = s.n + 1 := rfl
    by_cases hxv : x = v
    · subst hxv
      rw [hnumOf_v]
      omega
    · rw [hnumOf_other x hxv]
      have := hwf.num_lt x (by rwa [hnum_other x hxv] at hx)
      omega
  · intro x y hx hy hxy
    by_cases hxv : x = v <;> by_cases hyv : y = v
    · rw [hxv, hyv]
    · exfalso
      subst hxv
      rw [hnumOf_v, hnumOf_other y hyv] at hxy
      have := hwf.num_lt y (by rwa [hnum_other y hyv] at hy)
      omega
    · exfalso
      subst hyv
      rw [hnumOf_v, hnumOf_other x hxv] at hxy
      have := hwf.num_lt x (by rwa [hnum_other x hxv] at hx)
      omega
    · rw [hnumOf_other x hxv, hnumOf_other y hyv] at hxy
      exact hwf.num_inj x y (by rwa [hnum_other x hxv] at hx)
        (by rwa [hnum_other y hyv] at hy) hxy
  · intro x hx
    by_cases hxv : x = v
    · subst hxv; exact hU
    · exact hwf.dom_U x (by rwa [hnum_other x hxv] at hx)
  · intro x
    by_cases hxv : x = v
    · subst hxv
      rw [hnum_v]
      simp
    · rw [hnum_other x hxv]
      rw [hwf.dom_split x]
      constructor
      · rintro (h | h)
        · exact Or.inl (List.mem_cons_of_mem v h)
        · exact Or.inr h
      · rintro (h | h)
        · rcases List.mem_cons.mp h with he | he
          · exact absurd he hxv
          · exact Or.inl he
        · exact Or.inr h
  · intro x hx
    rcases List.mem_cons.mp hx with rfl | hx
    · intro hp
      have : (s.num x).isSome := (hwf.dom_split x).mpr (Or.inr hp)
      rw [hvnone] at this
      simp at this
    · exact hwf.stack_no_pop x hx
  · intro x hx
    by_cases hxv : x = v
    · subst hxv
      show lowOf s1 x ≤ numOf s1 x
      unfold lowOf
      show (setF s.low x s.n x).getD 0 ≤ _
      rw [setF_self, hnumOf_v]
      simp
    · rcases List.mem_cons.mp hx with he | hx2
      · exact absurd he hxv
      · show lowOf s1 x ≤ numOf s1 x
        unfold lowOf
        show (setF s.low v s.n x).getD 0 ≤ _
        rw [setF_other _ _ hxv, hnumOf_other x hxv]
        exact hwf.low_le x hx2

theorem wf_setLowV {g : α → List α} {U : List α} {s : TarjanSt α} {v : α} {m : Nat}
    (hwf : Wf g U s) (hv : v ∈ s.stack) (hm : m ≤ lowOf s v) :
    Wf g U { s with low := setF s.low v m } := by
  refine ⟨hwf.stack_nodup, hwf.stack_dom, hwf.stack_sorted, hwf.num_lt, hwf.num_inj,
    hwf.dom_U, hwf.dom_split, hwf.stack_no_pop, hwf.sccs_disj, hwf.sccs_nodup, ?_,
    hwf.pfx_closed, hwf.sccs_sc⟩
  intro x hx
  by_cases hxv : x = v
  · subst hxv
    show (setF s.low x m x).getD 0 ≤ numOf s x
    rw [setF_self]
    simp only [Option.getD_some]
    have h2 := hwf.low_le x hx
    unfold lowOf at hm h2
    omega
  · show (setF s.low v m x).getD 0 ≤ numOf s x
    rw [setF_other _ _ hxv]
    exact hwf.low_le x hx

/-! ## One step of the neighbor loop -/

theorem lowOf_upd_self (s : TarjanSt α) (v : α) (m : Nat) :
    lowOf { s with low := setF s.low v m } v = m := by
  show (setF s.low v m v).getD 0 = m
  rw [setF_self]
  rfl

theorem lowOf_upd_other (s : TarjanSt α) {v x : α} (m : Nat) (h : x ≠ v) :
    lowOf { s with low := setF s.low v m } x = lowOf s x := by
  show (setF s.low v m x).getD 0 = _
  rw [setF_other _ _ h]
  rfl

theorem cert_upd_low {g : α → List α} {s : TarjanSt α} {v x : α} {m : Nat}
    (hxv : x ≠ v) (hdom : ∀ z ∈ s.stack, (s.num z).isSome)
    (hc : Certified g s x) :
    Certified g { s with low := setF s.low v m } x :=
  @cert_transport _ _ g s { s with low := setF s.low v m } x
    (fun _ _ => rfl) (setF_other _ _ hxv) (fun _ hz => hz)
    (fun _ hz => hz) hdom hc

/-- Step lemma for the `elif w in onstack` branch. -/
theorem step_onstack {g : α → List α} {U : List α} {v w : α} {s : TarjanSt α}
    (hwf : Wf g U s) (hv : v ∈ s.stack) (hw : w ∈ g v) (hws : w ∈ s.stack)
    (hwit : lowOf s v < numOf s v →
      ∃ u ∈ s.stack, numOf s u = lowOf s v ∧ Reach g v u) :
    NbrsPost g U v s { s with low := setF s.low v (min (lowOf s v) (numOf s w)) } ∧
    EdgeFact { s with low := setF s.low v (min (lowOf s v) (numOf s w)) } v w := by
  have hdomw : (s.num w).isSome := hwf.stack_dom w hws
  constructor
  · refine
      { wf := wf_setLowV hwf hv (min_le_left _ _)
        n_mono := le_refl _
        num_keep := fun _ _ => rfl
        num_new := fun x hx => Or.inl hx
        low_keep := fun x hxv _ => setF_other _ _ hxv
        num_v_keep := rfl
        low_v_mono := by rw [lowOf_upd_self]; exact min_le_left _ _
        low_v_ge := fun k hks hkl hkn => by
          rw [lowOf_upd_self]
          exact le_min hkl (hks w hws)
        stack_ext := ⟨[], rfl, by simp, by simp, by simp⟩
        sccs_ext := ⟨[], (List.append_nil _).symm, by simp, by simp⟩
        cert_keep := fun x hxv hc => cert_upd_low hxv hwf.stack_dom hc
        low_v_some := fun _ => by
          show (setF s.low v _ v).isSome
          rw [setF_self]
          rfl
        low_wit := ?_ }
    intro hlt
    rw [lowOf_upd_self] at hlt ⊢
    rcases le_total (lowOf s v) (numOf s w) with hmin | hmin
    · rw [min_eq_left hmin] at hlt ⊢
      obtain ⟨u, hu, hnu, hr⟩ := hwit hlt
      exact ⟨u, hu, hnu, hr⟩
    · rw [min_eq_right hmin] at hlt ⊢
      exact ⟨w, hws, rfl, reach_edge hw⟩
  · refine ⟨hdomw, Or.inr ⟨hws, ?_⟩⟩
    rw [lowOf_upd_self]
    exact min_le_right _ _

/-- Step lemma for the already-visited, off-stack branch. -/
theorem step_offstack {g : α → List α} {U : List α} {v w : α} {s : TarjanSt α}
    (hwf : Wf g U s) (hwdom : (s.num w).isSome) (hwoff : w ∉ s.stack)
    (hwit : lowOf s v < numOf s v →
      ∃ u ∈ s.stack, numOf s u = lowOf s v ∧ Reach g v u) :
    NbrsPost g U v s s ∧ EdgeFact s v w := by
  refine ⟨nbrsPost_refl hwf hwit, hwdom, Or.inl ?_⟩
  rcases (hwf.dom_split w).mp hwdom with h | h
  · exact absurd h hwoff
  · exact h

/-- Step lemma for a recursive child visit plus the lowlink update. -/
theorem step_child {g : α → List α} {U : List α} {v w : α} {s s2 : TarjanSt α}
    (hwf : Wf g U s) (hv : v ∈ s.stack) (hw : w ∈ g v) (hwnone : (s.num w).isNone)
    (VP : VisitPost g U w s s2)
    (hwit : lowOf s v < numOf s v →
      ∃ u ∈ s.stack, numOf s u = lowOf s v ∧ Reach g v u) :
    NbrsPost g U v s
      { s2 with low := setF s2.low v (min (lowOf s2 v) (lowOf s2 w)) } ∧
    EdgeFact { s2 with low := setF s2.low v (min (lowOf s2 v) (lowOf s2 w)) } v w := by
  have hdomv : (s.num v).isSome := hwf.stack_dom v hv
  have hwv : w ≠ v := by
    intro he
    rw [he, Option.isNone_iff_eq_none] at hwnone
    rw [hwnone] at hdomv
    simp at hdomv
  have hvw : v ≠ w := fun he => hwv he.symm
  have hlow2v : s2.low v = s.low v := VP.low_keep v hvw hdomv
  have hlowOf2v : lowOf s2 v = lowOf s v := by unfold lowOf; rw [hlow2v]
  have hnum2v : s2.num v = s.num v := VP.num_keep v hdomv
  have hnumOf2v : numOf s2 v = numOf s v := by unfold numOf; rw [hnum2v]
  obtain ⟨Δw, he, hnew, hcert, hgam⟩ := VP.stack_ext
  have hv2 : v ∈ s2.stack := by rw [he]; exact List.mem_append_right _ hv
  have hwoff : w ∉ s.stack := by
    intro h
    have := hwf.stack_dom w h
    rw [Option.isNone_iff_eq_none] at hwnone
    rw [hwnone] at this
    simp at this
  have hnum2w : s2.num w = some s.n := VP.num_v
  have hnumOf2w : numOf s2 w = s.n := by unfold numOf; rw [hnum2w]; rfl
  have hlowle_v : lowOf s v ≤ numOf s v := hwf.low_le v hv
  have hnumlt_v : numOf s v < s.n := hwf.num_lt v hdomv
  constructor
  · refine
      { wf := wf_setLowV VP.wf hv2 (min_le_left _ _)
        n_mono := le_of_lt VP.n_lt
        num_keep := fun x hx => VP.num_keep x hx
        num_new := fun x hx => ?hnn
        low_keep := fun x hxv hdx => ?hlk
        num_v_keep := hnum2v
        low_v_mono := by
          rw [lowOf_upd_self]
          rw [← hlowOf2v]
          exact min_le_left _ _
        low_v_ge := fun k hks hkl hkn => by
          rw [lowOf_upd_self]
          refine le_min (by rw [hlowOf2v]; exact hkl) ?_
          exact VP.low_v_ge k hks hkn
        stack_ext := ?hse
        sccs_ext := ?hsc
        cert_keep := fun x hxv hc => ?hck
        low_v_some := fun _ => by
          show (setF s2.low v _ v).isSome
          rw [setF_self]
          rfl
        low_wit := ?hlw }
    case hnn =>
      rcases VP.num_new x hx with h | ⟨hge, hr⟩
      · exact Or.inl h
      · exact Or.inr ⟨hge, reach_head hw hr⟩
    case hlk =>
      show setF s2.low v _ x = s.low x
      rw [setF_other _ _ hxv]
      refine VP.low_keep x ?_ hdx
      intro he2
      rw [he2] at hdx
      rw [Option.isNone_iff_eq_none.mp hwnone] at hdx
      simp at hdx
    case hse =>
      refine ⟨Δw, he, hnew, ?_, ?_⟩
      · intro x hx
        have hxv : x ≠ v := by
          intro he2
          have := hnew x hx
          rw [he2, Option.isNone_iff_eq_none] at this
          rw [this] at hdomv
          simp at hdomv
        exact cert_upd_low hxv VP.wf.stack_dom (hcert x hx)
      · intro x hx
        have hxv : x ≠ v := by
          intro he2
          have := hnew x hx
          rw [he2, Option.isNone_iff_eq_none] at this
          rw [this] at hdomv
          simp at hdomv
        rw [lowOf_upd_self, lowOf_upd_other _ _ hxv]
        have h1 := hgam x hx
        have h2 : min (lowOf s2 v) (lowOf s2 w) ≤ lowOf s2 w := min_le_right _ _
        omega
    case hsc =>
      obtain ⟨N, heN, hN⟩ := VP.sccs_ext
      exact ⟨N, heN, hN⟩
    case hck =>
      exact cert_upd_low hxv VP.wf.stack_dom (VP.cert_keep x hc)
    case hlw =>
      intro hlt
      rw [lowOf_upd_self] at hlt ⊢
      have hnt : numOf { s2 with low := setF s2.low v (min (lowOf s2 v) (lowOf s2 w)) } v
          = numOf s v := hnumOf2v
      rw [hnt] at hlt
      rcases le_total (lowOf s2 v) (lowOf s2 w) with hmin | hmin
      · rw [min_eq_left hmin] at hlt ⊢
        rw [hlowOf2v] at hlt ⊢
        obtain ⟨u, hu, hnu, hr⟩ := hwit hlt
        refine ⟨u, by rw [he]; exact List.mem_append_right _ hu, ?_, hr⟩
        have hdu : (s.num u).isSome := hwf.stack_dom u hu
        have : numOf s2 u = numOf s u := by unfold numOf; rw [VP.num_keep u hdu]
        show numOf s2 u = lowOf s v
        omega
      · rw [min_eq_right hmin] at hlt ⊢
        rcases VP.root_split with hin | ⟨hst, hpop, hroot⟩
        · have hwΔ : w ∈ Δw := by
            rw [he] at hin
            rcases List.mem_append.mp hin with h | h
            · exact h
            · exact absurd h hwoff
          obtain ⟨hwstk, hwlt, ⟨u, hu, hnu, hr⟩, _⟩ := hcert w hwΔ
          refine ⟨u, hu, ?_, reach_head hw hr⟩
          show numOf s2 u = lowOf s2 w
          exact hnu
        · exfalso
          rw [hroot, hnumOf2w] at hmin
          rw [hlowOf2v] at hmin
          rw [hroot, hnumOf2w] at hlt
          omega
  · refine ⟨?_, ?_⟩
    · show (s2.num w).isSome
      rw [hnum2w]
      rfl
    · rcases (VP.wf.dom_split w).mp (by rw [hnum2w]; rfl) with h | h
      · refine Or.inr ⟨h, ?_⟩
        rw [lowOf_upd_self]
        show min (lowOf s2 v) (lowOf s2 w) ≤ numOf s2 w
        have := VP.wf.low_le w h
        have h2 : min (lowOf s2 v) (lowOf s2 w) ≤ lowOf s2 w := min_le_right _ _
        omega
      · exact Or.inl h

/-! ## The neighbor loop satisfies its specification -/

theorem visitNbrs_lemma {g : α → List α} {U : List α}
    (hg : ∀ x, ∀ y ∈ g x, y ∈ U) (fuel : Nat) (hvs : VisitSpec g U fuel) :
    ∀ (ws : List α) (v : α) (s : TarjanSt α),
      Wf g U s → v ∈ s.stack → (∀ y ∈ ws, y ∈ g v) →
      (lowOf s v < numOf s v →
        ∃ u ∈ s.stack, numOf s u = lowOf s v ∧ Reach g v u) →
      fuel > unvisited U s →
      NbrsPost g U v s (visitNbrs g fuel v ws s) ∧
      ∀ y ∈ ws, EdgeFact (visitNbrs g fuel v ws s) v y := by
  intro ws
  induction ws with
  | nil =>
    intro v s hwf hv hws hwit hfuel
    rw [visitNbrs_nil]
    exact ⟨nbrsPost_refl hwf hwit, by simp⟩
  | cons w ws ih =>
    intro v s hwf hv hws hwit hfuel
    rw [visitNbrs_cons]
    have hdomv : (s.num v).isSome := hwf.stack_dom v hv
    have hw : w ∈ g v := hws w (List.mem_cons_self w ws)
    have hwstail : ∀ y ∈ ws, y ∈ g v := fun y hy => hws y (List.mem_cons_of_mem w hy)
    by_cases hwn : (s.num w).isNone
    · rw [if_pos hwn]
      have hwU : w ∈ U := hg v w hw
      have VP : VisitPost g U w s (visit g fuel w s) := hvs w s hwf hwn hwU hfuel
      obtain ⟨SP, EF⟩ := step_child hwf hv hw hwn VP hwit
      obtain ⟨RP, REF⟩ := ih v _ SP.wf
        (by obtain ⟨Δ, e, _, _, _⟩ := SP.stack_ext
            rw [e]
            exact List.mem_append_right _ hv)
        hwstail SP.low_wit
        (Nat.lt_of_le_of_lt
          (@unvisited_mono _ _ U s _ fun x hx => by rw [SP.num_keep x hx]; exact hx)
          hfuel)
      refine ⟨nbrsPost_comp hwf hdomv SP RP, ?_⟩
      intro y hy
      rcases List.mem_cons.mp hy with rfl | hy
      · obtain ⟨N, eN, _⟩ := RP.sccs_ext
        obtain ⟨Δ, e, _, _, _⟩ := RP.stack_ext
        exact edgeFact_mono RP.num_keep (fun z hz => popped_append hz eN)
          (fun z hz => Or.inl (by rw [e]; exact List.mem_append_right _ hz))
          RP.low_v_mono EF
      · exact REF y hy
    · rw [if_neg hwn]
      have hwdom : (s.num w).isSome := by
        cases h : s.num w
        · rw [h] at hwn; simp at hwn
        · rfl
      by_cases hwst : w ∈ s.stack
      · rw [if_pos hwst]
        obtain ⟨SP, EF⟩ := step_onstack hwf hv hw hwst hwit
        obtain ⟨RP, REF⟩ := ih v _ SP.wf hv hwstail SP.low_wit hfuel
        refine ⟨nbrsPost_comp hwf hdomv SP RP, ?_⟩
        intro y hy
        rcases List.mem_cons.mp hy with rfl | hy
        · obtain ⟨N, eN, _⟩ := RP.sccs_ext
          obtain ⟨Δ, e, _, _, _⟩ := RP.stack_ext
          exact edgeFact_mono RP.num_keep (fun z hz => popped_append hz eN)
            (fun z hz => Or.inl (by rw [e]; exact List.mem_append_right _ hz))
            RP.low_v_mono EF
        · exact REF y hy
      · rw [if_neg hwst]
        obtain ⟨SP, EF⟩ := step_offstack hwf hwdom hwst hwit
        obtain ⟨RP, REF⟩ := ih v s hwf hv hwstail hwit hfuel
        refine ⟨RP, ?_⟩
        intro y hy
        rcases List.mem_cons.mp hy with rfl | hy
        · obtain ⟨N, eN, _⟩ := RP.sccs_ext
          obtain ⟨Δ, e, _, _, _⟩ := RP.stack_ext
          exact edgeFact_mono RP.num_keep (fun z hz => popped_append hz eN)
            (fun z hz => Or.inl (by rw [e]; exact List.mem_append_right _ hz))
            RP.low_v_mono EF
        · exact REF y hy

/-! ## A visit satisfies its specification -/

theorem popped_iff_snoc {s' s2 : TarjanSt α} {seg : List α}
    (h : s'.sccs = s2.sccs ++ [seg]) (x : α) :
    Popped s' x ↔ Popped s2 x ∨ x ∈ seg := by
  unfold Popped
  rw [h]
  constructor
  · rintro ⟨S, hS, hx⟩
    rcases List.mem_append.mp hS with hS | hS
    · exact Or.inl ⟨S, hS, hx⟩
    · rcases List.mem_singleton.mp hS with rfl
      exact Or.inr hx
  · rintro (⟨S, hS, hx⟩ | hx)
    · exact ⟨S, List.mem_append_left _ hS, hx⟩
    · exact ⟨seg, List.mem_append_right _ (List.mem_singleton_self _), hx⟩

theorem visit_lemma {g : α → List α} {U : List α}
    (hg : ∀ x, ∀ y ∈ g x, y ∈ U) : ∀ fuel, VisitSpec g U fuel := by
  intro fuel
  induction fuel with
  | zero =>
    intro v s hwf hnone hU hfuel
    exact absurd hfuel (by omega)
  | succ fuel ih =>
    intro v s hwf hnone hU hfuel
    have hvnotstack : v ∉ s.stack := by
      intro h
      have := hwf.stack_dom v h
      rw [Option.isNone_iff_eq_none.mp hnone] at this
      simp at this
    set s1 : TarjanSt α :=
      { n := s.n + 1, num := setF s.num v s.n, low := setF s.low v s.n,
        stack := v :: s.stack, sccs := s.sccs } with hs1
    set s2 := visitNbrs g fuel v (g v) s1 with hs2
    have hvisit : visit g (fuel + 1) v s =
        if s2.low v = s2.num v then popScc v s2 else s2 := rfl
    have hwf1 : Wf g U s1 := wf_push hwf hnone hU
    have hv1 : v ∈ s1.stack := List.mem_cons_self v s.stack
    have hnum1v : s1.num v = some s.n := setF_self _ _ _
    have hfuel1 : fuel > unvisited U s1 := by
      have hmono : ∀ x, (s.num x).isSome → (s1.num x).isSome := by
        intro x hx
        by_cases hxv : x = v
        · subst hxv
          rw [hnum1v]
          rfl
        · show (setF s.num v s.n x).isSome
          rw [setF_other _ _ hxv]
          exact hx
      have hstrict := @unvisited_strict _ _ U s s1 v hmono hnone
        (by rw [hnum1v]; rfl) hU
      omega
    have hlow1v : lowOf s1 v = s.n := by
      show (setF s.low v s.n v).getD 0 = s.n
      rw [setF_self]
      rfl
    have hnumOf1v : numOf s1 v = s.n := by
      show (setF s.num v s.n v).getD 0 = s.n
      rw [setF_self]
      rfl
    have hwit1 : lowOf s1 v < numOf s1 v →
        ∃ u ∈ s1.stack, numOf s1 u = lowOf s1 v ∧ Reach g v u := by
      intro h
      rw [hlow1v, hnumOf1v] at h
      omega
    obtain ⟨NP, EFS⟩ := visitNbrs_lemma hg fuel ih (g v) v s1 hwf1 hv1
      (fun y hy => hy) hwit1 hfuel1
    rw [← hs2] at NP EFS
    have hnum2v : s2.num v = some s.n := by rw [NP.num_v_keep, hnum1v]
    have hnumOf2v : numOf s2 v = s.n := by unfold numOf; rw [hnum2v]; rfl
    have hdomv2 : (s2.num v).isSome := by rw [hnum2v]; rfl
    obtain ⟨Δ, he, hnew, hcert, hgam⟩ := NP.stack_ext
    have he' : s2.stack = Δ ++ v :: s.stack := he
    have hv2 : v ∈ s2.stack := by
      rw [he']
      exact List.mem_append_right _ (List.mem_cons_self v s.stack)
    have hvΔ : v ∉ Δ := by
      intro h
      have := hnew v h
      rw [hnum1v] at this
      simp at this
    have hnewS : ∀ x ∈ Δ, (s.num x).isNone ∧ x ≠ v := by
      intro x hx
      have h1 := hnew x hx
      have hxv : x ≠ v := by
        intro he2
        rw [he2, hnum1v] at h1
        simp at h1
      refine ⟨?_, hxv⟩
      have : s1.num x = s.num x := setF_other _ _ hxv
      rw [← this]
      exact h1
    have hnum_keepS : ∀ x, (s.num x).isSome → s2.num x = s.num x := by
      intro x hx
      have hxv : x ≠ v := by
        intro he2
        rw [he2, Option.isNone_iff_eq_none.mp hnone] at hx
        simp at hx
      have h1 : s1.num x = s.num x := setF_other _ _ hxv
      rw [NP.num_keep x (by rw [h1]; exact hx), h1]
    have hold_num : ∀ u ∈ s.stack, numOf s2 u = numOf s u ∧ numOf s u < s.n := by
      intro u hu
      have hdu := hwf.stack_dom u hu
      constructor
      · unfold numOf
        rw [hnum_keepS u hdu]
      · exact hwf.num_lt u hdu
    have hΔ_num : ∀ x ∈ Δ, s.n < numOf s2 x ∧ Reach g v x := by
      intro x hx
      have hdx : (s2.num x).isSome := NP.wf.stack_dom x (by rw [he']; exact List.mem_append_left _ hx)
      rcases NP.num_new x hdx with h1 | ⟨hge, hr⟩
      · exact absurd h1 (by simpa using hnew x hx)
      · have : s1.n = s.n + 1 := rfl
        exact ⟨by omega, hr⟩
    have hnum_newS : ∀ x, (s2.num x).isSome →
        (s.num x).isSome ∨ (s.n ≤ numOf s2 x ∧ Reach g v x) := by
      intro x hx
      rcases NP.num_new x hx with h1 | ⟨hge, hr⟩
      · by_cases hxv : x = v
        · subst hxv
          exact Or.inr ⟨by rw [hnumOf2v], Relation.ReflTransGen.refl⟩
        · have : s1.num x = s.num x := setF_other _ _ hxv
          rw [this] at h1
          exact Or.inl h1
      · have : s1.n = s.n + 1 := rfl
        exact Or.inr ⟨by omega, hr⟩
    have hlow_keepS : ∀ x, x ≠ v → (s.num x).isSome → s2.low x = s.low x := by
      intro x hxv hx
      have h1 : s1.num x = s.num x := setF_other _ _ hxv
      have h2 : s1.low x = s.low x := setF_other _ _ hxv
      rw [NP.low_keep x hxv (by rw [h1]; exact hx), h2]
    have hsccs2 : ∃ N, s2.sccs = s.sccs ++ N ∧
        (∀ S ∈ N, ∀ x ∈ S, (s.num x).isNone) ∧ ∀ S ∈ N, S ≠ [] := by
      obtain ⟨N, heN, hN, hNe⟩ := NP.sccs_ext
      refine ⟨N, heN, ?_, hNe⟩
      intro S hS x hx
      have h1 := hN S hS x hx
      have hxv : x ≠ v := by
        intro he2
        rw [he2, hnum1v] at h1
        simp at h1
      have : s1.num x = s.num x := setF_other _ _ hxv
      rw [← this]
      exact h1
    have hcert_keepS : ∀ x, Certified g s x → Certified g s2 x := by
      intro x hc
      have hxstack : x ∈ s.stack := hc.1
      have hxv : x ≠ v := fun he2 => hvnotstack (he2 ▸ hxstack)
      have hc1 : Certified g s1 x := by
        refine cert_transport ?_ (setF_other _ _ hxv) (fun z hz => hz) ?_ hwf.stack_dom hc
        · intro z hz
          have hzv : z ≠ v := by
            intro he2
            rw [he2, Option.isNone_iff_eq_none.mp hnone] at hz
            simp at hz
          exact setF_other _ _ hzv
        · intro z hz
          exact List.mem_cons_of_mem v hz
      exact NP.cert_keep x hxv hc1
    rw [hvisit]
    by_cases hroot : s2.low v = s2.num v
    · rw [if_pos hroot]
      have hlow2v : lowOf s2 v = s.n := by
        unfold lowOf
        rw [hroot, hnum2v]
        rfl
      have hpop : popTo v s2.stack = (Δ ++ [v], s.stack) := by
        rw [he']
        exact popTo_spec hvΔ
      have hsF : popScc v s2 =
          { s2 with stack := s.stack, sccs := s2.sccs ++ [Δ ++ [v]] } := by
        simp only [popScc, hpop]
      rw [hsF]
      set seg : List α := Δ ++ [v] with hseg
      have hsegelem : ∀ x ∈ seg, x ∈ s2.stack := by
        intro x hx
        rw [he']
        rcases List.mem_append.mp hx with hx | hx
        · exact List.mem_append_left _ hx
        · rcases List.mem_singleton.mp hx with rfl
          exact List.mem_append_right _ (List.mem_cons_self _ _)
      have hseg_cases : ∀ x ∈ seg, x ∈ Δ ∨ x = v := by
        intro x hx
        rcases List.mem_append.mp hx with hx | hx
        · exact Or.inl hx
        · exact Or.inr (List.mem_singleton.mp hx)
      have hseg_ge : ∀ x ∈ seg, s.n ≤ numOf s2 x := by
        intro x hx
        rcases hseg_cases x hx with hx | rfl
        · exact le_of_lt (hΔ_num x hx).1
        · rw [hnumOf2v]
      have hstk_split : ∀ y ∈ s2.stack, y ∈ seg ∨ (y ∈ s.stack ∧ numOf s2 y < s.n) := by
        intro y hy
        rw [he'] at hy
        rcases List.mem_append.mp hy with hy | hy
        · exact Or.inl (List.mem_append_left _ hy)
        · rcases List.mem_cons.mp hy with rfl | hy
          · exact Or.inl (List.mem_append_right _ (List.mem_singleton_self _))
          · exact Or.inr ⟨hy, by rw [(hold_num y hy).1]; exact (hold_num y hy).2⟩
      have hlowseg : ∀ x ∈ seg, s.n ≤ lowOf s2 x := by
        intro x hx
        rcases hseg_cases x hx with hx | rfl
        · have := hgam x hx
          omega
        · rw [hlow2v]
      have hsegnodup : seg.Nodup := by
        have h1 : (seg ++ s.stack).Nodup := by
          have : seg ++ s.stack = s2.stack := by rw [he', hseg]; simp
          rw [this]
          exact NP.wf.stack_nodup
        exact List.Nodup.sublist (List.sublist_append_left _ _) h1
      have hseg_old_disj : ∀ x ∈ seg, x ∉ s.stack := by
        have h1 : (seg ++ s.stack).Nodup := by
          have : seg ++ s.stack = s2.stack := by rw [he', hseg]; simp
          rw [this]
          exact NP.wf.stack_nodup
        intro x hx hx2
        exact (List.disjoint_of_nodup_append h1) hx hx2
      have hseg_nopop : ∀ x ∈ seg, ¬ Popped s2 x :=
        fun x hx => NP.wf.stack_no_pop x (hsegelem x hx)
      have hedge_seg : ∀ x ∈ seg, ∀ y ∈ g x,
          (s2.num y).isSome ∧ (Popped s2 y ∨ y ∈ seg) := by
        intro x hx y hy
        have hEF : EdgeFact s2 x y := by
          rcases hseg_cases x hx with hxΔ | rfl
          · exact (hcert x hxΔ).2.2.2 y hy
          · exact EFS y hy
        obtain ⟨hdy, hc⟩ := hEF
        refine ⟨hdy, ?_⟩
        rcases hc with hp | ⟨hys, hyle⟩
        · exact Or.inl hp
        · rcases hstk_split y hys with hys2 | ⟨_, hlt⟩
          · exact Or.inr hys2
          · exfalso
            have hx2 : s.n ≤ lowOf s2 x := hlowseg x hx
            omega
      have hreach_v_seg : ∀ x ∈ seg, Reach g v x := by
        intro x hx
        rcases hseg_cases x hx with hx | rfl
        · exact (hΔ_num x hx).2
        · exact Relation.ReflTransGen.refl
      have hreach_seg_v : ∀ x ∈ seg, Reach g x v := by
        have descend : ∀ n, ∀ x ∈ seg, numOf s2 x = n → Reach g x v := by
          intro n
          induction n using Nat.strong_induction_on with
          | _ n ihn =>
            intro x hx hn
            rcases hseg_cases x hx with hxΔ | rfl
            · obtain ⟨_, hlt, ⟨u, hu, hnu, hr⟩, _⟩ := hcert x hxΔ
              have hu_ge : s.n ≤ lowOf s2 x := hlowseg x hx
              have hu_seg : u ∈ seg := by
                rcases hstk_split u hu with h1 | ⟨_, h2⟩
                · exact h1
                · exfalso
                  omega
              have hnum_lt : numOf s2 u < n := by omega
              exact Relation.ReflTransGen.trans hr
                (ihn (numOf s2 u) hnum_lt u hu_seg rfl)
            · exact Relation.ReflTransGen.refl
        exact fun x hx => descend (numOf s2 x) x hx rfl
      have hpopF :=
        @popped_iff_snoc α _ { s2 with stack := s.stack, sccs := s2.sccs ++ [seg] }
          s2 seg rfl
      refine
        { wf := ?_
          n_lt := by
            have h1 : s1.n = s.n + 1 := rfl
            have h2 := NP.n_mono
            show s.n < s2.n
            omega
          num_keep := hnum_keepS
          num_v := hnum2v
          num_new := hnum_newS
          low_keep := fun x hxv hdx => hlow_keepS x hxv hdx
          stack_ext := ⟨[], rfl, by simp, by simp, by simp⟩
          sccs_ext := ?_
          low_v_ge := fun k hks hkn => by
            show k ≤ lowOf s2 v
            rw [hlow2v]
            exact hkn
          cert_keep := ?_
          root_split := ?_ }
      · -- Wf of the popped state
        refine
          { stack_nodup := hwf.stack_nodup
            stack_dom := fun x hx => NP.wf.stack_dom x (by rw [he']; exact List.mem_append_right _ (List.mem_cons_of_mem v hx))
            stack_sorted := ?_
            num_lt := NP.wf.num_lt
            num_inj := NP.wf.num_inj
            dom_U := NP.wf.dom_U
            dom_split := ?_
            stack_no_pop := ?_
            sccs_disj := ?_
            sccs_nodup := ?_
            low_le := fun x hx => NP.wf.low_le x (by rw [he']; exact List.mem_append_right _ (List.mem_cons_of_mem v hx))
            pfx_closed := ?_
            sccs_sc := ?_ }
        · -- sorted
          have h1 : s.stack.Sublist s2.stack := by
            rw [he']
            exact List.Sublist.trans (List.sublist_cons_self v s.stack) (List.sublist_append_right Δ _)
          exact List.Pairwise.sublist h1 NP.wf.stack_sorted
        · -- dom_split
          intro x
          rw [(hpopF x)]
          constructor
          · intro hx
            rcases (NP.wf.dom_split x).mp hx with hx2 | hx2
            · rcases hstk_split x hx2 with h1 | ⟨h1, _⟩
              · exact Or.inr (Or.inr h1)
              · exact Or.inl h1
            · exact Or.inr (Or.inl hx2)
          · rintro (hx | hx | hx)
            · exact (NP.wf.dom_split x).mpr (Or.inl (by rw [he']; exact List.mem_append_right _ (List.mem_cons_of_mem v hx)))
            · exact (NP.wf.dom_split x).mpr (Or.inr hx)
            · exact (NP.wf.dom_split x).mpr (Or.inl (hsegelem x hx))
        · -- stack_no_pop
          intro x hx
          rw [(hpopF x)]
          rintro (hp | hp)
          · exact NP.wf.stack_no_pop x (by rw [he']; exact List.mem_append_right _ (List.mem_cons_of_mem v hx)) hp
          · exact hseg_old_disj x hp hx
        · -- sccs_disj
          show (s2.sccs ++ [seg]).Pairwise _
          rw [List.pairwise_append]
          refine ⟨NP.wf.sccs_disj, List.pairwise_singleton _ _, ?_⟩
          intro S hS T hT x hxS hxT
          rcases List.mem_singleton.mp hT with rfl
          exact hseg_nopop x hxT ⟨S, hS, hxS⟩
        · -- sccs_nodup
          intro S hS
          rcases List.mem_append.mp hS with hS | hS
          · exact NP.wf.sccs_nodup S hS
          · rcases List.mem_singleton.mp hS with rfl
            exact hsegnodup
        · -- pfx_closed
          intro k x hxk y hy
          by_cases hk : k ≤ s2.sccs.length
          · rw [show ({ s2 with stack := s.stack, sccs := s2.sccs ++ [seg] } : TarjanSt α).sccs = s2.sccs ++ [seg] from rfl] at hxk ⊢
            rw [List.take_append_of_le_length hk] at hxk ⊢
            exact NP.wf.pfx_closed k x hxk y hy
          · rw [show ({ s2 with stack := s.stack, sccs := s2.sccs ++ [seg] } : TarjanSt α).sccs = s2.sccs ++ [seg] from rfl] at hxk ⊢
            rw [List.take_of_length_le (by simp; omega)] at hxk ⊢
            obtain ⟨S, hS, hxS⟩ := hxk
            rcases List.mem_append.mp hS with hS | hS
            · have h1 := NP.wf.pfx_closed s2.sccs.length x
                (by rw [List.take_length]; exact ⟨S, hS, hxS⟩) y hy
              rw [List.take_length] at h1
              obtain ⟨T, hT, hyT⟩ := h1
              exact ⟨T, List.mem_append_left _ hT, hyT⟩
            · rcases List.mem_singleton.mp hS with rfl
              rcases (hedge_seg x hxS y hy).2 with hp | hp
              · obtain ⟨T, hT, hyT⟩ := hp
                exact ⟨T, List.mem_append_left _ hT, hyT⟩
              · exact ⟨seg, List.mem_append_right _ (List.mem_singleton_self _), hp⟩
        · -- sccs_sc
          intro S hS x hxS y hyS
          rcases List.mem_append.mp hS with hS | hS
          · exact NP.wf.sccs_sc S hS x hxS y hyS
          · rcases List.mem_singleton.mp hS with rfl
            exact Relation.ReflTransGen.trans (hreach_seg_v x hxS) (hreach_v_seg y hyS)
      · -- sccs_ext
        obtain ⟨N, heN, hN, hNe⟩ := hsccs2
        refine ⟨N ++ [seg], ?_, ?_, ?_⟩
        · show s2.sccs ++ [seg] = s.sccs ++ (N ++ [seg])
          rw [heN, List.append_assoc]
        · intro S hS x hx
          rcases List.mem_append.mp hS with hS | hS
          · exact hN S hS x hx
          · rcases List.mem_singleton.mp hS with rfl
            rcases hseg_cases x hx with hx | rfl
            · exact (hnewS x hx).1
            · exact hnone
        · intro S hS
          rcases List.mem_append.mp hS with hS | hS
          · exact hNe S hS
          · rcases List.mem_singleton.mp hS with rfl
            rw [hseg]
            simp
      · -- cert_keep
        intro x hc
        have hc2 := hcert_keepS x hc
        obtain ⟨hxs2, hlt, ⟨u, hu, hnu, hr⟩, hedge⟩ := hc2
        have hxold : x ∈ s.stack := hc.1
        have hxnum : numOf s2 x < s.n := by
          have h1 := hold_num x hxold
          omega
        have hu_old : u ∈ s.stack := by
          rcases hstk_split u hu with h1 | ⟨h2, _⟩
          · exfalso
            have h3 := hseg_ge u h1
            omega
          · exact h2
        refine ⟨hxold, hlt, ⟨u, hu_old, hnu, hr⟩, ?_⟩
        intro y hy
        obtain ⟨hdy, hcy⟩ := hedge y hy
        refine ⟨hdy, ?_⟩
        rcases hcy with hp | ⟨hys, hyle⟩
        · exact Or.inl ((hpopF y).mpr (Or.inl hp))
        · rcases hstk_split y hys with h1 | ⟨h2, _⟩
          · exact Or.inl ((hpopF y).mpr (Or.inr h1))
          · exact Or.inr ⟨h2, hyle⟩
      · -- root_split
        refine Or.inr ⟨rfl, ?_, ?_⟩
        · exact (hpopF v).mpr (Or.inr (List.mem_append_right _ (List.mem_singleton_self _)))
        · show lowOf s2 v = numOf s2 v
          rw [hlow2v, hnumOf2v]
    · rw [if_neg hroot]
      have hlow2vsome : (s2.low v).isSome := NP.low_v_some (by
        show (setF s.low v s.n v).isSome
        rw [setF_self]
        rfl)
      have hlow2v_lt : lowOf s2 v < numOf s2 v := by
        have hle := NP.wf.low_le v hv2
        rcases lt_or_eq_of_le hle with h | h
        · exact h
        · exfalso
          apply hroot
          obtain ⟨L, hL⟩ := Option.isSome_iff_exists.mp hlow2vsome
          rw [hL, hnum2v]
          unfold lowOf at h
          rw [hL] at h
          unfold numOf at h
          rw [hnum2v] at h
          simp at h
          rw [h]
      refine
        { wf := NP.wf
          n_lt := by
            have h1 : s1.n = s.n + 1 := rfl
            have h2 := NP.n_mono
            show s.n < s2.n
            omega
          num_keep := hnum_keepS
          num_v := hnum2v
          num_new := hnum_newS
          low_keep := fun x hxv hdx => hlow_keepS x hxv hdx
          stack_ext := ?_
          sccs_ext := ?_
          low_v_ge := fun k hks hkn => by
            refine NP.low_v_ge k ?_ (by rw [hlow1v]; exact hkn) (by show k ≤ s.n + 1; omega)
            intro u hu
            rcases List.mem_cons.mp hu with rfl | hu
            · rw [hnumOf1v]
              exact hkn
            · have huv : u ≠ v := fun he2 => hvnotstack (he2 ▸ hu)
              have : numOf s1 u = numOf s u := by
                unfold numOf
                rw [show s1.num u = s.num u from setF_other _ _ huv]
              rw [this]
              exact hks u hu
          cert_keep := hcert_keepS
          root_split := Or.inl hv2 }
      · -- stack_ext
        refine ⟨Δ ++ [v], by rw [he']; simp, ?_, ?_, ?_⟩
        · intro x hx
          rcases List.mem_append.mp hx with hx | hx
          · exact (hnewS x hx).1
          · rcases List.mem_singleton.mp hx with rfl
            exact hnone
        · intro x hx
          rcases List.mem_append.mp hx with hx | hx
          · exact hcert x hx
          · rcases List.mem_singleton.mp hx with rfl
            exact ⟨hv2, hlow2v_lt, NP.low_wit hlow2v_lt, fun y hy => EFS y hy⟩
        · intro x hx
          rcases List.mem_append.mp hx with hx | hx
          · exact hgam x hx
          · rcases List.mem_singleton.mp hx with rfl
            exact le_refl _
      · -- sccs_ext
        obtain ⟨N, heN, hN⟩ := hsccs2
        exact ⟨N, heN, hN⟩

/-! ## The top-level loop and the final SCC theorems -/

theorem tarjanLoop_lemma {g : α → List α} {U : List α}
    (hg : ∀ x, ∀ y ∈ g x, y ∈ U) (fuel : Nat) :
    ∀ (vs : List α) (s : TarjanSt α),
      (∀ v ∈ vs, v ∈ U) →
      Wf g U s → s.stack = [] → fuel > unvisited U s →
      Wf g U (tarjanLoop g fuel vs s) ∧
      (tarjanLoop g fuel vs s).stack = [] ∧
      (∀ v ∈ vs, v ∈ U → ((tarjanLoop g fuel vs s).num v).isSome) ∧
      (∀ x, (s.num x).isSome → ((tarjanLoop g fuel vs s).num x).isSome) ∧
      (∃ N, (tarjanLoop g fuel vs s).sccs = s.sccs ++ N ∧ ∀ S ∈ N, S ≠ []) ∧
      unvisited U (tarjanLoop g fuel vs s) ≤ unvisited U s := by
  intro vs
  induction vs with
  | nil =>
    intro s _ hwf hstk hfuel
    rw [tarjanLoop]
    exact ⟨hwf, hstk, by simp, fun x hx => hx,
      ⟨[], (List.append_nil _).symm, by simp⟩, le_refl _⟩
  | cons v vs ih =>
    intro s hvs hwf hstk hfuel
    have hvU : v ∈ U := hvs v (List.mem_cons_self v vs)
    have hvs2 : ∀ u ∈ vs, u ∈ U := fun u hu => hvs u (List.mem_cons_of_mem v hu)
    rw [tarjanLoop]
    by_cases hvn : (s.num v).isNone
    · rw [if_pos hvn]
      · have VP := visit_lemma hg fuel v s hwf hvn hvU hfuel
        have hstk' : (visit g fuel v s).stack = [] := by
          rcases VP.root_split with hin | ⟨he, _, _⟩
          · exfalso
            obtain ⟨Δ, he, hnew, hcert, hgam⟩ := VP.stack_ext
            rw [hstk, List.append_nil] at he
            rw [he] at hin
            have hc := hcert v hin
            have hge : s.n ≤ lowOf (visit g fuel v s) v := by
              refine VP.low_v_ge s.n ?_ (le_refl _)
              intro u hu
              rw [hstk] at hu
              exact absurd hu (List.not_mem_nil u)
            have hnum : numOf (visit g fuel v s) v = s.n := by
              unfold numOf
              rw [VP.num_v]
              rfl
            have := hc.2.1
            omega
          · rw [he, hstk]
        have hvdom : ((visit g fuel v s).num v).isSome := by
          rw [VP.num_v]
          rfl
        have hmono : ∀ x, (s.num x).isSome → ((visit g fuel v s).num x).isSome := by
          intro x hx
          rw [VP.num_keep x hx]
          exact hx
        have hfuel' : fuel > unvisited U (visit g fuel v s) := by
          have h1 := @unvisited_strict _ _ U s (visit g fuel v s) v hmono hvn hvdom hvU
          omega
        obtain ⟨w1, w2, w3, w4, ⟨N2, hN2, hN2e⟩, w6⟩ :=
          ih (visit g fuel v s) hvs2 VP.wf hstk' hfuel'
        refine ⟨w1, w2, ?_, ?_, ?_, ?_⟩
        · intro u hu huU
          rcases List.mem_cons.mp hu with rfl | hu
          · exact w4 u hvdom
          · exact w3 u hu huU
        · exact fun x hx => w4 x (hmono x hx)
        · obtain ⟨N1, hN1e, _, hN1ne⟩ := VP.sccs_ext
          refine ⟨N1 ++ N2, by rw [hN2, hN1e, List.append_assoc], ?_⟩
          intro S hS
          rcases List.mem_append.mp hS with hS | hS
          · exact hN1ne S hS
          · exact hN2e S hS
        · have h1 := @unvisited_mono _ _ U s (visit g fuel v s) hmono
          omega
    · rw [if_neg hvn]
      have hvdom : (s.num v).isSome := by
        cases h : s.num v
        · rw [h] at hvn; simp at hvn
        · rfl
      obtain ⟨w1, w2, w3, w4, w5, w6⟩ := ih s hvs2 hwf hstk hfuel
      refine ⟨w1, w2, ?_, w4, w5, w6⟩
      intro u hu huU
      rcases List.mem_cons.mp hu with rfl | hu
      · exact w4 u hvdom
      · exact w3 u hu huU

/-! ## sccsOf: the three headline facts -/

theorem wf_init {g : α → List α} {U : List α} : Wf g U (initSt (α := α)) := by
  constructor
  · exact List.nodup_nil
  · intro x hx
    exact absurd hx (List.not_mem_nil x)
  · exact List.Pairwise.nil
  · intro x hx
    simp [initSt] at hx
  · intro x y hx _ _
    simp [initSt] at hx
  · intro x hx
    simp [initSt] at hx
  · intro x
    simp [initSt, Popped]
  · intro x hx
    exact absurd hx (List.not_mem_nil x)
  · exact List.Pairwise.nil
  · intro S hS
    exact absurd hS (List.not_mem_nil S)
  · intro x hx
    exact absurd hx (List.not_mem_nil x)
  · intro k x hx
    simp [initSt] at hx
  · intro S hS
    exact absurd hS (List.not_mem_nil S)

theorem succsOf_mem_U (g : List (α × List α)) :
    ∀ x, ∀ y ∈ succsOf g x, y ∈ tarjanU g := by
  intro x y hy
  unfold succsOf at hy
  cases hfind : g.find? (fun p => decide (p.1 = x)) with
  | none => rw [hfind] at hy; exact absurd hy (List.not_mem_nil y)
  | some p =>
    rw [hfind] at hy
    simp only [Option.map_some', Option.getD_some] at hy
    have hp : p ∈ g := List.mem_of_find?_eq_some hfind
    unfold tarjanU
    refine List.mem_append_right _ (List.mem_flatten.mpr ⟨p.2, ?_, hy⟩)
    exact List.mem_map.mpr ⟨p, hp, rfl⟩

theorem keys_mem_U (g : List (α × List α)) :
    ∀ v ∈ g.map Prod.fst, v ∈ tarjanU g := by
  intro v hv
  exact List.mem_append_left _ hv

/-- The state at the end of the top-level loop. -/
def tarjanFin (g : List (α × List α)) : TarjanSt α :=
  tarjanLoop (succsOf g) ((tarjanU g).length + 1) (g.map Prod.fst) initSt

theorem sccsOf_eq_fin (g : List (α × List α)) :
    sccsOf g = (tarjanFin g).sccs := rfl

theorem tarjanFin_spec (g : List (α × List α)) :
    Wf (succsOf g) (tarjanU g) (tarjanFin g) ∧
    (tarjanFin g).stack = [] ∧
    (∀ v ∈ g.map Prod.fst, ((tarjanFin g).num v).isSome) ∧
    (∀ S ∈ (tarjanFin g).sccs, S ≠ []) := by
  have hfuel : (tarjanU g).length + 1 > unvisited (tarjanU g) (initSt (α := α)) := by
    have := List.length_filter_le (fun x => ((initSt (α := α)).num x).isNone) (tarjanU g)
    unfold unvisited
    omega
  obtain ⟨w1, w2, w3, _, ⟨N, hN, hNe⟩, _⟩ :=
    tarjanLoop_lemma (succsOf_mem_U g) ((tarjanU g).length + 1)
      (g.map Prod.fst) initSt (keys_mem_U g) wf_init rfl hfuel
  refine ⟨w1, w2, fun v hv => w3 v hv (keys_mem_U g v hv), ?_⟩
  intro S hS
  have he : (tarjanFin g).sccs = N := by
    unfold tarjanFin
    rw [hN]
    rfl
  rw [he] at hS
  exact hNe S hS

/-- Reachability stays inside a successor-closed prefix of the emitted
components. -/
theorem pfx_closed_reach {g : α → List α} {U : List α} {s : TarjanSt α}
    (hwf : Wf g U s) (k : Nat) {x y : α}
    (hx : ∃ S ∈ s.sccs.take k, x ∈ S) (hr : Reach g x y) :
    ∃ S ∈ s.sccs.take k, y ∈ S := by
  induction hr with
  | refl => exact hx
  | tail _ hbc ih => exact hwf.pfx_closed k _ ih _ hbc

/-- SCC output fact 1: each emitted component is strongly connected. -/
theorem sccsOf_strongly_connected (g : List (α × List α)) :
    ∀ S ∈ sccsOf g, ∀ x ∈ S, ∀ y ∈ S, Reach (succsOf g) x y := by
  rw [sccsOf_eq_fin]
  exact (tarjanFin_spec g).1.sccs_sc

/-- SCC output fact 2: mutually reachable vertices land in the same
emitted component. -/
theorem sccsOf_mutual (g : List (α × List α)) {S : List α} {x y : α}
    (hS : S ∈ sccsOf g) (hx : x ∈ S)
    (hxy : Reach (succsOf g) x y) (hyx : Reach (succsOf g) y x) :
    y ∈ S := by
  rw [sccsOf_eq_fin] at hS
  have hwf := (tarjanFin_spec g).1
  set s := tarjanFin g with hsdef
  obtain ⟨i, hi, hSi⟩ := List.mem_iff_getElem.mp hS
  have hdisj : ∀ a b : Nat, ∀ ha : a < s.sccs.length, ∀ hb : b < s.sccs.length,
      a < b → ∀ z ∈ s.sccs[a], z ∉ s.sccs[b] := by
    intro a b ha hb hab z hza
    exact (List.pairwise_iff_getElem.mp hwf.sccs_disj a b ha hb hab) z hza
  have hmem_take : ∀ (j : Nat) (hj : j < s.sccs.length), s.sccs[j] ∈ s.sccs.take (j + 1) := by
    intro j hj
    have hjlen : j < (s.sccs.take (j + 1)).length := by
      rw [List.length_take]
      omega
    have : (s.sccs.take (j + 1))[j] = s.sccs[j] := List.getElem_take s.sccs
    rw [← this]
    exact List.getElem_mem hjlen
  have hidx_of_take : ∀ (k : Nat) {z : α}, (∃ T ∈ s.sccs.take k, z ∈ T) →
      ∃ j, ∃ hj : j < s.sccs.length, j < k ∧ z ∈ s.sccs[j] := by
    intro k z ⟨T, hT, hzT⟩
    obtain ⟨j, hj, hTj⟩ := List.mem_iff_getElem.mp hT
    have hjlen : j < s.sccs.length := lt_of_lt_of_le hj (by
      rw [List.length_take] at hj ⊢
      omega)
    have hjk : j < k := by
      rw [List.length_take] at hj
      omega
    refine ⟨j, hjlen, hjk, ?_⟩
    have : (s.sccs.take k)[j] = s.sccs[j] := List.getElem_take s.sccs
    rw [← this]
    rw [hTj]
    exact hzT
  -- y lies in some component with index j ≤ i
  have hxi : ∃ T ∈ s.sccs.take (i + 1), x ∈ T := ⟨s.sccs[i], hmem_take i hi, hSi ▸ hx⟩
  obtain ⟨j, hj, hji, hyj⟩ := hidx_of_take (i + 1) (pfx_closed_reach hwf (i + 1) hxi hxy)
  -- x lies in some component with index j' ≤ j
  have hyj2 : ∃ T ∈ s.sccs.take (j + 1), y ∈ T := ⟨s.sccs[j], hmem_take j hj, hyj⟩
  obtain ⟨j2, hj2, hj2j, hxj2⟩ := hidx_of_take (j + 1) (pfx_closed_reach hwf (j + 1) hyj2 hyx)
  -- disjointness pins j2 = i, hence j = i
  have hij2 : i = j2 := by
    by_contra hne
    rcases Nat.lt_or_ge i j2 with hlt | hge
    · exact hdisj i j2 hi hj2 hlt x (hSi ▸ hx) hxj2
    · have hlt : j2 < i := by omega
      exact hdisj j2 i hj2 hi hlt x hxj2 (hSi ▸ hx)
  have hji2 : j = i := by omega
  subst hji2
  rw [hSi] at hyj
  exact hyj

/-- SCC output fact 3: when the keys are distinct and every dependency
target is itself a key, the emitted components partition the key list. -/
theorem sccsOf_partition (g : List (α × List α))
    (hnd : (g.map Prod.fst).Nodup)
    (hdeps : ∀ p ∈ g, ∀ y ∈ p.2, y ∈ g.map Prod.fst) :
    (sccsOf g).flatten.Perm (g.map Prod.fst) := by
  obtain ⟨hwf, hstk, hkeys, _⟩ := tarjanFin_spec g
  rw [sccsOf_eq_fin]
  set s := tarjanFin g with hsdef
  have hU_keys : ∀ x ∈ tarjanU g, x ∈ g.map Prod.fst := by
    intro x hx
    rcases List.mem_append.mp hx with h | h
    · exact h
    · obtain ⟨l, hl, hxl⟩ := List.mem_flatten.mp h
      obtain ⟨p, hp, rfl⟩ := List.mem_map.mp hl
      exact hdeps p hp x hxl
  have hmem : ∀ x, x ∈ s.sccs.flatten ↔ x ∈ g.map Prod.fst := by
    intro x
    constructor
    · intro hx
      obtain ⟨S, hS, hxS⟩ := List.mem_flatten.mp hx
      have hpop : Popped s x := ⟨S, hS, hxS⟩
      have hdom := (hwf.dom_split x).mpr (Or.inr hpop)
      exact hU_keys x (hwf.dom_U x hdom)
    · intro hx
      have hdom := hkeys x hx
      rcases (hwf.dom_split x).mp hdom with hin | ⟨S, hS, hxS⟩
      · rw [hstk] at hin
        exact absurd hin (List.not_mem_nil x)
      · exact List.mem_flatten.mpr ⟨S, hS, hxS⟩
  have hfl_nd : s.sccs.flatten.Nodup := by
    rw [List.nodup_flatten]
    refine ⟨hwf.sccs_nodup, ?_⟩
    refine hwf.sccs_disj.imp ?_
    intro S T h a ha ha2
    exact h a ha ha2
  exact (List.perm_ext_iff_of_nodup hfl_nd hnd).mpr hmem

/-- Every emitted component is nonempty: a root pop always pops at least
the root itself. -/
theorem sccsOf_ne_nil (g : List (α × List α)) : ∀ S ∈ sccsOf g, S ≠ [] := by
  rw [sccsOf_eq_fin]
  exact (tarjanFin_spec g).2.2.2

/-- The flattened component list never repeats a vertex. -/
theorem sccsOf_flatten_nodup (g : List (α × List α)) :
    (sccsOf g).flatten.Nodup := by
  obtain ⟨hwf, _, _, _⟩ := tarjanFin_spec g
  rw [sccsOf_eq_fin, List.nodup_flatten]
  refine ⟨hwf.sccs_nodup, ?_⟩
  refine hwf.sccs_disj.imp ?_
  intro S T h a ha ha2
  exact h a ha ha2

/-- A vertex belongs to at most one emitted component. -/
theorem sccsOf_owner_unique (g : List (α × List α)) {S T : List α} {y : α}
    (hS : S ∈ sccsOf g) (hT : T ∈ sccsOf g) (hyS : y ∈ S) (hyT : y ∈ T) :
    S = T := by
  obtain ⟨hwf, _, _, _⟩ := tarjanFin_spec g
  rw [sccsOf_eq_fin] at hS hT
  set s := tarjanFin g with hsdef
  obtain ⟨i, hi, hSi⟩ := List.mem_iff_getElem.mp hS
  obtain ⟨j, hj, hTj⟩ := List.mem_iff_getElem.mp hT
  have hdisj := List.pairwise_iff_getElem.mp hwf.sccs_disj
  have hij : i = j := by
    by_contra hne
    rcases Nat.lt_or_ge i j with hlt | hge
    · exact hdisj i j hi hj hlt y (hSi ▸ hyS) (hTj ▸ hyT)
    · have hlt : j < i := by omega
      exact hdisj j i hj hi hlt y (hTj ▸ hyT) (hSi ▸ hyS)
  subst hij
  rw [← hSi]
  exact hTj

/-! ## Python dict lemmas -/

theorem pyDictInsert_sub {κ β : Type} [DecidableEq κ] {d : List (κ × β)}
    {k : κ} {v : β} {q : κ × β} (h : q ∈ pyDictInsert d k v) :
    q ∈ d ∨ q = (k, v) := by
  unfold pyDictInsert at h
  by_cases he : d.any (fun p => decide (p.1 = k))
  · rw [if_pos he] at h
    obtain ⟨p, hp, hq⟩ := List.mem_map.mp h
    by_cases hpk : p.1 = k
    · rw [if_pos hpk] at hq
      exact Or.inr hq.symm
    · rw [if_neg hpk] at hq
      exact Or.inl (hq ▸ hp)
  · rw [if_neg he] at h
    rcases List.mem_append.mp h with h | h
    · exact Or.inl h
    · exact Or.inr (List.mem_singleton.mp h)

theorem pyDictOf_sub {κ β : Type} [DecidableEq κ] {l : List (κ × β)} {q : κ × β}
    (h : q ∈ pyDictOf l) : q ∈ l := by
  suffices H : ∀ (l : List (κ × β)) (d : List (κ × β)),
      q ∈ l.foldl (fun d p => pyDictInsert d p.1 p.2) d → q ∈ d ∨ q ∈ l by
    rcases H l [] h with h | h
    · exact absurd h (List.not_mem_nil q)
    · exact h
  intro l
  induction l with
  | nil => exact fun d h => Or.inl h
  | cons p ps ih =>
    intro d h
    rcases ih (pyDictInsert d p.1 p.2) h with h | h
    · rcases pyDictInsert_sub h with h | h
      · exact Or.inl h
      · exact Or.inr (by rw [h]; exact List.mem_cons_self _ _)
    · exact Or.inr (List.mem_cons_of_mem _ h)

theorem pyDictInsert_keys_pos {κ β : Type} [DecidableEq κ] {d : List (κ × β)}
    {k : κ} (v : β) (he : d.any (fun p => decide (p.1 = k)) = true) :
    (pyDictInsert d k v).map Prod.fst = d.map Prod.fst := by
  unfold pyDictInsert
  rw [if_pos he, List.map_map]
  refine List.map_congr_left ?_
  intro p _
  by_cases hpk : p.1 = k
  · simp [hpk]
  · simp [hpk]

theorem pyDictInsert_keys {κ β : Type} [DecidableEq κ] (d : List (κ × β))
    (k : κ) (v : β) (x : κ) :
    x ∈ (pyDictInsert d k v).map Prod.fst ↔ x ∈ d.map Prod.fst ∨ x = k := by
  by_cases he : d.any (fun p => decide (p.1 = k))
  · rw [pyDictInsert_keys_pos v he]
    obtain ⟨p0, hp0, hp0k⟩ := List.any_eq_true.mp he
    rw [decide_eq_true_iff] at hp0k
    constructor
    · exact fun hx => Or.inl hx
    · intro hx
      rcases hx with hx | rfl
      · exact hx
      · exact List.mem_map.mpr ⟨p0, hp0, hp0k⟩
  · unfold pyDictInsert
    rw [if_neg he]
    rw [List.map_append, List.mem_append]
    constructor
    · intro hx
      rcases hx with hx | hx
      · exact Or.inl hx
      · exact Or.inr (List.mem_singleton.mp hx)
    · intro hx
      rcases hx with hx | rfl
      · exact Or.inl hx
      · exact Or.inr (List.mem_singleton_self _)

theorem pyDictOf_keys {κ β : Type} [DecidableEq κ] (l : List (κ × β)) (x : κ) :
    x ∈ (pyDictOf l).map Prod.fst ↔ x ∈ l.map Prod.fst := by
  suffices H : ∀ (l : List (κ × β)) (d : List (κ × β)),
      (x ∈ (l.foldl (fun d p => pyDictInsert d p.1 p.2) d).map Prod.fst ↔
        x ∈ d.map Prod.fst ∨ x ∈ l.map Prod.fst) by
    rw [pyDictOf, H l []]
    simp
  intro l
  induction l with
  | nil => intro d; simp [List.foldl_nil]
  | cons p ps ih =>
    intro d
    rw [List.foldl_cons, ih (pyDictInsert d p.1 p.2), pyDictInsert_keys]
    simp only [List.map_cons, List.mem_cons]
    constructor
    · rintro ((h | rfl) | h)
      · exact Or.inl h
      · exact Or.inr (Or.inl rfl)
      · exact Or.inr (Or.inr h)
    · rintro (h | (rfl | h))
      · exact Or.inl (Or.inl h)
      · exact Or.inl (Or.inr rfl)
      · exact Or.inr h

theorem pyDictInsert_keys_nodup {κ β : Type} [DecidableEq κ] {d : List (κ × β)}
    {k : κ} {v : β} (h : (d.map Prod.fst).Nodup) :
    ((pyDictInsert d k v).map Prod.fst).Nodup := by
  unfold pyDictInsert
  by_cases he : d.any (fun p => decide (p.1 = k))
  · rw [if_pos he]
    have : (d.map fun p => if p.1 = k then (k, v) else p).map Prod.fst
        = d.map Prod.fst := by
      rw [List.map_map]
      refine List.map_congr_left ?_
      intro p _
      by_cases hpk : p.1 = k
      · simp [hpk]
      · simp [hpk]
    rw [this]
    exact h
  · rw [if_neg he, List.map_append]
    refine List.Nodup.append h (List.nodup_singleton k) ?_
    intro x hx hx2
    rcases List.mem_singleton.mp hx2 with rfl
    obtain ⟨p, hp, hq⟩ := List.mem_map.mp hx
    rw [List.any_eq_true] at he
    exact he ⟨p, hp, by rw [decide_eq_true_iff]; exact hq⟩

theorem pyDictOf_keys_nodup {κ β : Type} [DecidableEq κ] (l : List (κ × β)) :
    ((pyDictOf l).map Prod.fst).Nodup := by
  suffices H : ∀ (l : List (κ × β)) (d : List (κ × β)), (d.map Prod.fst).Nodup →
      ((l.foldl (fun d p => pyDictInsert d p.1 p.2) d).map Prod.fst).Nodup by
    exact H l [] List.nodup_nil
  intro l
  induction l with
  | nil => exact fun d h => h
  | cons p ps ih =>
    intro d h
    exact ih (pyDictInsert d p.1 p.2) (pyDictInsert_keys_nodup h)

theorem pyLookup_mem {κ β : Type} [DecidableEq κ] {d : List (κ × β)} {k : κ} {v : β}
    (h : pyLookup d k = some v) : (k, v) ∈ d := by
  unfold pyLookup at h
  cases hf : d.find? (fun p => decide (p.1 = k)) with
  | none => rw [hf] at h; simp at h
  | some p =>
    rw [hf] at h
    simp only [Option.map_some'] at h
    have hp := List.mem_of_find?_eq_some hf
    have hk := List.find?_some hf
    rw [decide_eq_true_iff] at hk
    have : p = (k, v) := by
      cases p
      simp only at hk h
      rw [Option.some_inj] at h
      rw [hk, h]
    exact this ▸ hp

theorem pyLookup_isSome {κ β : Type} [DecidableEq κ] {d : List (κ × β)} {k : κ}
    (h : k ∈ d.map Prod.fst) : (pyLookup d k).isSome := by
  unfold pyLookup
  obtain ⟨p, hp, hq⟩ := List.mem_map.mp h
  cases hf : d.find? (fun p => decide (p.1 = k)) with
  | none =>
    have := List.find?_eq_none.mp hf p hp
    rw [decide_eq_true_iff] at this
    exact absurd hq this
  | some q => rfl

/-- With distinct keys every insertion appends, so the dict is the pair
list itself. -/
theorem pyDictOf_eq_self {κ β : Type} [DecidableEq κ] {l : List (κ × β)}
    (h : (l.map Prod.fst).Nodup) : pyDictOf l = l := by
  induction l using List.reverseRecOn with
  | nil => rfl
  | append_singleton ps p ih =>
    rw [List.map_append] at h
    have hps : (ps.map Prod.fst).Nodup := (List.nodup_append.mp h).1
    have hnotin : p.1 ∉ ps.map Prod.fst := by
      intro hmem
      have hd := (List.nodup_append.mp h).2.2
      exact hd hmem (by simp)
    have hfold : pyDictOf (ps ++ [p]) = pyDictInsert (pyDictOf ps) p.1 p.2 := by
      unfold pyDictOf
      rw [List.foldl_append]
      rfl
    rw [hfold, ih hps]
    unfold pyDictInsert
    have hany : ps.any (fun q => decide (q.1 = p.1)) = false := by
      rw [List.any_eq_false]
      intro q hq
      simp only [decide_eq_true_iff]
      intro he
      exact hnotin (List.mem_map.mpr ⟨q, hq, he⟩)
    rw [hany]
    simp

/-! ## Sorting and flatten helpers -/

theorem pyInsert_perm {β : Type} (le : β → β → Bool) (x : β) :
    ∀ (l : List β), (pyInsert le x l).Perm (x :: l) := by
  intro l
  induction l with
  | nil => exact List.Perm.refl _
  | cons y ys ih =>
    show (if le y x then y :: pyInsert le x ys else x :: y :: ys).Perm (x :: y :: ys)
    by_cases h : le y x
    · rw [if_pos h]
      exact List.Perm.trans (ih.cons y) (List.Perm.swap x y ys)
    · rw [if_neg h]

theorem pySort_perm {β : Type} (le : β → β → Bool) (l : List β) :
    (pySort le l).Perm l := by
  suffices H : ∀ (l : List β) (acc : List β),
      (l.foldl (fun acc x => pyInsert le x acc) acc).Perm (acc ++ l) by
    have h := H l []
    rw [List.nil_append] at h
    exact h
  intro l
  induction l with
  | nil => intro acc; simp [List.foldl_nil]
  | cons x xs ih =>
    intro acc
    rw [List.foldl_cons]
    refine List.Perm.trans (ih (pyInsert le x acc)) ?_
    have h1 : (pyInsert le x acc ++ xs).Perm ((x :: acc) ++ xs) :=
      (pyInsert_perm le x acc).append_right xs
    refine List.Perm.trans h1 ?_
    show (x :: (acc ++ xs)).Perm (acc ++ x :: xs)
    exact List.perm_middle.symm

theorem sortByStrKey_perm {β : Type} (key : β → String) (l : List β) :
    (sortByStrKey key l).Perm l := pySort_perm _ l

theorem sortByNatKey_perm {β : Type} (key : β → Nat) (l : List β) :
    (sortByNatKey key l).Perm l := pySort_perm _ l

theorem flatten_map_perm {β : Type} {g : List β → List β} :
    ∀ {L : List (List β)}, (∀ S ∈ L, (g S).Perm S) →
      ((L.map g).flatten).Perm L.flatten := by
  intro L
  induction L with
  | nil => intro _; exact List.Perm.refl _
  | cons S Ls ih =>
    intro h
    rw [List.map_cons, List.flatten_cons, List.flatten_cons]
    exact List.Perm.append (h S (List.mem_cons_self _ _))
      (ih fun T hT => h T (List.mem_cons_of_mem _ hT))

/-! ## Extraction facts -/

theorem extract_names (file : List PyStmt) :
    (extractTopLevel file).1.map Item.name
      = ((file.map stmtItems).flatten).map Item.name := by
  show (((file.map stmtItems).flatten).map _).map Item.name = _
  rw [List.map_map]
  rfl

theorem extract_deps_closed (file : List PyStmt) :
    ∀ it ∈ (extractTopLevel file).1, ∀ d ∈ it.deps,
      d ∈ (extractTopLevel file).1.map Item.name := by
  intro it hit d hd
  obtain ⟨it0, hit0, rfl⟩ := List.mem_map.mp hit
  have hdd : d ∈ itemDeps (((file.map stmtItems).flatten).map Item.name) it0 := hd
  have hb := List.of_mem_filter hdd
  rw [Bool.and_eq_true, decide_eq_true_iff, decide_eq_true_iff] at hb
  rw [extract_names]
  exact hb.1

/-! ## Graph facts -/

theorem buildGraph_keys (items : List Item) (x : String) :
    x ∈ (buildGraph items).map Prod.fst ↔ x ∈ items.map Item.name := by
  unfold buildGraph
  rw [pyDictOf_keys, List.map_map]
  rfl

theorem buildGraph_keys_nodup (items : List Item) :
    ((buildGraph items).map Prod.fst).Nodup := pyDictOf_keys_nodup _

theorem buildGraph_deps_mem (items : List Item)
    (hcl : ∀ it ∈ items, ∀ d ∈ it.deps, d ∈ items.map Item.name) :
    ∀ p ∈ buildGraph items, ∀ y ∈ p.2, y ∈ (buildGraph items).map Prod.fst := by
  intro p hp y hy
  have hsub := pyDictOf_sub hp
  obtain ⟨it, hit, he⟩ := List.mem_map.mp hsub
  rw [buildGraph_keys]
  refine hcl it hit y ?_
  rw [← he] at hy
  exact hy

/-- The vertices of the component partition of an item dependency graph
are exactly the item names (one per distinct name). -/
theorem graph_partition (items : List Item)
    (hcl : ∀ it ∈ items, ∀ d ∈ it.deps, d ∈ items.map Item.name) (x : String) :
    x ∈ (sccsOf (buildGraph items)).flatten ↔ x ∈ items.map Item.name := by
  have hperm := sccsOf_partition (buildGraph items) (buildGraph_keys_nodup items)
    (buildGraph_deps_mem items hcl)
  rw [hperm.mem_iff, buildGraph_keys]

/-! ## Assoc list lookups with distinct keys -/

theorem pyLookup_self {κ β : Type} [DecidableEq κ] :
    ∀ {l : List (κ × β)}, (l.map Prod.fst).Nodup → ∀ {p : κ × β}, p ∈ l →
      pyLookup l p.1 = some p.2 := by
  intro l
  induction l with
  | nil => intro _ p hp; exact absurd hp (List.not_mem_nil p)
  | cons q qs ih =>
    intro hnd p hp
    rw [List.map_cons, List.nodup_cons] at hnd
    by_cases hqp : q.1 = p.1
    · have hpq : p = q := by
        rcases List.mem_cons.mp hp with h | h
        · exact h
        · exfalso
          exact hnd.1 (hqp ▸ List.mem_map.mpr ⟨p, h, rfl⟩)
      unfold pyLookup
      rw [List.find?_cons_of_pos _ (by rw [decide_eq_true_iff]; exact hqp)]
      rw [hpq]
      rfl
    · have hptl : p ∈ qs := by
        rcases List.mem_cons.mp hp with h | h
        · exact absurd (congrArg Prod.fst h).symm hqp
        · exact h
      unfold pyLookup
      rw [List.find?_cons_of_neg _ (by rw [decide_eq_true_iff]; exact hqp)]
      exact ih hnd.2 hptl

theorem itemByName_name (items : List Item) {n : String} {it : Item}
    (h : pyLookup (itemByName items) n = some it) : it.name = n := by
  have hm := pyLookup_mem h
  have hs := pyDictOf_sub hm
  obtain ⟨it0, _, he⟩ := List.mem_map.mp hs
  have h1 : it0.name = n := congrArg Prod.fst he
  have h2 : it0 = it := congrArg Prod.snd he
  rw [← h2, h1]

/-- The looked-up component member for a name is an item carrying that
name (the fallback placeholder included). -/
def memberFor (items : List Item) (n : String) : Item :=
  (pyLookup (itemByName items) n).getD { name := n, kind := "", refs := [], source := "" }

theorem memberFor_name (items : List Item) (n : String) :
    (memberFor items n).name = n := by
  unfold memberFor
  cases h : pyLookup (itemByName items) n with
  | none => rfl
  | some it => exact itemByName_name items h

/-! ## build_components facts -/

theorem buildComponents_mem_iff (items : List Item) (c : Comp) :
    c ∈ (buildComponents items).1 ↔
      ∃ S ∈ sccsOf (buildGraph items),
        c = { names := (sortByStrKey (fun it => pyLowerStr it.name)
                (S.map (memberFor items))).map Item.name,
              items := sortByStrKey (fun it => pyLowerStr it.name)
                (S.map (memberFor items)),
              module_name := moduleNameFor ((sortByStrKey (fun it => pyLowerStr it.name)
                (S.map (memberFor items))).map Item.name) } := by
  unfold buildComponents
  constructor
  · intro hc
    have hc2 := (sortByNatKey_perm _ _).mem_iff.mp hc
    obtain ⟨S, hS, he⟩ := List.mem_map.mp hc2
    exact ⟨S, hS, he.symm⟩
  · rintro ⟨S, hS, rfl⟩
    refine (sortByNatKey_perm _ _).mem_iff.mpr ?_
    exact List.mem_map.mpr ⟨S, hS, rfl⟩

theorem comp_names_perm (items : List Item) {S : List String} :
    (((sortByStrKey (fun it => pyLowerStr it.name) (S.map (memberFor items)))).map
      Item.name).Perm S := by
  have h1 : ((sortByStrKey (fun it => pyLowerStr it.name)
      (S.map (memberFor items))).map Item.name).Perm
      ((S.map (memberFor items)).map Item.name) :=
    (sortByStrKey_perm _ _).map Item.name
  have h2 : (S.map (memberFor items)).map Item.name = S := by
    rw [List.map_map]
    have : ∀ n ∈ S, (Item.name ∘ memberFor items) n = n := by
      intro n _
      exact memberFor_name items n
    rw [List.map_congr_left this]
    exact List.map_id S
  rw [h2] at h1
  exact h1

theorem buildComponents_names (items : List Item) :
    ∀ c ∈ (buildComponents items).1, ∃ S ∈ sccsOf (buildGraph items), c.names.Perm S := by
  intro c hc
  obtain ⟨S, hS, rfl⟩ := (buildComponents_mem_iff items c).mp hc
  exact ⟨S, hS, comp_names_perm items⟩

theorem buildComponents_covers (items : List Item) :
    ∀ S ∈ sccsOf (buildGraph items),
      ∃ c ∈ (buildComponents items).1, c.names.Perm S := by
  intro S hS
  refine ⟨_, (buildComponents_mem_iff items _).mpr ⟨S, hS, rfl⟩, ?_⟩
  exact comp_names_perm items

theorem buildComponents_flatten_names (items : List Item) :
    (((buildComponents items).1.map Comp.names).flatten).Perm
      (sccsOf (buildGraph items)).flatten := by
  unfold buildComponents
  refine List.Perm.trans (List.Perm.flatten (List.Perm.map Comp.names
    (sortByNatKey_perm _ _))) ?_
  rw [List.map_map]
  exact flatten_map_perm fun S _ => comp_names_perm items

/-! ## Item-level component facts (distinct names) -/

theorem buildGraph_eq_self (items : List Item) (hnd : (items.map Item.name).Nodup) :
    buildGraph items = items.map fun it => (it.name, it.deps) := by
  unfold buildGraph
  refine pyDictOf_eq_self ?_
  rw [List.map_map]
  exact hnd

theorem itemByName_eq_self (items : List Item) (hnd : (items.map Item.name).Nodup) :
    itemByName items = items.map fun it => (it.name, it) := by
  unfold itemByName
  refine pyDictOf_eq_self ?_
  rw [List.map_map]
  exact hnd

theorem memberFor_self (items : List Item) (hnd : (items.map Item.name).Nodup)
    {it : Item} (hit : it ∈ items) : memberFor items it.name = it := by
  unfold memberFor
  rw [itemByName_eq_self items hnd]
  have : pyLookup (items.map fun it => (it.name, it)) it.name = some it := by
    have hm : (it.name, it) ∈ items.map fun it => (it.name, it) :=
      List.mem_map.mpr ⟨it, hit, rfl⟩
    have := pyLookup_self (l := items.map fun it => (it.name, it))
      (by rw [List.map_map]; exact hnd) hm
    exact this
  rw [this]
  rfl

theorem buildGraph_fst_eq (items : List Item) (hnd : (items.map Item.name).Nodup) :
    (buildGraph items).map Prod.fst = items.map Item.name := by
  rw [buildGraph_eq_self items hnd, List.map_map]
  rfl

/-- With distinct item names, the components of `build_components` carry
each extracted item exactly once. -/
theorem flatten_map_perm2 {β γ : Type} {g h : γ → List β} :
    ∀ {L : List γ}, (∀ S ∈ L, (g S).Perm (h S)) →
      ((L.map g).flatten).Perm ((L.map h).flatten) := by
  intro L
  induction L with
  | nil => intro _; exact List.Perm.refl _
  | cons S Ls ih =>
    intro hp
    rw [List.map_cons, List.map_cons, List.flatten_cons, List.flatten_cons]
    exact List.Perm.append (hp S (List.mem_cons_self _ _))
      (ih fun T hT => hp T (List.mem_cons_of_mem _ hT))

theorem buildComponents_flatten_items (items : List Item)
    (hnd : (items.map Item.name).Nodup)
    (hcl : ∀ it ∈ items, ∀ d ∈ it.deps, d ∈ items.map Item.name) :
    (((buildComponents items).1.map Comp.items).flatten).Perm items := by
  unfold buildComponents
  refine List.Perm.trans (List.Perm.flatten (List.Perm.map Comp.items
    (sortByNatKey_perm _ _))) ?_
  rw [List.map_map]
  show (((sccsOf (buildGraph items)).map fun S =>
    sortByStrKey (fun it => pyLowerStr it.name) (S.map (memberFor items))).flatten).Perm items
  refine List.Perm.trans (flatten_map_perm2 fun S _ => sortByStrKey_perm _ _) ?_
  show ((((sccsOf (buildGraph items)).map (List.map (memberFor items)))).flatten).Perm items
  rw [← List.map_flatten]
  have h2 : ((sccsOf (buildGraph items)).flatten).Perm (items.map Item.name) := by
    have hp := sccsOf_partition (buildGraph items) (buildGraph_keys_nodup items)
      (buildGraph_deps_mem items hcl)
    rw [buildGraph_fst_eq items hnd] at hp
    exact hp
  refine List.Perm.trans (h2.map (memberFor items)) ?_
  rw [List.map_map]
  have hself : ∀ it ∈ items, (memberFor items ∘ Item.name) it = it := by
    intro it hit
    exact memberFor_self items hnd hit
  rw [List.map_congr_left hself]
  have hid : items.map (fun a => a) = items := List.map_id items
  rw [hid]

/-! ## The packing invariant -/

/-- What the packing steps preserve about component membership: the
flattened name lists repeat nothing, and no component is empty. -/
def NamesOK (l : List Comp) : Prop :=
  ((l.map Comp.names).flatten).Nodup ∧ ∀ c ∈ l, c.names ≠ []

/-- A projection that merging concatenates and renaming keeps. -/
def MergeHom {β : Type} (f : Comp → List β) : Prop :=
  (∀ a b, f (mergeComps a b) = f a ++ f b) ∧
    ∀ c m, f { c with module_name := m } = f c

theorem mergeHom_names : MergeHom Comp.names := ⟨fun _ _ => rfl, fun _ _ => rfl⟩

theorem mergeHom_items : MergeHom Comp.items := ⟨fun _ _ => rfl, fun _ _ => rfl⟩

theorem namesOK_nodup {l : List Comp} (h : NamesOK l) : l.Nodup := by
  obtain ⟨hfl, hne⟩ := h
  rw [List.nodup_flatten] at hfl
  have hpw := hfl.2
  rw [List.pairwise_map] at hpw
  rw [List.Nodup]
  refine List.Pairwise.imp_of_mem ?_ hpw
  intro a b ha _ hdisj he
  rcases List.exists_mem_of_ne_nil a.names (hne a ha) with ⟨x, hx⟩
  exact hdisj hx (he ▸ hx)

theorem perm_namesOK {l l' : List Comp}
    (hfl : ((l'.map Comp.names).flatten).Perm ((l.map Comp.names).flatten))
    (hne : ∀ c ∈ l', c.names ≠ []) (h : NamesOK l) : NamesOK l' :=
  ⟨hfl.nodup_iff.mpr h.1, hne⟩

/-- Merging a list of components onto a head concatenates any merge
homomorphism. -/
theorem foldl_merge_hom {β : Type} {f : Comp → List β} (hf : MergeHom f) :
    ∀ (rest : List Comp) (a : Comp),
      f (rest.foldl mergeComps a) = f a ++ ((rest.map f).flatten) := by
  intro rest
  induction rest with
  | nil => intro a; simp
  | cons b bs ih =>
    intro a
    rw [List.foldl_cons, ih (mergeComps a b), hf.1]
    simp [List.append_assoc]

/-- Splitting a flattened projection along a predicate. -/
theorem flat_parts {β : Type} (f : Comp → List β) (P : Comp → Bool) (l : List Comp) :
    ((((l.filter fun c => !(P c)).map f).flatten) ++ (((l.filter P).map f).flatten)).Perm
      ((l.map f).flatten) := by
  have hp : ((l.filter P) ++ (l.filter fun c => !(P c))).Perm l := List.filter_append_perm P l
  have h2 := (hp.map f).flatten
  rw [List.map_append, List.flatten_append] at h2
  exact List.Perm.trans List.perm_append_comm h2

/-- The common shape of packing steps 1 and 2: union every component
satisfying `P` into one component renamed `m`, provided at least two
match. -/
def packMergeAll (P : Comp → Bool) (m : String) (comps : List Comp) : List Comp :=
  match comps.filter P with
  | a :: b :: rest =>
    comps.filter (fun c => !(P c)) ++
      [{ (b :: rest).foldl mergeComps a with module_name := m }]
  | _ => comps

theorem packStep1_eq (ga : Bool) (comps : List Comp) :
    packStep1 ga comps = if ga then packMergeAll assignOnly "constants" comps else comps := by
  cases ga
  · rfl
  · show packStep1 true comps = packMergeAll assignOnly "constants" comps
    unfold packStep1 packMergeAll
    rw [if_pos rfl]

theorem packStep2_eq (psl : Int) (comps : List Comp) :
    packStep2 psl comps =
      if psl > 0 then
        packMergeAll
          (fun c => decide ((compLines c : Int) < psl) && !(assignOnly c)) "core" comps
      else comps := by
  unfold packStep2 packMergeAll
  by_cases h : psl > 0
  · rfl
  · rfl

theorem packMergeAll_flat {β : Type} {f : Comp → List β} (hf : MergeHom f)
    (P : Comp → Bool) (m : String) (comps : List Comp) :
    (((packMergeAll P m comps).map f).flatten).Perm ((comps.map f).flatten) := by
  unfold packMergeAll
  cases hfa : comps.filter P with
  | nil => exact List.Perm.refl _
  | cons a rest =>
    cases rest with
    | nil => exact List.Perm.refl _
    | cons b rest2 =>
      rw [List.map_append, List.flatten_append]
      have h1 : ([{ (b :: rest2).foldl mergeComps a with module_name := m }].map f).flatten
          = ((comps.filter P).map f).flatten := by
        show f { (b :: rest2).foldl mergeComps a with module_name := m } ++ []
          = ((comps.filter P).map f).flatten
        rw [List.append_nil, hf.2, foldl_merge_hom hf, hfa]
        simp [List.map_cons, List.flatten_cons]
      rw [h1]
      exact flat_parts f P comps

theorem packMergeAll_namesOK (P : Comp → Bool) (m : String) {comps : List Comp}
    (h : NamesOK comps) : NamesOK (packMergeAll P m comps) := by
  refine perm_namesOK (packMergeAll_flat mergeHom_names P m comps) ?_ h
  unfold packMergeAll
  cases hfa : comps.filter P with
  | nil => exact h.2
  | cons a rest =>
    cases rest with
    | nil => exact h.2
    | cons b rest2 =>
      intro c hc
      rcases List.mem_append.mp hc with hc | hc
      · exact h.2 c (List.mem_of_mem_filter hc)
      · rcases List.mem_singleton.mp hc with rfl
        show ((b :: rest2).foldl mergeComps a).names ≠ []
        have : MergeHom Comp.names := mergeHom_names
        rw [foldl_merge_hom mergeHom_names]
        have ha : a ∈ comps.filter P := by rw [hfa]; exact List.mem_cons_self _ _
        have hane : a.names ≠ [] := h.2 a (List.mem_of_mem_filter ha)
        intro he
        exact hane (List.append_eq_nil.mp he).1

theorem packMergeAll_refines (P : Comp → Bool) (m : String) (comps : List Comp) :
    ∀ c ∈ comps, ∃ d ∈ packMergeAll P m comps, ∀ x ∈ c.names, x ∈ d.names := by
  intro c hc
  unfold packMergeAll
  cases hfa : comps.filter P with
  | nil => exact ⟨c, hc, fun x hx => hx⟩
  | cons a rest =>
    cases rest with
    | nil => exact ⟨c, hc, fun x hx => hx⟩
    | cons b rest2 =>
      by_cases hP : P c
      · refine ⟨{ (b :: rest2).foldl mergeComps a with module_name := m },
          List.mem_append_right _ (List.mem_singleton_self _), ?_⟩
        intro x hx
        show x ∈ ((b :: rest2).foldl mergeComps a).names
        rw [foldl_merge_hom mergeHom_names]
        have hcf : c ∈ comps.filter P := List.mem_filter.mpr ⟨hc, hP⟩
        rw [hfa] at hcf
        rcases List.mem_cons.mp hcf with rfl | hcf
        · exact List.mem_append_left _ hx
        · refine List.mem_append_right _ ?_
          rw [List.mem_flatten]
          exact ⟨c.names, List.mem_map.mpr ⟨c, hcf, rfl⟩, hx⟩
      · refine ⟨c, List.mem_append_left _ ?_, fun x hx => hx⟩
        refine List.mem_filter.mpr ⟨hc, ?_⟩
        rw [Bool.not_eq_true] at hP
        rw [hP]
        rfl

/-- The merged component of a packing step owns every matching
component's names. -/
theorem packMergeAll_covers (P : Comp → Bool) (m : String) (comps : List Comp)
    {a b : Comp} {rest : List Comp} (hfa : comps.filter P = a :: b :: rest) :
    ∃ core ∈ packMergeAll P m comps, core.module_name = m ∧
      ∀ c ∈ comps, P c = true → ∀ x ∈ c.names, x ∈ core.names := by
  refine ⟨{ (b :: rest).foldl mergeComps a with module_name := m }, ?_, rfl, ?_⟩
  · unfold packMergeAll
    rw [hfa]
    exact List.mem_append_right _ (List.mem_singleton_self _)
  · intro c hc hP x hx
    show x ∈ ((b :: rest).foldl mergeComps a).names
    rw [foldl_merge_hom mergeHom_names]
    have hcf : c ∈ comps.filter P := List.mem_filter.mpr ⟨hc, hP⟩
    rw [hfa] at hcf
    rcases List.mem_cons.mp hcf with rfl | hcf
    · exact List.mem_append_left _ hx
    · refine List.mem_append_right _ ?_
      rw [List.mem_flatten]
      exact ⟨c.names, List.mem_map.mpr ⟨c, hcf, rfl⟩, hx⟩

/-- The merge of one chosen pair, as `merge_smallest_once` and the
minimum-size loop build it. -/
def mergePairAt (a b : Comp) (comps : List Comp) : List Comp :=
  (comps.filter fun c => decide (c ≠ a) && decide (c ≠ b)) ++ [mergeComps a b]

theorem mergePair_perm {comps : List Comp} (hnd : comps.Nodup) {a b : Comp}
    (ha : a ∈ comps) (hb : b ∈ comps) (hab : a ≠ b) :
    comps.Perm (a :: b :: comps.filter fun c => decide (c ≠ a) && decide (c ≠ b)) := by
  have h1 : comps.Perm (a :: comps.erase a) := List.perm_cons_erase ha
  have hb2 : b ∈ comps.erase a := (List.mem_erase_of_ne (Ne.symm hab)).mpr hb
  have h2 : (comps.erase a).Perm (b :: (comps.erase a).erase b) :=
    List.perm_cons_erase hb2
  have h3 : (comps.erase a).erase b = comps.filter fun c => decide (c ≠ a) && decide (c ≠ b) := by
    rw [List.Nodup.erase_eq_filter (hnd.erase a) b,
      List.Nodup.erase_eq_filter hnd a, List.filter_filter]
    refine List.filter_congr ?_
    intro x _
    by_cases hxa : x = a
    · subst hxa
      by_cases hxb : x = b
      · exact absurd hxb hab
      · simp [hxb]
    · by_cases hxb : x = b
      · subst hxb
        simp [hxa]
      · simp [hxa, hxb]
  refine List.Perm.trans h1 ?_
  rw [← h3]
  exact h2.cons a

theorem mergePair_flat {β : Type} {f : Comp → List β} (hf : MergeHom f)
    {comps : List Comp} (hnd : comps.Nodup) {a b : Comp}
    (ha : a ∈ comps) (hb : b ∈ comps) (hab : a ≠ b) :
    (((mergePairAt a b comps).map f).flatten).Perm ((comps.map f).flatten) := by
  have hp := ((mergePair_perm hnd ha hb hab).map f).flatten
  refine List.Perm.trans ?_ hp.symm
  unfold mergePairAt
  simp only [List.map_append, List.flatten_append, List.map_cons, List.flatten_cons,
    List.map_nil, List.flatten_nil, List.append_nil, hf.1]
  refine List.Perm.trans List.perm_append_comm ?_
  rw [List.append_assoc]

theorem mergePair_ne {comps : List Comp} (h : NamesOK comps) {a b : Comp}
    (ha : a ∈ comps) (hb : b ∈ comps) :
    ∀ c ∈ mergePairAt a b comps, c.names ≠ [] := by
  intro c hc
  rcases List.mem_append.mp hc with hc | hc
  · exact h.2 c (List.mem_of_mem_filter hc)
  · rcases List.mem_singleton.mp hc with rfl
    show a.names ++ b.names ≠ []
    intro he
    exact h.2 a ha (List.append_eq_nil.mp he).1

theorem mergePair_namesOK {comps : List Comp} (h : NamesOK comps) {a b : Comp}
    (ha : a ∈ comps) (hb : b ∈ comps) (hab : a ≠ b) :
    NamesOK (mergePairAt a b comps) :=
  perm_namesOK (mergePair_flat mergeHom_names (namesOK_nodup h) ha hb hab)
    (mergePair_ne h ha hb) h

theorem mergePair_keeps {comps : List Comp} {a b : Comp} :
    ∀ c ∈ comps, c ≠ a → c ≠ b → c ∈ mergePairAt a b comps := by
  intro c hc hca hcb
  exact List.mem_append_left _ (List.mem_filter.mpr ⟨hc, by simp [hca, hcb]⟩)

theorem mergePair_refines {comps : List Comp} {a b : Comp} :
    ∀ c ∈ comps, ∃ d ∈ mergePairAt a b comps, ∀ x ∈ c.names, x ∈ d.names := by
  intro c hc
  by_cases hca : c = a
  · subst hca
    refine ⟨mergeComps c b, List.mem_append_right _ (List.mem_singleton_self _), ?_⟩
    intro x hx
    exact List.mem_append_left _ hx
  · by_cases hcb : c = b
    · subst hcb
      refine ⟨mergeComps a c, List.mem_append_right _ (List.mem_singleton_self _), ?_⟩
      intro x hx
      exact List.mem_append_right _ hx
    · exact ⟨c, mergePair_keeps c hc hca hcb, fun x hx => hx⟩

/-- What `merge_smallest_once` does when it reports success: it merged
two distinct movable components. -/
theorem mso_eq {comps out : List Comp} (hnd : comps.Nodup)
    (h : mergeSmallestOnce comps = some out) :
    ∃ a b, a ∈ comps ∧ b ∈ comps ∧ a ≠ b ∧
      a.module_name ∉ (["constants", "core"] : List String) ∧
      b.module_name ∉ (["constants", "core"] : List String) ∧
      out = mergePairAt a b comps := by
  unfold mergeSmallestOnce at h
  by_cases hlen :
      (comps.filter fun c => decide (c.module_name ∉ (["constants", "core"] : List String))).length < 2
  · rw [if_pos hlen] at h
    exact absurd h (by simp)
  · rw [if_neg hlen] at h
    cases hsort : sortByNatKey compLines
        (comps.filter fun c => decide (c.module_name ∉ (["constants", "core"] : List String))) with
    | nil => rw [hsort] at h; exact absurd h (by simp)
    | cons a rest =>
      cases rest with
      | nil => rw [hsort] at h; exact absurd h (by simp)
      | cons b rest2 =>
        rw [hsort] at h
        rw [Option.some_inj] at h
        have hperm := sortByNatKey_perm compLines
          (comps.filter fun c => decide (c.module_name ∉ (["constants", "core"] : List String)))
        have hsub : ∀ x ∈ a :: b :: rest2,
            x ∈ comps.filter fun c =>
              decide (c.module_name ∉ (["constants", "core"] : List String)) := by
          intro x hx
          rw [← hsort] at hx
          exact hperm.mem_iff.mp hx
        have hand := List.Perm.nodup_iff hperm
        have hfnd : (comps.filter fun c =>
            decide (c.module_name ∉ (["constants", "core"] : List String))).Nodup :=
          hnd.filter _
        have hsnd : (a :: b :: rest2).Nodup := by
          rw [← hsort]
          exact hand.mpr hfnd
        have hab : a ≠ b := by
          rw [List.nodup_cons] at hsnd
          intro he
          exact hsnd.1 (he ▸ List.mem_cons_self b rest2)
        have hamem := hsub a (List.mem_cons_self _ _)
        have hbmem := hsub b (List.mem_cons_of_mem _ (List.mem_cons_self _ _))
        refine ⟨a, b, List.mem_of_mem_filter hamem, List.mem_of_mem_filter hbmem, hab, ?_, ?_, h.symm⟩
        · have := List.of_mem_filter hamem
          rw [decide_eq_true_iff] at this
          exact this
        · have := List.of_mem_filter hbmem
          rw [decide_eq_true_iff] at this
          exact this

/-- One packing transformation refines another partition: every earlier
component's names end up inside a single later component. -/
def Refines (l l' : List Comp) : Prop :=
  ∀ c ∈ l, ∃ d ∈ l', ∀ x ∈ c.names, x ∈ d.names

theorem refines_refl (l : List Comp) : Refines l l :=
  fun c hc => ⟨c, hc, fun x hx => hx⟩

theorem refines_trans {l1 l2 l3 : List Comp} (h1 : Refines l1 l2)
    (h2 : Refines l2 l3) : Refines l1 l3 := by
  intro c hc
  obtain ⟨d, hd, hsub⟩ := h1 c hc
  obtain ⟨e, he, hsub2⟩ := h2 d hd
  exact ⟨e, he, fun x hx => hsub2 x (hsub x hx)⟩

/-- The conclusions every size-driven loop iteration preserves. -/
def LoopOK (l l' : List Comp) : Prop :=
  ((l'.map Comp.names).flatten).Perm ((l.map Comp.names).flatten) ∧
  ((l'.map Comp.items).flatten).Perm ((l.map Comp.items).flatten) ∧
  NamesOK l' ∧ Refines l l' ∧
  ∀ c ∈ l, c.module_name ∈ (["constants", "core"] : List String) → c ∈ l'

theorem loopOK_refl {l : List Comp} (h : NamesOK l) : LoopOK l l :=
  ⟨List.Perm.refl _, List.Perm.refl _, h, refines_refl l, fun c hc _ => hc⟩

theorem loopOK_trans {l1 l2 l3 : List Comp} (h1 : LoopOK l1 l2) (h2 : LoopOK l2 l3) :
    LoopOK l1 l3 :=
  ⟨h2.1.trans h1.1, h2.2.1.trans h1.2.1, h2.2.2.1,
    refines_trans h1.2.2.2.1 h2.2.2.2.1,
    fun c hc hr => h2.2.2.2.2 c (h1.2.2.2.2 c hc hr) hr⟩

theorem mergePair_loopOK {comps : List Comp} (h : NamesOK comps) {a b : Comp}
    (ha : a ∈ comps) (hb : b ∈ comps) (hab : a ≠ b)
    (hma : a.module_name ∉ (["constants", "core"] : List String))
    (hmb : b.module_name ∉ (["constants", "core"] : List String)) :
    LoopOK comps (mergePairAt a b comps) := by
  refine ⟨mergePair_flat mergeHom_names (namesOK_nodup h) ha hb hab,
    mergePair_flat mergeHom_items (namesOK_nodup h) ha hb hab,
    mergePair_namesOK h ha hb hab, mergePair_refines, ?_⟩
  intro c hc hr
  refine mergePair_keeps c hc ?_ ?_
  · intro he
    exact hma (he ▸ hr)
  · intro he
    exact hmb (he ▸ hr)

theorem shrinkLoop_spec (tooBig : Nat → Bool) :
    ∀ (fuel : Nat) {comps : List Comp}, NamesOK comps →
      LoopOK comps (shrinkLoop tooBig fuel comps) := by
  intro fuel
  induction fuel with
  | zero => intro comps h; exact loopOK_refl h
  | succ n ih =>
    intro comps h
    rw [shrinkLoop]
    by_cases hbig : tooBig comps.length
    · rw [if_pos hbig]
      cases hmso : mergeSmallestOnce comps with
      | none => exact loopOK_refl h
      | some cs =>
        obtain ⟨a, b, ha, hb, hab, hma, hmb, rfl⟩ := mso_eq (namesOK_nodup h) hmso
        have h1 := mergePair_loopOK h ha hb hab hma hmb
        exact loopOK_trans h1 (ih h1.2.2.1)
    · rw [if_neg hbig]
      exact loopOK_refl h

theorem minLinesLoop_spec (minL : Int) :
    ∀ (fuel : Nat) {comps : List Comp}, NamesOK comps →
      LoopOK comps (minLinesLoop minL fuel comps) := by
  intro fuel
  induction fuel with
  | zero => intro comps h; exact loopOK_refl h
  | succ n ih =>
    intro comps h
    rw [minLinesLoop]
    cases hs : sortByNatKey compLines (comps.filter fun c =>
        decide ((compLines c : Int) < minL) &&
          decide (c.module_name ∉ (["constants", "core"] : List String))) with
    | nil => exact loopOK_refl h
    | cons s srest =>
      show LoopOK comps
        (match sortByNatKey compLines ((comps.erase s).filter fun c =>
            decide (c.module_name ∉ (["constants", "core"] : List String))) with
        | [] => comps
        | o :: _ =>
          minLinesLoop minL n
            ((comps.filter fun c => decide (c ≠ s) && decide (c ≠ o)) ++ [mergeComps s o]))
      cases ho : sortByNatKey compLines ((comps.erase s).filter fun c =>
          decide (c.module_name ∉ (["constants", "core"] : List String))) with
      | nil => exact loopOK_refl h
      | cons o orest =>
        have hsmem : s ∈ comps.filter fun c =>
            decide ((compLines c : Int) < minL) &&
              decide (c.module_name ∉ (["constants", "core"] : List String)) := by
          refine (sortByNatKey_perm compLines _).mem_iff.mp ?_
          rw [hs]
          exact List.mem_cons_self _ _
        have homem : o ∈ (comps.erase s).filter fun c =>
            decide (c.module_name ∉ (["constants", "core"] : List String)) := by
          refine (sortByNatKey_perm compLines _).mem_iff.mp ?_
          rw [ho]
          exact List.mem_cons_self _ _
        have hsc : s ∈ comps := List.mem_of_mem_filter hsmem
        have hoer : o ∈ comps.erase s := List.mem_of_mem_filter homem
        have hos : o ≠ s := ((namesOK_nodup h).mem_erase_iff.mp hoer).1
        have hoc : o ∈ comps := List.mem_of_mem_erase hoer
        have hsmov : s.module_name ∉ (["constants", "core"] : List String) := by
          have := List.of_mem_filter hsmem
          rw [Bool.and_eq_true, decide_eq_true_iff] at this
          rw [decide_eq_true_iff] at this
          exact this.2
        have homov : o.module_name ∉ (["constants", "core"] : List String) := by
          have := List.of_mem_filter homem
          rw [decide_eq_true_iff] at this
          exact this
        have h1 := mergePair_loopOK h hsc hoc (Ne.symm hos) hsmov homov
        exact loopOK_trans h1 (ih h1.2.2.1)

/-- The conclusions the unconditional packing steps guarantee (they may
rename or consume reserved components, so `LoopOK`'s retention clause is
not among them). -/
def StepOK (l l' : List Comp) : Prop :=
  ((l'.map Comp.names).flatten).Perm ((l.map Comp.names).flatten) ∧
  ((l'.map Comp.items).flatten).Perm ((l.map Comp.items).flatten) ∧
  NamesOK l' ∧ Refines l l'

theorem loopOK_stepOK {l l' : List Comp} (h : LoopOK l l') : StepOK l l' :=
  ⟨h.1, h.2.1, h.2.2.1, h.2.2.2.1⟩

theorem stepOK_refl {l : List Comp} (h : NamesOK l) : StepOK l l :=
  ⟨List.Perm.refl _, List.Perm.refl _, h, refines_refl l⟩

theorem stepOK_trans {l1 l2 l3 : List Comp} (h1 : StepOK l1 l2) (h2 : StepOK l2 l3) :
    StepOK l1 l3 :=
  ⟨h2.1.trans h1.1, h2.2.1.trans h1.2.1, h2.2.2.1, refines_trans h1.2.2.2 h2.2.2.2⟩

theorem packMergeAll_stepOK (P : Comp → Bool) (m : String) {comps : List Comp}
    (h : NamesOK comps) : StepOK comps (packMergeAll P m comps) :=
  ⟨packMergeAll_flat mergeHom_names P m comps,
    packMergeAll_flat mergeHom_items P m comps,
    packMergeAll_namesOK P m h, packMergeAll_refines P m comps⟩

theorem packStep1_spec (ga : Bool) {comps : List Comp} (h : NamesOK comps) :
    StepOK comps (packStep1 ga comps) := by
  rw [packStep1_eq]
  cases ga
  · exact stepOK_refl h
  · rw [if_pos rfl]
    exact packMergeAll_stepOK _ _ h

theorem packStep2_spec (psl : Int) {comps : List Comp} (h : NamesOK comps) :
    StepOK comps (packStep2 psl comps) := by
  rw [packStep2_eq]
  by_cases hp : psl > 0
  · rw [if_pos hp]
    exact packMergeAll_stepOK _ _ h
  · rw [if_neg hp]
    exact stepOK_refl h

/-- The packing optimizer preserves the partition content: names and
items are rearranged between components but never duplicated or lost, and
every input component survives inside a single output component. -/
theorem repack_spec (cfg : PackCfg) {comps0 : List Comp} (h : NamesOK comps0) :
    StepOK comps0 (repackComps cfg comps0).1 := by
  unfold repackComps
  have h1 := packStep1_spec cfg.group_assignments h
  have h2 := packStep2_spec cfg.pack_small_lines h1.2.2.1
  have h3 := loopOK_stepOK (shrinkLoop_spec
    (fun len => decide (cfg.max_modules ≠ 0) && decide ((len : Int) > cfg.max_modules))
    ((packStep2 cfg.pack_small_lines (packStep1 cfg.group_assignments comps0)).length + 1)
    h2.2.2.1)
  have h12 := stepOK_trans h1 h2
  have h123 := stepOK_trans h12 h3
  set c3 := shrinkLoop
    (fun len => decide (cfg.max_modules ≠ 0) && decide ((len : Int) > cfg.max_modules))
    ((packStep2 cfg.pack_small_lines (packStep1 cfg.group_assignments comps0)).length + 1)
    (packStep2 cfg.pack_small_lines (packStep1 cfg.group_assignments comps0)) with hc3
  have h35 : StepOK c3
      (if cfg.min_module_lines > 0 then
        minLinesLoop cfg.min_module_lines (c3.length + 1) c3 else c3) := by
    by_cases hm : cfg.min_module_lines > 0
    · rw [if_pos hm]
      exact loopOK_stepOK (minLinesLoop_spec _ _ h123.2.2.1)
    · rw [if_neg hm]
      exact stepOK_refl h123.2.2.1
  have h1235 := stepOK_trans h123 h35
  set c35 := (if cfg.min_module_lines > 0 then
    minLinesLoop cfg.min_module_lines (c3.length + 1) c3 else c3) with hc35
  have h4 : StepOK c35
      (match cfg.target_modules with
      | some t =>
        if t > 0 then shrinkLoop (fun len => decide ((len : Int) > t)) (c35.length + 1) c35
        else c35
      | none => c35) := by
    cases ht : cfg.target_modules with
    | none => exact stepOK_refl h1235.2.2.1
    | some t =>
      show StepOK c35 (if t > 0 then
        shrinkLoop (fun len => decide ((len : Int) > t)) (c35.length + 1) c35 else c35)
      by_cases htp : t > 0
      · rw [if_pos htp]
        exact loopOK_stepOK (shrinkLoop_spec (fun len => decide ((len : Int) > t))
          (c35.length + 1) h1235.2.2.1)
      · rw [if_neg htp]
        exact stepOK_refl h1235.2.2.1
  exact stepOK_trans h1235 h4

theorem buildComponents_namesOK (items : List Item) :
    NamesOK (buildComponents items).1 := by
  constructor
  · refine (buildComponents_flatten_names items).nodup_iff.mpr ?_
    exact sccsOf_flatten_nodup (buildGraph items)
  · intro c hc
    obtain ⟨S, hS, hperm⟩ := buildComponents_names items c hc
    intro he
    have h0 : S = [] := List.Perm.eq_nil (by rw [← he]; exact hperm.symm)
    exact sccsOf_ne_nil (buildGraph items) S hS h0

/-- The collision guard only renames modules: names and items per
position are untouched. -/
theorem collisionGuard_map {β : Type} (f : Comp → List β)
    (hren : ∀ c m, f { c with module_name := m } = f c) (comps : List Comp) :
    (collisionGuard comps).map f = comps.map f := by
  unfold collisionGuard
  suffices H : ∀ (comps : List Comp) (used : List String) (acc : List Comp),
      ((comps.foldl
        (fun (acc : List String × List Comp) c =>
          let r := ensureUnique c.module_name acc.1
          (r.2, acc.2 ++ [{ c with module_name := r.1 }])) (used, acc)).2).map f
        = acc.map f ++ comps.map f by
    rw [H comps [] []]
    rfl
  intro comps
  induction comps with
  | nil => intro used acc; simp
  | cons c cs ih =>
    intro used acc
    rw [List.foldl_cons, ih]
    simp [hren, List.map_append]

/-! ## Order facts for the stable sort -/

theorem charListLe_total : ∀ (a b : List Char), (charListLe a b || charListLe b a) = true := by
  intro a
  induction a with
  | nil => intro b; rfl
  | cons x xs ih =>
    intro b
    cases b with
    | nil => rfl
    | cons y ys =>
      show ((if x.toNat < y.toNat then true
          else if y.toNat < x.toNat then false else charListLe xs ys) ||
        (if y.toNat < x.toNat then true
          else if x.toNat < y.toNat then false else charListLe ys xs)) = true
      rcases Nat.lt_trichotomy x.toNat y.toNat with h | h | h
      · rw [if_pos h]
        rfl
      · rw [if_neg (by omega), if_neg (by omega), if_neg (by omega), if_neg (by omega)]
        exact ih ys
      · rw [if_neg (by omega), if_pos h, if_pos h]
        rfl

theorem charListLe_head {x y : Char} {xs ys : List Char}
    (h : charListLe (x :: xs) (y :: ys) = true) : x.toNat ≤ y.toNat := by
  revert h
  show (if x.toNat < y.toNat then true
      else if y.toNat < x.toNat then false else charListLe xs ys) = true → _
  intro h
  by_cases h1 : x.toNat < y.toNat
  · omega
  · rw [if_neg h1] at h
    by_cases h2 : y.toNat < x.toNat
    · rw [if_pos h2] at h
      exact absurd h (by simp)
    · omega

theorem charListLe_tail {x y : Char} {xs ys : List Char}
    (h : charListLe (x :: xs) (y :: ys) = true) (he : x.toNat = y.toNat) :
    charListLe xs ys = true := by
  revert h
  show (if x.toNat < y.toNat then true
      else if y.toNat < x.toNat then false else charListLe xs ys) = true → _
  rw [if_neg (by omega), if_neg (by omega)]
  exact id

theorem charListLe_trans : ∀ (a b c : List Char),
    charListLe a b = true → charListLe b c = true → charListLe a c = true := by
  intro a
  induction a with
  | nil => intro b c _ _; rfl
  | cons x xs ih =>
    intro b c hab hbc
    cases b with
    | nil => exact absurd hab (by simp [charListLe])
    | cons y ys =>
      cases c with
      | nil => exact absurd hbc (by simp [charListLe])
      | cons z zs =>
        have hxy := charListLe_head hab
        have hyz := charListLe_head hbc
        show (if x.toNat < z.toNat then true
          else if z.toNat < x.toNat then false else charListLe xs zs) = true
        by_cases hxz : x.toNat < z.toNat
        · rw [if_pos hxz]
        · have hexz : x.toNat = z.toNat := by omega
          have hexy : x.toNat = y.toNat := by omega
          have heyz : y.toNat = z.toNat := by omega
          rw [if_neg hxz, if_neg (by omega)]
          exact ih ys zs (charListLe_tail hab hexy) (charListLe_tail hbc heyz)

theorem pyStrLe_total (a b : String) : pyStrLe a b || pyStrLe b a :=
  charListLe_total a.data b.data

theorem pyStrLe_trans {a b c : String} (h1 : pyStrLe a b = true)
    (h2 : pyStrLe b c = true) : pyStrLe a c = true :=
  charListLe_trans a.data b.data c.data h1 h2

/-- Insertion keeps a sorted list sorted (for a total, transitive
comparison). -/
theorem pyInsert_sorted {β : Type} {le : β → β → Bool}
    (htr : ∀ a b c, le a b = true → le b c = true → le a c = true)
    (htot : ∀ a b, le a b || le b a) (x : β) :
    ∀ {l : List β}, l.Pairwise (fun a b => le a b = true) →
      (pyInsert le x l).Pairwise (fun a b => le a b = true) := by
  intro l
  induction l with
  | nil => intro _; exact List.pairwise_singleton _ x
  | cons y ys ih =>
    intro h
    rw [List.pairwise_cons] at h
    show (if le y x then y :: pyInsert le x ys else x :: y :: ys).Pairwise _
    by_cases hyx : le y x
    · rw [if_pos hyx]
      rw [List.pairwise_cons]
      refine ⟨?_, ih h.2⟩
      intro z hz
      have := (pyInsert_perm le x ys).mem_iff.mp hz
      rcases List.mem_cons.mp this with rfl | hzys
      · exact hyx
      · exact h.1 z hzys
    · rw [if_neg hyx]
      have hxy : le x y = true := by
        have := htot x y
        rw [Bool.or_eq_true] at this
        rcases this with h2 | h2
        · exact h2
        · exact absurd h2 hyx
      rw [List.pairwise_cons]
      refine ⟨?_, List.pairwise_cons.mpr h⟩
      intro z hz
      rcases List.mem_cons.mp hz with rfl | hzys
      · exact hxy
      · exact htr x y z hxy (h.1 z hzys)

theorem pySort_sorted {β : Type} {le : β → β → Bool}
    (htr : ∀ a b c, le a b = true → le b c = true → le a c = true)
    (htot : ∀ a b, le a b || le b a) (l : List β) :
    (pySort le l).Pairwise (fun a b => le a b = true) := by
  suffices H : ∀ (l acc : List β), acc.Pairwise (fun a b => le a b = true) →
      (l.foldl (fun acc x => pyInsert le x acc) acc).Pairwise (fun a b => le a b = true) by
    exact H l [] List.Pairwise.nil
  intro l
  induction l with
  | nil => intro acc h; exact h
  | cons x xs ih =>
    intro acc h
    rw [List.foldl_cons]
    exact ih (pyInsert le x acc) (pyInsert_sorted htr htot x h)

/-- Each component stores its members sorted case-insensitively by
name. -/
theorem buildComponents_items_sorted (items : List Item) :
    ∀ c ∈ (buildComponents items).1,
      c.items.Pairwise (fun a b => pyStrLe (pyLowerStr a.name) (pyLowerStr b.name) = true) := by
  intro c hc
  obtain ⟨S, hS, rfl⟩ := (buildComponents_mem_iff items c).mp hc
  show (sortByStrKey (fun it => pyLowerStr it.name) (S.map (memberFor items))).Pairwise
    (fun a b => pyStrLe (pyLowerStr a.name) (pyLowerStr b.name) = true)
  exact @pySort_sorted Item (fun a b => pyStrLe (pyLowerStr a.name) (pyLowerStr b.name))
    (fun a b c h1 h2 => pyStrLe_trans h1 h2) (fun a b => pyStrLe_total _ _)
    (S.map (memberFor items))

/-! ## String length facts for the renderer -/

theorem intercalate_go_len (s : String) :
    ∀ (as : List String) (acc : String),
      acc.length ≤ (String.intercalate.go acc s as).length := by
  intro as
  induction as with
  | nil => intro acc; exact Nat.le_refl _
  | cons a as ih =>
    intro acc
    show acc.length ≤ (String.intercalate.go (acc ++ s ++ a) s as).length
    have h := ih (acc ++ s ++ a)
    have h2 : (acc ++ s ++ a).length = acc.length + s.length + a.length := by
      rw [String.length_append, String.length_append]
    omega

theorem length_zero_eq_empty {s : String} (h : s.length = 0) : s = "" := by
  cases s with
  | mk data =>
    cases data
    · rfl
    · simp [String.length] at h

theorem joinComma_ne_empty {x : String} (rest : List String) (hx : x ≠ "") :
    joinComma (x :: rest) ≠ "" := by
  intro he
  have h1 : x.length ≤ (joinComma (x :: rest)).length := by
    show x.length ≤ (String.intercalate.go x (", ") rest).length
    exact intercalate_go_len _ rest x
  rw [he] at h1
  have h2 : x.length = 0 := by
    have : ("" : String).length = 0 := rfl
    omega
  exact hx (length_zero_eq_empty h2)

/-! ## Renderer structure -/

theorem renderModuleLines_blocks (c : Comp) (imps : List String)
    (ntm : List (String × String)) :
    ∃ pre, renderModuleLines c imps ntm =
      pre ++ (c.items.flatMap fun it => [pyRstrip it.source, ""]) ++
        ["__all__ = [" ++ joinComma (c.names.map pyRepr) ++ "]", ""] := by
  refine ⟨([HEADER] ++ (if dedupImports imps ≠ [] then dedupImports imps ++ [""] else []))
    ++ ((sortStr (((extPairs c ntm).map Prod.fst).dedup)).map fun m =>
      "from ." ++ m ++ " import " ++
        joinComma (sortStr ((((extPairs c ntm).filter fun p =>
          decide (p.1 = m)).map Prod.snd).dedup)))
    ++ (if extPairs c ntm ≠ [] then [""] else []), ?_⟩
  unfold renderModuleLines
  simp [List.append_assoc]

theorem renderModuleLines_exports (c : Comp) (imps : List String)
    (ntm : List (String × String)) :
    ("__all__ = [" ++ joinComma (c.names.map pyRepr) ++ "]") ∈
      renderModuleLines c imps ntm := by
  obtain ⟨pre, he⟩ := renderModuleLines_blocks c imps ntm
  rw [he]
  exact List.mem_append_right _ (List.mem_cons_self _ _)

theorem renderInitLines_all (comps : List Comp)
    (hj : ∀ c ∈ comps, joinComma c.names = "" → c.names = []) :
    ("__all__ = [" ++ joinComma
      ((sortStr ((comps.map Comp.names).flatten.dedup)).map pyRepr) ++ "]") ∈
      renderInitLines comps := by
  have hfl : (((comps.filter fun c => decide (joinComma c.names ≠ "")).map
      Comp.names).flatten) = ((comps.map Comp.names).flatten) := by
    induction comps with
    | nil => rfl
    | cons c cs ihc =>
      have hcs : ∀ d ∈ cs, joinComma d.names = "" → d.names = [] :=
        fun d hd => hj d (List.mem_cons_of_mem c hd)
      by_cases hcj : joinComma c.names ≠ ""
      · rw [List.filter_cons_of_pos (by rw [decide_eq_true_iff]; exact hcj)]
        rw [List.map_cons, List.flatten_cons, List.map_cons, List.flatten_cons]
        rw [ihc hcs]
      · rw [List.filter_cons_of_neg (by rw [decide_eq_true_iff]; exact hcj)]
        rw [List.map_cons, List.flatten_cons]
        have hcn : c.names = [] := hj c (List.mem_cons_self _ _) (by
          by_contra h2
          exact hcj h2)
        rw [ihc hcs, hcn]
        rfl
  show _ ∈ [HEADER] ++
    ((comps.filter fun c => decide (joinComma c.names ≠ "")).map fun c =>
      "from ." ++ c.module_name ++ " import " ++ joinComma c.names) ++ [""] ++
    ["__all__ = [" ++ joinComma
      ((sortStr ((((comps.filter fun c => decide (joinComma c.names ≠ "")).map
        Comp.names).flatten).dedup)).map pyRepr) ++ "]", ""]
  rw [hfl]
  exact List.mem_append_right _ (List.mem_cons_self _ _)

/-! ## End-to-end partition facts -/

/-- The final components cover exactly the extracted top-level names, each
exactly once. -/
theorem finalComps_names_iff (file : List PyStmt) (cfg : PackCfg) :
    (∀ x, x ∈ ((finalComps file cfg).map Comp.names).flatten ↔
      x ∈ (extractTopLevel file).1.map Item.name) ∧
    (((finalComps file cfg).map Comp.names).flatten).Nodup := by
  have hperm : (((finalComps file cfg).map Comp.names).flatten).Perm
      (sccsOf (buildGraph (extractTopLevel file).1)).flatten := by
    refine List.Perm.trans ?_ (buildComponents_flatten_names (extractTopLevel file).1)
    exact (repack_spec cfg (buildComponents_namesOK (extractTopLevel file).1)).1
  constructor
  · intro x
    rw [hperm.mem_iff]
    exact graph_partition (extractTopLevel file).1 (extract_deps_closed file) x
  · exact hperm.nodup_iff.mpr (sccsOf_flatten_nodup _)

/-- Every item a component of `build_components` stores is one of the
extracted items. -/
theorem buildComponents_items_mem (items : List Item)
    (hcl : ∀ it ∈ items, ∀ d ∈ it.deps, d ∈ items.map Item.name) :
    ∀ c ∈ (buildComponents items).1, ∀ it ∈ c.items, it ∈ items := by
  intro c hc it hit
  obtain ⟨S, hS, rfl⟩ := (buildComponents_mem_iff items c).mp hc
  have hit2 : it ∈ S.map (memberFor items) := (sortByStrKey_perm _ _).mem_iff.mp hit
  obtain ⟨n, hn, he⟩ := List.mem_map.mp hit2
  have hnkey : n ∈ items.map Item.name := by
    refine (graph_partition items hcl n).mp ?_
    exact List.mem_flatten.mpr ⟨S, hS, hn⟩
  have hnkey2 : n ∈ (itemByName items).map Prod.fst := by
    unfold itemByName
    rw [pyDictOf_keys, List.map_map]
    exact hnkey
  have hsome := pyLookup_isSome hnkey2
  cases hl : pyLookup (itemByName items) n with
  | none => rw [hl] at hsome; exact absurd hsome (by simp)
  | some it0 =>
    have hmem := pyLookup_mem hl
    have hsub := pyDictOf_sub hmem
    obtain ⟨it1, hit1, he1⟩ := List.mem_map.mp hsub
    have : it0 = it1 := (congrArg Prod.snd he1).symm
    rw [← he]
    unfold memberFor
    rw [hl]
    show it0 ∈ items
    rw [this]
    exact hit1

/-- Every item a final component stores is one of the extracted items. -/
theorem finalComps_items_mem (file : List PyStmt) (cfg : PackCfg) :
    ∀ c ∈ finalComps file cfg, ∀ it ∈ c.items, it ∈ (extractTopLevel file).1 := by
  intro c hc it hit
  have hflat : it ∈ ((finalComps file cfg).map Comp.items).flatten :=
    List.mem_flatten.mpr ⟨c.items, List.mem_map.mpr ⟨c, hc, rfl⟩, hit⟩
  have hperm := (repack_spec cfg (buildComponents_namesOK (extractTopLevel file).1)).2.1
  have hflat2 := hperm.mem_iff.mp hflat
  obtain ⟨l, hl, hitl⟩ := List.mem_flatten.mp hflat2
  obtain ⟨c0, hc0, rfl⟩ := List.mem_map.mp hl
  exact buildComponents_items_mem (extractTopLevel file).1 (extract_deps_closed file)
    c0 hc0 it hitl

/-! ## The claims -/

set_option maxRecDepth 100000

/-- Claim C1 (amended): before any packing merge, the dependency structure
among the SCC components is acyclic — two components whose members reach
each other are one component.  (The original claim is refuted by
`C1_merge_creates_cycle`: the optimizer may merge components so that two
rendered modules import from each other.) -/
theorem C1_initial_components_acyclic (file : List PyStmt) {S T : List String}
    {x y : String}
    (hS : S ∈ sccsOf (buildGraph (extractTopLevel file).1))
    (hT : T ∈ sccsOf (buildGraph (extractTopLevel file).1))
    (hx : x ∈ S) (hy : y ∈ T)
    (hxy : Reach (succsOf (buildGraph (extractTopLevel file).1)) x y)
    (hyx : Reach (succsOf (buildGraph (extractTopLevel file).1)) y x) : S = T := by
  have hyS := sccsOf_mutual _ hS hx hxy hyx
  exact sccsOf_owner_unique _ hS hT hyS hy

/-- Claim C1 witness: the acyclicity theorem applied to the two mutually
recursive functions of `file4`. -/
theorem C1_initial_components_acyclic_witness :
    (["a", "b"] ∈ sccsOf (buildGraph (extractTopLevel file4).1)) ∧
      (["a", "b"] : List String) = ["a", "b"] :=
  ⟨by decide, C1_initial_components_acyclic file4
    (S := ["a", "b"]) (T := ["a", "b"]) (x := "a") (y := "b")
    (by decide) (by decide) (by decide) (by decide)
    (reach_edge (by decide)) (reach_edge (by decide))⟩

/-- Claim C1 counterexample: on `file1` with `--pack-small-lines 0
--target-modules 2` the optimizer merges `h` and `f`, and the two rendered
modules import from each other — the rendered import graph has a cycle. -/
theorem C1_merge_creates_cycle :
    ∃ p ∈ (planSingle file1 cfg1).1, ∃ q ∈ (planSingle file1 cfg1).1,
      p.1 ≠ q.1 ∧ ("from ." ++ q.1 ++ " import h") ∈ p.2 ∧
        ("from ." ++ p.1 ++ " import g") ∈ q.2 := by decide

/-- Claim C2: mutually dependent top-level symbols always end up in the
same final component, under every packing configuration. -/
theorem C2_mutual_reach_same_module (file : List PyStmt) (cfg : PackCfg)
    (A B : String)
    (hA : A ∈ (extractTopLevel file).1.map Item.name)
    (hAB : Reach (succsOf (buildGraph (extractTopLevel file).1)) A B)
    (hBA : Reach (succsOf (buildGraph (extractTopLevel file).1)) B A) :
    ∃ c ∈ finalComps file cfg, A ∈ c.names ∧ B ∈ c.names := by
  have hmemA : A ∈ (sccsOf (buildGraph (extractTopLevel file).1)).flatten :=
    (graph_partition (extractTopLevel file).1 (extract_deps_closed file) A).mpr hA
  obtain ⟨S, hS, hAS⟩ := List.mem_flatten.mp hmemA
  have hBS : B ∈ S := sccsOf_mutual _ hS hAS hAB hBA
  obtain ⟨c0, hc0, hperm⟩ := buildComponents_covers (extractTopLevel file).1 S hS
  obtain ⟨d, hd, hsub⟩ :=
    (repack_spec cfg (buildComponents_namesOK (extractTopLevel file).1)).2.2.2 c0 hc0
  exact ⟨d, hd, hsub A (hperm.mem_iff.mpr hAS), hsub B (hperm.mem_iff.mpr hBS)⟩

/-- Claim C2 witness: the two mutually recursive functions of `file4`
share a final component under the default configuration. -/
theorem C2_mutual_reach_same_module_witness :
    ∃ c ∈ finalComps file4 {}, ("a") ∈ c.names ∧ ("b") ∈ c.names :=
  C2_mutual_reach_same_module file4 {} ("a") ("b") (by decide)
    (reach_edge (by decide)) (reach_edge (by decide))

/-- Claim C3 (code bug evidence): on `file2` with `--pack-small-lines 0`
the rendered module `f` imports `x` from module `x`, but after the
collision guard the component owning symbol `x` is module `x_2`, and the
module named `x` does not export `x` — the emitted import is broken. -/
theorem C3_stale_import_after_collision :
    (∃ p ∈ (planSingle file2 cfg2).1, p.1 = "f" ∧ ("from .x import x") ∈ p.2) ∧
    (∃ c ∈ collisionGuard (repackComps cfg2
        (buildComponents (extractTopLevel file2).1).1).1,
      c.module_name = "x_2" ∧ c.names = ["x"]) ∧
    (∀ c ∈ collisionGuard (repackComps cfg2
        (buildComponents (extractTopLevel file2).1).1).1,
      c.module_name = "x" → ("x") ∉ c.names) := by decide

/-- Claim C4 (amended): with distinct top-level names, the multiset of
verbatim source blocks the final modules emit equals one right-stripped
copy of every extracted item's span — so a compound assignment's shared
span appears once per target item, not once overall (the original claim is
refuted by `C4_compound_assign_rendered_twice`). -/
theorem C4_each_item_rendered_once_per_item (file : List PyStmt) (cfg : PackCfg)
    (hnd : ((extractTopLevel file).1.map Item.name).Nodup) :
    (((finalComps file cfg).map renderedBlocks).flatten).Perm
      ((extractTopLevel file).1.map fun it => pyRstrip it.source) := by
  have h1 : ((finalComps file cfg).map renderedBlocks).flatten
      = (((finalComps file cfg).map Comp.items).flatten).map
          (fun it => pyRstrip it.source) := by
    rw [List.map_flatten, List.map_map]
    rfl
  rw [h1]
  have h2 : (((finalComps file cfg).map Comp.items).flatten).Perm
      (extractTopLevel file).1 := by
    refine List.Perm.trans
      (repack_spec cfg (buildComponents_namesOK (extractTopLevel file).1)).2.1 ?_
    exact buildComponents_flatten_items (extractTopLevel file).1 hnd
      (extract_deps_closed file)
  exact h2.map _

/-- Claim C4 witness: on the compound assignment `a = b = 1` the emitted
blocks are one copy of the span per target. -/
theorem C4_each_item_rendered_once_per_item_witness :
    (((finalComps file3 {}).map renderedBlocks).flatten).Perm
      ((extractTopLevel file3).1.map fun it => pyRstrip it.source) :=
  C4_each_item_rendered_once_per_item file3 {} (by decide)

/-- Claim C4 counterexample: the span `a = b = 1` is extracted for two
items and therefore appears twice in the rendered output, not exactly
once. -/
theorem C4_compound_assign_rendered_twice :
    (∃ it ∈ (extractTopLevel file3).1, it.source = "a = b = 1") ∧
    ((planSingle file3 {}).1.map fun p => p.2.count ("a = b = 1")).sum = 2 := by
  decide

/-- Claim C5: the final components export exactly the extracted top-level
names, without duplicates; every rendered module lists its component's
names as `__all__`, and the package `__init__` lists the sorted
deduplicated union. -/
theorem C5_exported_names_cover_symbols (file : List PyStmt) (cfg : PackCfg)
    (hne : ∀ n ∈ (extractTopLevel file).1.map Item.name, n ≠ "") :
    (∀ x, x ∈ ((collisionGuard (repackComps cfg
        (buildComponents (extractTopLevel file).1).1).1).map Comp.names).flatten ↔
      x ∈ (extractTopLevel file).1.map Item.name) ∧
    (((collisionGuard (repackComps cfg
        (buildComponents (extractTopLevel file).1).1).1).map Comp.names).flatten).Nodup ∧
    (∀ (c : Comp) (imps : List String) (ntm : List (String × String)),
      ("__all__ = [" ++ joinComma (c.names.map pyRepr) ++ "]") ∈
        renderModuleLines c imps ntm) ∧
    ("__all__ = [" ++ joinComma ((sortStr ((((collisionGuard (repackComps cfg
        (buildComponents (extractTopLevel file).1).1).1).map
          Comp.names).flatten).dedup)).map pyRepr) ++ "]") ∈
      (planSingle file cfg).2 := by
  have hmap : (collisionGuard (repackComps cfg
      (buildComponents (extractTopLevel file).1).1).1).map Comp.names
      = (repackComps cfg (buildComponents (extractTopLevel file).1).1).1.map
          Comp.names :=
    collisionGuard_map Comp.names (fun _ _ => rfl) _
  have hiff := finalComps_names_iff file cfg
  refine ⟨?_, ?_, fun c imps ntm => renderModuleLines_exports c imps ntm, ?_⟩
  · intro x
    rw [hmap]
    exact hiff.1 x
  · rw [hmap]
    exact hiff.2
  · show _ ∈ renderInitLines (collisionGuard (repackComps cfg
      (buildComponents (extractTopLevel file).1).1).1)
    refine renderInitLines_all _ ?_
    intro c hc hj
    by_contra hne2
    obtain ⟨x, rest, hx⟩ := List.exists_cons_of_ne_nil hne2
    have hxmem : x ∈ ((collisionGuard (repackComps cfg
        (buildComponents (extractTopLevel file).1).1).1).map Comp.names).flatten :=
      List.mem_flatten.mpr ⟨c.names, List.mem_map.mpr ⟨c, hc, rfl⟩,
        by rw [hx]; exact List.mem_cons_self _ _⟩
    have hxext : x ∈ (extractTopLevel file).1.map Item.name := by
      rw [hmap] at hxmem
      exact (hiff.1 x).mp hxmem
    have hxne : x ≠ "" := hne x hxext
    rw [hx] at hj
    exact joinComma_ne_empty rest hxne hj

/-- Claim C5 witness: the coverage theorem applied to `file6` under the
default configuration, instantiated at the symbol `x`. -/
theorem C5_exported_names_cover_symbols_witness :
    (("x") ∈ ((collisionGuard (repackComps {}
        (buildComponents (extractTopLevel file6).1).1).1).map Comp.names).flatten ↔
      ("x") ∈ (extractTopLevel file6).1.map Item.name) ∧
    (((collisionGuard (repackComps {}
        (buildComponents (extractTopLevel file6).1).1).1).map Comp.names).flatten).Nodup :=
  ⟨(C5_exported_names_cover_symbols file6 {} (by decide)).1 ("x"),
   (C5_exported_names_cover_symbols file6 {} (by decide)).2.1⟩

/-- Claim C7 (amended): each rendered module emits its items' verbatim
right-stripped sources, each followed by a blank line, in the component's
stored item order, then the export list — and `build_components` stores
each component's items sorted case-insensitively by symbol name, not in
original top-level order (the original claim is refuted by
`C7_not_original_order`). -/
theorem C7_render_order :
    (∀ (c : Comp) (imps : List String) (ntm : List (String × String)),
      ∃ pre, renderModuleLines c imps ntm =
        pre ++ (c.items.flatMap fun it => [pyRstrip it.source, ""]) ++
          ["__all__ = [" ++ joinComma (c.names.map pyRepr) ++ "]", ""]) ∧
    (∀ (items : List Item), ∀ c ∈ (buildComponents items).1,
      c.items.Pairwise fun a b =>
        pyStrLe (pyLowerStr a.name) (pyLowerStr b.name) = true) :=
  ⟨renderModuleLines_blocks, buildComponents_items_sorted⟩

/-- Claim C7 counterexample: `file4` defines `b` before `a`, but the
rendered component emits `a` before `b` (case-insensitive name order, not
original top-level order). -/
theorem C7_not_original_order :
    (extractTopLevel file4).1.map (fun it => pyRstrip it.source)
        = [("def b():\n    return a()"), ("def a():\n    return b()")] ∧
    (finalComps file4 {}).map renderedBlocks
        = [[("def a():\n    return b()"), ("def b():\n    return a()")]] := by
  decide

/-- Claim C8 (amended): when `pack_small_lines > 0` and at least two
components are below the threshold *and not assignment-only*, step 2 merges
exactly those into one component renamed `core`; `constants` and `core`
are exempt from the later size-driven merge loops.  (The original claim is
refuted by `C8_small_assign_only_not_packed`: a small assignment-only
component is not packed into `core`.) -/
theorem C8_small_nonassign_packed_into_core :
    (∀ (psl : Int) (comps : List Comp) (a b : Comp) (rest : List Comp),
      psl > 0 →
      comps.filter (fun c => decide ((compLines c : Int) < psl) && !(assignOnly c))
        = a :: b :: rest →
      ∃ core ∈ packStep2 psl comps, core.module_name = "core" ∧
        ∀ c ∈ comps,
          (decide ((compLines c : Int) < psl) && !(assignOnly c)) = true →
          ∀ x ∈ c.names, x ∈ core.names) ∧
    (∀ (tooBig : Nat → Bool) (fuel : Nat) (comps : List Comp), NamesOK comps →
      ∀ c ∈ comps, c.module_name ∈ (["constants", "core"] : List String) →
        c ∈ shrinkLoop tooBig fuel comps) ∧
    (∀ (minL : Int) (fuel : Nat) (comps : List Comp), NamesOK comps →
      ∀ c ∈ comps, c.module_name ∈ (["constants", "core"] : List String) →
        c ∈ minLinesLoop minL fuel comps) := by
  refine ⟨?_, ?_, ?_⟩
  · intro psl comps a b rest hpsl hfa
    rw [packStep2_eq, if_pos hpsl]
    exact packMergeAll_covers _ ("core") comps hfa
  · intro tooBig fuel comps h c hc hr
    exact (shrinkLoop_spec tooBig fuel h).2.2.2.2 c hc hr
  · intro minL fuel comps h c hc hr
    exact (minLinesLoop_spec minL fuel h).2.2.2.2 c hc hr

/-- Claim C8 counterexample: under the defaults (threshold 40) the
one-line assignment-only component `x` of `file6` is below the threshold
and not reserved, yet it is not merged into `core`. -/
theorem C8_small_assign_only_not_packed :
    ({} : PackCfg).pack_small_lines = 40 ∧
    ∃ c ∈ finalComps file6 {}, compLines c = 1 ∧
      c.module_name ∉ (["constants", "core"] : List String) := by decide

/-- Claim C10 (amended): an assignment whose targets are all non-`Name`
nodes yields no item; a name that is not among the extracted item names
appears in no final component, and every rendered source block is the
right-stripped span of an extracted item.  (The original claim is refuted
by `C10_bound_name_still_exported`: a name bound by a tuple target can
still be exported when another statement also binds it.) -/
theorem C10_non_name_targets_dropped :
    (∀ (ts : List PyTarget) (r : List String) (s : String),
      (∀ t ∈ ts, ∀ nm, t ≠ PyTarget.name nm) →
        stmtItems (.assignS ts r s) = []) ∧
    (∀ (file : List PyStmt) (cfg : PackCfg) (n : String),
      n ∉ (extractTopLevel file).1.map Item.name →
      ∀ c ∈ finalComps file cfg, n ∉ c.names) ∧
    (∀ (file : List PyStmt) (cfg : PackCfg), ∀ c ∈ finalComps file cfg,
      ∀ b ∈ renderedBlocks c, ∃ it ∈ (extractTopLevel file).1,
        b = pyRstrip it.source) := by
  refine ⟨?_, ?_, ?_⟩
  · intro ts r s h
    show ts.filterMap _ = []
    rw [List.filterMap_eq_nil_iff]
    intro t ht
    cases t with
    | name nm => exact absurd rfl (h _ ht nm)
    | nonName bound => rfl
  · intro file cfg n hn c hc hmem
    refine hn ?_
    refine ((finalComps_names_iff file cfg).1 n).mp ?_
    exact List.mem_flatten.mpr ⟨c.names, List.mem_map.mpr ⟨c, hc, rfl⟩, hmem⟩
  · intro file cfg c hc b hb
    obtain ⟨it, hit, rfl⟩ := List.mem_map.mp hb
    exact ⟨it, finalComps_items_mem file cfg c hc it hit, rfl⟩

/-- Claim C10 counterexample: `file5` contains the tuple assignment
`a, b = g()` (binding `a` and `b`), yet `a` is exported — it is also bound
by the plain assignment `a = 1`. -/
theorem C10_bound_name_still_exported :
    ((PyStmt.assignS [.nonName ["a", "b"]] ["g"] ("a, b = g()")) ∈ file5) ∧
    stmtItems (.assignS [.nonName ["a", "b"]] ["g"] ("a, b = g()")) = [] ∧
    ∃ c ∈ finalComps file5 {}, ("a") ∈ c.names := by decide

end Autoparts
